import Mathlib

/-!
# Word-frequency counter: chunked pipeline, boundary merge and ranking

A shallow embedding of `pkg/count` (`manual.go`, `scanner.go`).

Conventions of the embedding.

* A Go `string` / `[]byte` is a `List Nat` of bytes (every value below 256 in
  real inputs).
* Go's `int` counters are `Int`: a counter is bounded by the number of bytes
  read, so 64-bit wrap-around is out of reach.
* A Go `map[string]*int` is an association list with one entry per key.  The
  order of the list stands for the order in which `range` enumerates the map,
  which Go leaves unspecified.
* The loop `for i := 0; i < n; { ...; i += size }` is run with a step budget of
  `n`; every iteration advances `i` by at least one, so the budget is never
  exhausted before the loop condition fails (`scanLoop_done`).
* The standard-library functions `utf8.DecodeRune`, `utf8.AppendRune`,
  `unicode.IsSpace`, `strings.ToLower` / `bytes.ToLower` and `sort.Slice` are
  modelled from their documented behaviour.  The Unicode case table used by
  `unicode.ToLower` above U+007F is a parameter `caseTable`.
-/

namespace Count

/-! ## Standard-library primitives -/

/-- The replacement code point U+FFFD (`utf8.RuneError`). -/
def RuneError : Nat := 0xFFFD

/-- Continuation-byte test used by `utf8.DecodeRune` (`locb <= b <= hicb`). -/
def isCont (b : Nat) : Bool := decide (0x80 ≤ b) && decide (b ≤ 0xBF)

/-- Go's `utf8.DecodeRune(p)`: the first code point of `p` and its width.
Invalid or truncated encodings give `(RuneError, 1)`, the empty slice gives
`(RuneError, 0)`. -/
def DecodeRune (p : List Nat) : Nat × Nat :=
  match p with
  | [] => (RuneError, 0)
  | p0 :: t =>
    if p0 < 0x80 then (p0, 1)
    else if 0xC2 ≤ p0 ∧ p0 ≤ 0xDF then
      match t with
      | b1 :: _ => if isCont b1 then ((p0 % 32) * 64 + b1 % 64, 2) else (RuneError, 1)
      | _ => (RuneError, 1)
    else if 0xE0 ≤ p0 ∧ p0 ≤ 0xEF then
      match t with
      | b1 :: b2 :: _ =>
        let lo := if p0 = 0xE0 then 0xA0 else 0x80
        let hi := if p0 = 0xED then 0x9F else 0xBF
        if lo ≤ b1 ∧ b1 ≤ hi ∧ isCont b2 = true then
          ((p0 % 16) * 4096 + (b1 % 64) * 64 + b2 % 64, 3)
        else (RuneError, 1)
      | _ => (RuneError, 1)
    else if 0xF0 ≤ p0 ∧ p0 ≤ 0xF4 then
      match t with
      | b1 :: b2 :: b3 :: _ =>
        let lo := if p0 = 0xF0 then 0x90 else 0x80
        let hi := if p0 = 0xF4 then 0x8F else 0xBF
        if lo ≤ b1 ∧ b1 ≤ hi ∧ isCont b2 = true ∧ isCont b3 = true then
          ((p0 % 8) * 262144 + (b1 % 64) * 4096 + (b2 % 64) * 64 + b3 % 64, 4)
        else (RuneError, 1)
      | _ => (RuneError, 1)
    else (RuneError, 1)

/-- Go's `utf8.AppendRune(nil, r)`: the UTF-8 encoding of `r`; surrogates and
values above U+10FFFF are written as U+FFFD. -/
def EncodeRune (r : Nat) : List Nat :=
  if r < 0x80 then [r]
  else if r < 0x800 then [0xC0 + r / 64, 0x80 + r % 64]
  else if (0xD800 ≤ r ∧ r ≤ 0xDFFF) ∨ 0x10FFFF < r then [0xEF, 0xBF, 0xBD]
  else if r < 0x10000 then [0xE0 + r / 4096, 0x80 + (r / 64) % 64, 0x80 + r % 64]
  else [0xF0 + r / 262144, 0x80 + (r / 4096) % 64, 0x80 + (r / 64) % 64, 0x80 + r % 64]

/-- Go's `unicode.IsSpace`: the Latin-1 cases `\t \n \v \f \r`, space, U+0085,
U+00A0, and the `White_Space` code points above Latin-1. -/
def IsSpace (r : Nat) : Bool :=
  if r ≤ 0xFF then
    decide (r = 0x09 ∨ r = 0x0A ∨ r = 0x0B ∨ r = 0x0C ∨ r = 0x0D ∨ r = 0x20 ∨ r = 0x85 ∨ r = 0xA0)
  else
    decide (r = 0x1680 ∨ (0x2000 ≤ r ∧ r ≤ 0x200A) ∨ r = 0x2028 ∨ r = 0x2029 ∨ r = 0x202F
      ∨ r = 0x205F ∨ r = 0x3000)

/-- Go's `unicode.ToLower`: ASCII letters are handled inline, every other code
point goes through the Unicode case table, here the parameter `caseTable`. -/
def unicodeToLower (caseTable : Nat → Nat) (r : Nat) : Nat :=
  if r ≤ 0x7F then (if 0x41 ≤ r ∧ r ≤ 0x5A then r + 0x20 else r) else caseTable r

/-- The loop of Go's `bytes.Map` / `strings.Map`: decode a code point, map it,
append its encoding, advance by the decoded width. -/
def mapLoop (mapping : Nat → Nat) : Nat → List Nat → List Nat
  | 0, _ => []
  | _ + 1, [] => []
  | fuel + 1, b :: s =>
    let d := DecodeRune (b :: s)
    EncodeRune (mapping d.1) ++ mapLoop mapping fuel ((b :: s).drop d.2)

/-- Go's `strings.ToLower` / `bytes.ToLower` (the two agree byte for byte):
an ASCII-only input is lower-cased bytewise, any other input is mapped code
point by code point with `unicode.ToLower`. -/
def ToLower (caseTable : Nat → Nat) (s : List Nat) : List Nat :=
  if s.all (fun c => decide (c < 0x80)) then
    s.map (fun c => if 0x41 ≤ c ∧ c ≤ 0x5A then c + 0x20 else c)
  else mapLoop (unicodeToLower caseTable) s.length s

/-- A case table that leaves every code point above U+007F unchanged.  It agrees
with Go's table on U+FFFD, on every whitespace code point and on every code
point that has no lower-case form. -/
def caselessTable : Nat → Nat := fun r => r

/-- Go's `a < b` on strings: bytewise lexicographic order. -/
def strLess : List Nat → List Nat → Bool
  | [], [] => false
  | [], _ :: _ => true
  | _ :: _, [] => false
  | a :: as, b :: bs => decide (a < b) || (decide (a = b) && strLess as bs)

/-- Insertion of one element into a list ordered by `less`, after every element
that is not greater. -/
def sortInsert {α : Type} (less : α → α → Bool) (a : α) : List α → List α
  | [] => [a]
  | b :: l => if less a b then a :: b :: l else b :: sortInsert less a l

/-- Go's `sort.Slice(xs, less)`, modelled by insertion sort.  `sort.Slice` is not
stable; where `less` is a strict total order on the elements present (the two
uses in this package: distinct words, distinct ordinals) every correct sort
returns the same list (`sorted_perm_unique`). -/
def sortSlice {α : Type} (less : α → α → Bool) : List α → List α
  | [] => []
  | a :: l => sortInsert less a (sortSlice less l)

/-- Go's slice expression `buf[lo:hi]`. -/
def slice (buf : List Nat) (lo hi : Nat) : List Nat := (buf.drop lo).take (hi - lo)

/-! ## scanner.go -/

/-- The `WordWithFrequency` record. -/
structure WordWithFrequency where
  Word : List Nat
  Frequency : Int
deriving DecidableEq

/-- A `map[string]*int`: one `(key, counter)` entry per key. -/
abbrev FreqMap := List (List Nat × Int)

/-- The lookup `m[k]`: the counter of `k`, or `none` when `k` is not a key. -/
def lookup (m : FreqMap) (k : List Nat) : Option Int :=
  match m with
  | [] => none
  | (k', c) :: rest => if k' = k then some c else lookup rest k

/-- The count of `k` in `m`, 0 when `k` is absent. -/
def countOf (m : FreqMap) (k : List Nat) : Int := (lookup m k).getD 0

/-- The function `incFreq(m, k)`: create the counter at 0 when `k` is absent, then add one. -/
def incFreq (m : FreqMap) (k : List Nat) : FreqMap :=
  match m with
  | [] => [(k, 0 + 1)]
  | (k', c) :: rest => if k' = k then (k', c + 1) :: rest else (k', c) :: incFreq rest k

/-- The function `addFreq(m, k, freq)`: create the counter at 0 when `k` is absent, then add `freq`. -/
def addFreq (m : FreqMap) (k : List Nat) (freq : Int) : FreqMap :=
  match m with
  | [] => [(k, 0 + freq)]
  | (k', c) :: rest => if k' = k then (k', c + freq) :: rest else (k', c) :: addFreq rest k freq

/-- The comparator of `getResult`: frequency descending, then word ascending. -/
def resLess (a b : WordWithFrequency) : Bool :=
  if a.Frequency > b.Frequency then true
  else if a.Frequency < b.Frequency then false
  else strLess a.Word b.Word

/-- The record `getResult` appends for a map entry (lines 49-52). -/
def toRecord (e : List Nat × Int) : WordWithFrequency := { Word := e.1, Frequency := e.2 }

/-- The function `getResult`: one record per map entry, in enumeration order, then sorted. -/
def getResult (freqByWord : FreqMap) : List WordWithFrequency :=
  sortSlice resLess (freqByWord.map toRecord)

/-! ## manual.go -/

/-- The `chunk` record: ordinal, pooled buffer, number of bytes read into it.
A read guarantees `n ≤ data.length`; the bytes of `data` from offset `n` on are
whatever the buffer held before the read. -/
structure chunk where
  num : Nat
  data : List Nat
  n : Nat
deriving DecidableEq

/-- The `workerWords` record (the buffer pointer, kept only to return the
buffer to the pool, is left out). -/
structure workerWords where
  num : Nat
  freqByWord : FreqMap
  begin : List Nat
  reminder : List Nat
  chunkIsWord : Bool
deriving DecidableEq

/-- The `splitPart` record. -/
structure splitPart where
  num : Nat
  begin : List Nat
  reminder : List Nat
  chunkIsWord : Bool
deriving DecidableEq

/-- The local variables of the scanning loop of `runWorker`. -/
structure ScanState where
  i : Nat
  wordStart : Nat
  beginMet : Bool
  chunkIsWord : Bool
  begin : List Nat
  freqByWord : FreqMap
deriving DecidableEq

/-- The state of `runWorker` before the loop. -/
def scanInit : ScanState :=
  { i := 0, wordStart := 0, beginMet := false, chunkIsWord := true, begin := [], freqByWord := [] }

/-- One iteration of the loop of `runWorker` (lines 328-343). -/
def scanStep (caseTable : Nat → Nat) (buf : List Nat) (st : ScanState) : ScanState :=
  let d := DecodeRune (buf.drop st.i)
  let r := d.1
  let size := d.2
  let st1 :=
    if IsSpace r then
      let st2 :=
        if st.wordStart ≠ st.i + size - 1 then
          if st.beginMet then
            { st with freqByWord :=
                incFreq st.freqByWord (ToLower caseTable (slice buf st.wordStart st.i)) }
          else
            { st with begin := slice buf st.wordStart st.i }
        else st
      { st2 with beginMet := true, chunkIsWord := false, wordStart := st.i + 1 }
    else st
  { st1 with i := st.i + size }

/-- The loop `for i := 0; i < ch.n; { ... }` of `runWorker`, with a step budget. -/
def scanLoop (caseTable : Nat → Nat) (buf : List Nat) (n : Nat) : Nat → ScanState → ScanState
  | 0, st => st
  | fuel + 1, st =>
    if st.i < n then scanLoop caseTable buf n fuel (scanStep caseTable buf st) else st

/-- The body of `runWorker` for one chunk: scan the buffer up to `ch.n`, then
report the tail as `reminder` when a whitespace was met and as `begin` otherwise. -/
def runWorker (caseTable : Nat → Nat) (ch : chunk) : workerWords :=
  let st := scanLoop caseTable ch.data ch.n ch.n scanInit
  if st.beginMet then
    { num := ch.num, freqByWord := st.freqByWord, begin := st.begin,
      reminder := slice ch.data st.wordStart ch.n, chunkIsWord := st.chunkIsWord }
  else
    { num := ch.num, freqByWord := st.freqByWord, begin := slice ch.data st.wordStart ch.n,
      reminder := [], chunkIsWord := st.chunkIsWord }

/-- One iteration of the loop of `mergeSplitParts` on the pair (`word`, `freqByWord`). -/
def mergeStep (caseTable : Nat → Nat) (st : List Nat × FreqMap) (part : splitPart) :
    List Nat × FreqMap :=
  let word := st.1 ++ part.begin
  let st1 :=
    if !part.chunkIsWord then
      if word.length ≠ 0 then (([] : List Nat), incFreq st.2 (ToLower caseTable word))
      else (word, st.2)
    else (word, st.2)
  (st1.1 ++ part.reminder, st1.2)

/-- The final flush of `mergeSplitParts` (lines 292-294). -/
def mergeFlush (caseTable : Nat → Nat) (st : List Nat × FreqMap) : FreqMap :=
  if st.1.length ≠ 0 then incFreq st.2 (ToLower caseTable st.1) else st.2

/-- The comparator of the sort in `mergeSplitParts` (line 279). -/
def numLess (a b : splitPart) : Bool := decide (a.num < b.num)

/-- The function `mergeSplitParts`: sort the records by ordinal, walk them, flush. -/
def mergeSplitParts (caseTable : Nat → Nat) (splitParts : List splitPart)
    (freqByWord : FreqMap) : FreqMap :=
  let sorted := sortSlice numLess splitParts
  mergeFlush caseTable (sorted.foldl (mergeStep caseTable) ([], freqByWord))

/-- The collector's merge of one local map (lines 251-253): `addFreq` for every
entry of the local map, in its enumeration order. -/
def mergeLocal (freqByWord : FreqMap) (loc : FreqMap) : FreqMap :=
  loc.foldl (fun m e => addFreq m e.1 e.2) freqByWord

/-- The boundary record the collector keeps of a worker result (lines 254-259). -/
def partOf (res : workerWords) : splitPart :=
  { num := res.num, begin := res.begin, reminder := res.reminder, chunkIsWord := res.chunkIsWord }

/-- The collector's loop body (lines 251-259): merge the worker's local map
into the global one and append the boundary record. -/
def collectStep (acc : FreqMap × List splitPart) (res : workerWords) :
    FreqMap × List splitPart :=
  (mergeLocal acc.1 res.freqByWord, acc.2 ++ [partOf res])

/-- The collector: worker results are consumed in their order of arrival. -/
def collect (results : List workerWords) : FreqMap × List splitPart :=
  results.foldl collectStep ([], [])

/-- The global frequency table after collection and boundary merge. -/
def globalTable (caseTable : Nat → Nat) (results : List workerWords) : FreqMap :=
  mergeSplitParts caseTable (collect results).2 (collect results).1

/-- The chunk source in one particular run: every read takes the next `size`
bytes (fewer only at the end) and lands in a fresh zero-filled buffer of `size`
bytes; chunks are numbered from 0, and an exhausted stream publishes nothing.
The reader of the source, with short reads and buffers that come back from the
pool with the bytes of an earlier chunk, is `readerLoop`. -/
def readChunks (size : Nat) : Nat → Nat → List Nat → List chunk
  | 0, _, _ => []
  | _ + 1, _, [] => []
  | fuel + 1, i, b :: s =>
    let got := (b :: s).take size
    { num := i, data := got ++ List.replicate (size - got.length) 0, n := got.length }
      :: readChunks size fuel (i + 1) ((b :: s).drop size)

/-- The parallel counter on a list of chunks, workers' results arriving in
chunk order: `runWorker` per chunk, collection, `mergeSplitParts`, `getResult`. -/
def countChunks (caseTable : Nat → Nat) (chunks : List chunk) : List WordWithFrequency :=
  getResult (globalTable caseTable (chunks.map (runWorker caseTable)))

/-- The parallel counter on a stream cut into chunks of `size` bytes. -/
def countParallel (caseTable : Nat → Nat) (size : Nat) (input : List Nat) :
    List WordWithFrequency :=
  countChunks caseTable (readChunks size input.length 0 input)

/-! ## The sequential reference tokenizer -/

/-- The reference single pass over the whole stream, in the words of the
specification (it is the loop of `WithManualParsing` run on one read that holds
the whole stream): decode code point by code point; a whitespace code point
ends the pending token, which is lower-cased and counted when non-empty; any
other code point's bytes extend the token; the token pending at the end of the
stream is counted too. -/
def seqLoop (caseTable : Nat → Nat) : Nat → List Nat → List Nat → FreqMap → FreqMap
  | 0, _, word, m => if word.length ≠ 0 then incFreq m (ToLower caseTable word) else m
  | _ + 1, [], word, m => if word.length ≠ 0 then incFreq m (ToLower caseTable word) else m
  | fuel + 1, b :: s, word, m =>
    let d := DecodeRune (b :: s)
    if IsSpace d.1 then
      seqLoop caseTable fuel ((b :: s).drop d.2) []
        (if word.length ≠ 0 then incFreq m (ToLower caseTable word) else m)
    else
      seqLoop caseTable fuel ((b :: s).drop d.2) (word ++ (b :: s).take d.2) m

/-- The frequency table of the sequential reference tokenizer. -/
def sequentialTable (caseTable : Nat → Nat) (input : List Nat) : FreqMap :=
  seqLoop caseTable input.length input [] []

/-- The ranked list of the sequential reference tokenizer. -/
def countSequential (caseTable : Nat → Nat) (input : List Nat) : List WordWithFrequency :=
  getResult (sequentialTable caseTable input)

/-! ## The input stream and the counters that read it -/

/-- The error value of a read: `io.EOF` or any other error. -/
inductive ioError where
  | EOF
  | failure (code : Nat)
deriving DecidableEq

/-- The outcome of one call `r.Read(buf)`: the buffer after the call, the number
`n` of bytes the call stored at its start, and the error it returned. -/
structure readCall where
  data : List Nat
  n : Nat
  err : Option ioError
deriving DecidableEq

/-- The reader goroutine of `WithManualParsingNoWordAllocParallel` (lines
201-230): the chunks it publishes, numbered from `i`, and the error it returns
(`none` for `nil`).  A read with `io.EOF` ends the loop without an error, any
other error ends it with that error, and a stream with no outcome left is
exhausted. -/
def readerLoop : Nat → List readCall → List chunk × Option ioError
  | _, [] => ([], none)
  | i, c :: rest =>
    match c.err with
    | some ioError.EOF => ([], none)
    | some e => ([], some e)
    | none =>
      ({ num := i, data := c.data, n := c.n } :: (readerLoop (i + 1) rest).1,
        (readerLoop (i + 1) rest).2)

/-- The function `WithManualParsingNoWordAllocParallel` as the pair
(result, error) it returns.  The error group hands back the first error
recorded; workers and collector fail only after the context is cancelled,
which happens once an error is recorded, so that error is the reader's
(lines 267-269).  Without an error the collected results are merged and
ranked (lines 271-274). -/
def WithManualParsingNoWordAllocParallel (caseTable : Nat → Nat) (reads : List readCall) :
    Option (List WordWithFrequency) × Option ioError :=
  match (readerLoop 0 reads).2 with
  | some e => (none, some e)
  | none =>
    (some (getResult (globalTable caseTable ((readerLoop 0 reads).1.map (runWorker caseTable)))),
      none)

/-- The inner loop of `WithManualParsing` (lines 110-123) on the pair
(`word`, `freqByWord`), with a step budget. -/
def parseLoop (caseTable : Nat → Nat) (buf : List Nat) (n : Nat) :
    Nat → Nat → List Nat × FreqMap → List Nat × FreqMap
  | 0, _, st => st
  | fuel + 1, i, st =>
    if i < n then
      let d := DecodeRune (buf.drop i)
      if IsSpace d.1 then
        if st.1.length ≠ 0 then
          parseLoop caseTable buf n fuel (i + d.2) ([], incFreq st.2 (ToLower caseTable st.1))
        else parseLoop caseTable buf n fuel (i + d.2) st
      else parseLoop caseTable buf n fuel (i + d.2) (st.1 ++ slice buf i (i + d.2), st.2)
    else st

/-- The outer loop of `WithManualParsing` (lines 101-124): the state after the
last read and the error returned. -/
def parseReads (caseTable : Nat → Nat) :
    List readCall → List Nat × FreqMap → (List Nat × FreqMap) × Option ioError
  | [], st => (st, none)
  | c :: rest, st =>
    match c.err with
    | some ioError.EOF => (st, none)
    | some e => (st, some e)
    | none => parseReads caseTable rest (parseLoop caseTable c.data c.n c.n 0 st)

/-- The function `WithManualParsing` as the pair (result, error) it returns. -/
def WithManualParsing (caseTable : Nat → Nat) (reads : List readCall) :
    Option (List WordWithFrequency) × Option ioError :=
  match (parseReads caseTable reads ([], [])).2 with
  | some e => (none, some e)
  | none => (some (getResult (mergeFlush caseTable (parseReads caseTable reads ([], [])).1)), none)

/-- The variables of `WithManualParsingNoWordAlloc` that live across reads. -/
structure NoAllocState where
  reminderFromPrevRead : List Nat
  wordStart : Nat
  freqByWord : FreqMap
deriving DecidableEq

/-- One iteration of the inner loop of `WithManualParsingNoWordAlloc` (lines
148-166) at offset `i`, the decoded width being `size`. -/
def noAllocStep (caseTable : Nat → Nat) (buf : List Nat) (i : Nat) (st : NoAllocState) :
    NoAllocState :=
  let d := DecodeRune (buf.drop i)
  let size := d.2
  if IsSpace d.1 then
    let st1 :=
      if st.reminderFromPrevRead.length ≠ 0 then
        { st with
          freqByWord := incFreq st.freqByWord (ToLower caseTable st.reminderFromPrevRead),
          reminderFromPrevRead := [] }
      else
        if st.wordStart ≠ i + size - 1 then
          { st with
            freqByWord := incFreq st.freqByWord (ToLower caseTable (slice buf st.wordStart i)) }
        else st
    { st1 with wordStart := i + 1 }
  else
    if st.reminderFromPrevRead.length ≠ 0 then
      { st with reminderFromPrevRead := st.reminderFromPrevRead ++ slice buf i (i + size) }
    else st

/-- The inner loop of `WithManualParsingNoWordAlloc` (lines 147-167), with a
step budget. -/
def noAllocLoop (caseTable : Nat → Nat) (buf : List Nat) (n : Nat) :
    Nat → Nat → NoAllocState → NoAllocState
  | 0, _, st => st
  | fuel + 1, i, st =>
    if i < n then
      noAllocLoop caseTable buf n fuel (i + (DecodeRune (buf.drop i)).2)
        (noAllocStep caseTable buf i st)
    else st

/-- The body of the outer loop of `WithManualParsingNoWordAlloc` for one
successful read (lines 147-170): the inner loop, then the tail of the buffer is
appended to the reminder and `wordStart` is reset. -/
def noAllocRead (caseTable : Nat → Nat) (c : readCall) (st : NoAllocState) : NoAllocState :=
  let st1 := noAllocLoop caseTable c.data c.n c.n 0 st
  { st1 with
    reminderFromPrevRead := st1.reminderFromPrevRead ++ slice c.data st1.wordStart c.n,
    wordStart := 0 }

/-- The outer loop of `WithManualParsingNoWordAlloc` (lines 138-171). -/
def noAllocReads (caseTable : Nat → Nat) :
    List readCall → NoAllocState → NoAllocState × Option ioError
  | [], st => (st, none)
  | c :: rest, st =>
    match c.err with
    | some ioError.EOF => (st, none)
    | some e => (st, some e)
    | none => noAllocReads caseTable rest (noAllocRead caseTable c st)

/-- The function `WithManualParsingNoWordAlloc` as the pair (result, error) it
returns. -/
def WithManualParsingNoWordAlloc (caseTable : Nat → Nat) (reads : List readCall) :
    Option (List WordWithFrequency) × Option ioError :=
  let r := noAllocReads caseTable reads
    { reminderFromPrevRead := [], wordStart := 0, freqByWord := [] }
  match r.2 with
  | some e => (none, some e)
  | none =>
    (some (getResult
      (if r.1.reminderFromPrevRead.length ≠ 0 then
        incFreq r.1.freqByWord (ToLower caseTable r.1.reminderFromPrevRead)
      else r.1.freqByWord)), none)

/-! ## res.go, with the parts of `strconv` and `encoding/csv` it uses -/

/-- The decimal digits of `n` as ASCII bytes, least significant first, with a
step budget. -/
def digitsRev : Nat → Nat → List Nat
  | 0, _ => []
  | fuel + 1, n => if n < 10 then [48 + n] else (48 + n % 10) :: digitsRev fuel (n / 10)

/-- The decimal form of a natural number. -/
def formatNat (n : Nat) : List Nat := (digitsRev (n + 1) n).reverse

/-- Go's `strconv.Itoa`: a minus sign for negative values, then the decimal
digits of the magnitude. -/
def Itoa (i : Int) : List Nat :=
  if i < 0 then 45 :: formatNat i.natAbs else formatNat i.natAbs

/-- The value of a run of decimal digits, `none` when a byte is not a digit. -/
def parseDigits : List Nat → Nat → Option Nat
  | [], acc => some acc
  | c :: s, acc => if 48 ≤ c ∧ c ≤ 57 then parseDigits s (acc * 10 + (c - 48)) else none

/-- Go's `strconv.Atoi` on a 64-bit platform: an optional sign, at least one
decimal digit and nothing else, the value within the range of `int`; `none`
stands for the error. -/
def Atoi (s : List Nat) : Option Int :=
  match s with
  | [] => none
  | 45 :: ds =>
    if ds = [] then none
    else (parseDigits ds 0).bind (fun n => if n ≤ 2 ^ 63 then some (-(n : Int)) else none)
  | 43 :: ds =>
    if ds = [] then none
    else (parseDigits ds 0).bind (fun n => if n < 2 ^ 63 then some (n : Int) else none)
  | ds => (parseDigits ds 0).bind (fun n => if n < 2 ^ 63 then some (n : Int) else none)

/-- The test `fieldNeedsQuotes` of `csv.Writer` with the comma as delimiter. -/
def fieldNeedsQuotes (field : List Nat) : Bool :=
  if field = [] then false
  else if field = [92, 46] then true
  else if field.any (fun c => decide (c = 10 ∨ c = 13 ∨ c = 34 ∨ c = 44)) then true
  else IsSpace (DecodeRune field).1

/-- The body of a quoted field as `csv.Writer` writes it (`UseCRLF` off): a
quote is doubled, every other byte is copied. -/
def escapeField : List Nat → List Nat
  | [] => []
  | c :: s => if c = 34 then 34 :: 34 :: escapeField s else c :: escapeField s

/-- One field as `csv.Writer.Write` writes it. -/
def writeField (field : List Nat) : List Nat :=
  if fieldNeedsQuotes field then 34 :: escapeField field ++ [34] else field

/-- The line `csv.Writer.Write` writes for the row of `WriteResult`: the word,
a comma, the frequency in decimal, a line feed. -/
def writeRow (e : WordWithFrequency) : List Nat :=
  writeField e.Word ++ [44] ++ writeField (Itoa e.Frequency) ++ [10]

/-- The function `WriteResult` on an in-memory writer (which never fails): the
text written. -/
def WriteResult (words : List WordWithFrequency) : List Nat :=
  (words.map writeRow).flatten

/-- The input up to and including its first line feed, and what follows; the
whole input when it holds no line feed. -/
def splitLine : List Nat → List Nat × List Nat
  | [] => ([], [])
  | c :: s => if c = 10 then ([c], s) else (c :: (splitLine s).1, (splitLine s).2)

/-- The method `readLine` of `csv.Reader`: the next line, the input left and
whether the input was exhausted.  A line ending in carriage return, line feed
ends in line feed alone; a last line without line feed loses a trailing
carriage return. -/
def readLine (input : List Nat) : List Nat × List Nat × Bool :=
  if input = [] then ([], [], true)
  else
    (match (splitLine input).1.reverse with
      | 10 :: 13 :: front => (10 :: front).reverse
      | 10 :: _ => (splitLine input).1
      | 13 :: front => front.reverse
      | _ => (splitLine input).1,
     (splitLine input).2, false)

/-- The bytes before and after the first occurrence of `c`, as `bytes.IndexByte`
cuts a line. -/
def indexByte (c : Nat) : List Nat → Option (List Nat × List Nat)
  | [] => none
  | b :: s =>
    if b = c then some ([], s)
    else
      match indexByte c s with
      | some p => some (b :: p.1, p.2)
      | none => none

/-- The function `lengthNL` of `csv.Reader`. -/
def lengthNL (line : List Nat) : Nat := if line.getLast? = some 10 then 1 else 0

/-- The parse errors of `csv.Reader`. -/
inductive csvError where
  | bareQuote
  | quote
  | fieldCount
deriving DecidableEq

/-- The field loop of `csv.Reader.readRecord` with the default settings, with a
step budget.  `acc` is `none` at the start of a field and holds the bytes
gathered so far inside a quoted field.  The result is the record and the
input left. -/
def parseRecord : Nat → Option (List Nat) → List Nat → List Nat → List (List Nat) →
    Except csvError (List (List Nat) × List Nat)
  | 0, _, _, _, _ => Except.error csvError.quote
  | fuel + 1, none, line, input, fields =>
    if line.head? ≠ some 34 then
      match indexByte 44 line with
      | some p =>
        if 34 ∈ p.1 then Except.error csvError.bareQuote
        else parseRecord fuel none p.2 input (fields ++ [p.1])
      | none =>
        if 34 ∈ line.take (line.length - lengthNL line) then Except.error csvError.bareQuote
        else Except.ok (fields ++ [line.take (line.length - lengthNL line)], input)
    else parseRecord fuel (some []) line.tail input fields
  | fuel + 1, some acc, line, input, fields =>
    match indexByte 34 line with
    | some p =>
      match p.2 with
      | 34 :: l => parseRecord fuel (some (acc ++ p.1 ++ [34])) l input fields
      | 44 :: l => parseRecord fuel none l input (fields ++ [acc ++ p.1])
      | post =>
        if lengthNL post = post.length then Except.ok (fields ++ [acc ++ p.1], input)
        else Except.error csvError.quote
    | none =>
      if line.length > 0 then
        parseRecord fuel (some (acc ++ line)) (readLine input).1 (readLine input).2.1 fields
      else Except.error csvError.quote

/-- The loop of `readRecord` that reads the first line of a record, skipping
empty lines; `none` at the end of the input. -/
def firstLine : Nat → List Nat → Option (List Nat × List Nat)
  | 0, _ => none
  | fuel + 1, input =>
    if (readLine input).2.2 then none
    else if (readLine input).1.length = lengthNL (readLine input).1 then
      firstLine fuel (readLine input).2.1
    else some ((readLine input).1, (readLine input).2.1)

/-- The state of a `csv.Reader`: the input left and `FieldsPerRecord` (0 until
the first record sets it). -/
structure csvReader where
  input : List Nat
  fieldsPerRecord : Nat
deriving DecidableEq

/-- The outcome of `csv.Reader.Read`. -/
inductive csvRead where
  | eof
  | fail (e : csvError)
  | record (fields : List (List Nat)) (next : csvReader)
deriving DecidableEq

/-- The method `csv.Reader.Read` with the default settings. -/
def readRecord (r : csvReader) : csvRead :=
  match firstLine (r.input.length + 1) r.input with
  | none => csvRead.eof
  | some p =>
    match parseRecord (p.1.length + p.2.length + 1) none p.1 p.2 [] with
    | Except.error e => csvRead.fail e
    | Except.ok q =>
      if r.fieldsPerRecord > 0 then
        if q.1.length ≠ r.fieldsPerRecord then csvRead.fail csvError.fieldCount
        else csvRead.record q.1 { input := q.2, fieldsPerRecord := r.fieldsPerRecord }
      else csvRead.record q.1 { input := q.2, fieldsPerRecord := q.1.length }

/-- What a call of `ReadResult` comes to: the list it returns, the error it
returns (a parse error of the reader, or `wrongFrequency` for a frequency that
`Atoi` rejects), or a run-time panic. -/
inductive readOutcome where
  | ok (words : List WordWithFrequency)
  | csvFailure (e : csvError)
  | wrongFrequency (line : Nat)
  | indexOutOfRange
deriving DecidableEq

/-- The loop of `ReadResult` (lines 31-49), with a step budget: `rec[1]` is
taken without a length check, so a record with one field panics. -/
def readLoop : Nat → Nat → csvReader → List WordWithFrequency → readOutcome
  | 0, _, _, words => readOutcome.ok words
  | fuel + 1, i, r, words =>
    match readRecord r with
    | csvRead.eof => readOutcome.ok words
    | csvRead.fail e => readOutcome.csvFailure e
    | csvRead.record rec next =>
      match rec with
      | f0 :: f1 :: _ =>
        match Atoi f1 with
        | none => readOutcome.wrongFrequency i
        | some freq => readLoop fuel (i + 1) next (words ++ [{ Word := f0, Frequency := freq }])
      | _ => readOutcome.indexOutOfRange

/-- The function `ReadResult` on the text of an in-memory reader. -/
def ReadResult (text : List Nat) : readOutcome :=
  readLoop (text.length + 1) 0 { input := text, fieldsPerRecord := 0 } []

/-! ## The chunk in the words of the specification -/

/-- The bytes of a chunk: the first `n` bytes of its buffer. -/
def chunkBytes (ch : chunk) : List Nat := ch.data.take ch.n

/-- The code points of a byte string, decoded left to right, each as
(offset, code point, width). -/
def runesFrom : Nat → Nat → List Nat → List (Nat × Nat × Nat)
  | 0, _, _ => []
  | _ + 1, _, [] => []
  | fuel + 1, off, b :: s =>
    let d := DecodeRune (b :: s)
    (off, d.1, d.2) :: runesFrom fuel (off + d.2) ((b :: s).drop d.2)

/-- The whitespace code points of a byte string, each as (offset, width). -/
def spacesOf (bytes : List Nat) : List (Nat × Nat) :=
  ((runesFrom bytes.length 0 bytes).filter (fun x => IsSpace x.2.1)).map (fun x => (x.1, x.2.2))

/-- The byte run before the first whitespace code point, the whole string when
there is none. -/
def beforeFirstSpace (bytes : List Nat) : List Nat :=
  match (spacesOf bytes).head? with
  | none => bytes
  | some x => bytes.take x.1

/-- The byte run after the last whitespace code point, empty when there is none. -/
def afterLastSpace (bytes : List Nat) : List Nat :=
  match (spacesOf bytes).getLast? with
  | none => []
  | some x => bytes.drop (x.1 + x.2)

/-! ## Auxiliary functions used in the proofs -/

/-- The sum of the counters that the entries of `entries` carry for the key `w`. -/
def sumFor (entries : List (List Nat × Int)) (w : List Nat) : Int :=
  match entries with
  | [] => 0
  | e :: rest => (if e.1 = w then e.2 else 0) + sumFor rest w

/-- The words that the loop and the final flush of `mergeSplitParts` count, in
order, when the loop starts with the pending bytes `word`. -/
def mergeWords (caseTable : Nat → Nat) : List Nat → List splitPart → List (List Nat)
  | word, [] => if word.length ≠ 0 then [ToLower caseTable word] else []
  | word, part :: rest =>
    if !part.chunkIsWord then
      if (word ++ part.begin).length ≠ 0 then
        ToLower caseTable (word ++ part.begin) :: mergeWords caseTable ([] ++ part.reminder) rest
      else mergeWords caseTable (word ++ part.begin ++ part.reminder) rest
    else mergeWords caseTable (word ++ part.begin ++ part.reminder) rest

/-- The word counted when the pending bytes `word` are flushed: none when
`word` is empty. -/
def flushWord (caseTable : Nat → Nat) (word : List Nat) : List (List Nat) :=
  if word.length ≠ 0 then [ToLower caseTable word] else []

/-- The sequential walk over one-byte code points `s` with `word` pending: the
words counted on the way and the bytes pending at the end. -/
def asciiScan (caseTable : Nat → Nat) : List Nat → List Nat → List (List Nat) × List Nat
  | [], word => ([], word)
  | b :: s, word =>
    if IsSpace b then
      (flushWord caseTable word ++ (asciiScan caseTable s []).1, (asciiScan caseTable s []).2)
    else asciiScan caseTable s (word ++ [b])

/-- The loop of `runWorker` on one-byte code points, told over the bytes still
to scan and the pending run instead of offsets: it returns `beginMet`, `begin`,
the local map and the pending run. -/
def asciiRun (caseTable : Nat → Nat) :
    List Nat → List Nat → Bool → List Nat → FreqMap → Bool × List Nat × FreqMap × List Nat
  | [], p, bm, bg, f => (bm, bg, f, p)
  | b :: s, p, bm, bg, f =>
    if IsSpace b then
      if p.length ≠ 0 then
        if bm then asciiRun caseTable s [] true bg (incFreq f (ToLower caseTable p))
        else asciiRun caseTable s [] true p f
      else asciiRun caseTable s [] true bg f
    else asciiRun caseTable s (p ++ [b]) bm bg f

/-- Whether no carriage return of `s` is directly followed by a line feed. -/
def noCRLF : List Nat → Bool
  | [] => true
  | a :: s => !(decide (a = 13) && decide (s.head? = some 10)) && noCRLF s

/-- The bytes that `Itoa` writes: a minus sign or a decimal digit. -/
def isNumeral (c : Nat) : Prop := c = 45 ∨ (48 ≤ c ∧ c ≤ 57)

/-- Lower-casing of one byte when it is an ASCII letter. -/
def lowerByte (c : Nat) : Nat := if 0x41 ≤ c ∧ c ≤ 0x5A then c + 0x20 else c

/-- Unicode scalar values: the code points outside the surrogate range. -/
def isScalar (r : Nat) : Prop := r < 0xD800 ∨ (0xE000 ≤ r ∧ r ≤ 0x10FFFF)

/-- A chunk with the ASCII letters of its buffer lower-cased. -/
def lowerChunk (ch : chunk) : chunk := { ch with data := ch.data.map lowerByte }

/-- A read with the ASCII letters of its buffer, stale bytes included,
lower-cased. -/
def lowerRead (c : readCall) : readCall := { c with data := c.data.map lowerByte }

/-- A worker result with the ASCII letters of its fragments lower-cased. -/
def lowerWords (r : workerWords) : workerWords :=
  { r with begin := r.begin.map lowerByte, reminder := r.reminder.map lowerByte }

/-- A boundary record with the ASCII letters of its fragments lower-cased. -/
def lowerPart (p : splitPart) : splitPart :=
  { p with begin := p.begin.map lowerByte, reminder := p.reminder.map lowerByte }

/-- A scan state with the ASCII letters of `begin` lower-cased. -/
def lowerState (st : ScanState) : ScanState := { st with begin := st.begin.map lowerByte }

/-! ## Sorting: facts about `sortSlice` -/

section SortFacts

variable {α : Type} (less : α → α → Bool)

theorem sortInsert_perm (a : α) (l : List α) : (sortInsert less a l).Perm (a :: l) := by
  induction l with
  | nil => exact List.Perm.refl _
  | cons b l ih =>
    unfold sortInsert
    split
    · exact List.Perm.refl _
    · exact (List.Perm.cons b ih).trans (List.Perm.swap a b l)

theorem sortSlice_perm (l : List α) : (sortSlice less l).Perm l := by
  induction l with
  | nil => exact List.Perm.refl _
  | cons a l ih =>
    unfold sortSlice
    exact (sortInsert_perm less a _).trans (List.Perm.cons a ih)

theorem sortInsert_ordered
    (hasym : ∀ a b, less a b = true → less b a = false)
    (htrans : ∀ a b c, less b a = false → less c b = false → less c a = false)
    (a : α) (l : List α) (h : l.Pairwise (fun x y => less y x = false)) :
    (sortInsert less a l).Pairwise (fun x y => less y x = false) := by
  induction l with
  | nil => simp [sortInsert]
  | cons b l ih =>
    rw [List.pairwise_cons] at h
    unfold sortInsert
    split
    · rename_i hab
      rw [List.pairwise_cons]
      refine ⟨?_, List.pairwise_cons.mpr h⟩
      intro x hx
      rcases List.mem_cons.mp hx with rfl | hx
      · exact hasym _ _ hab
      · exact htrans a b x (hasym _ _ hab) (h.1 x hx)
    · rename_i hab
      rw [List.pairwise_cons]
      refine ⟨?_, ih h.2⟩
      intro x hx
      rcases List.mem_cons.mp ((sortInsert_perm less a l).subset hx) with rfl | hx
      · simpa using hab
      · exact h.1 x hx

theorem sortSlice_ordered
    (hasym : ∀ a b, less a b = true → less b a = false)
    (htrans : ∀ a b c, less b a = false → less c b = false → less c a = false)
    (l : List α) : (sortSlice less l).Pairwise (fun x y => less y x = false) := by
  induction l with
  | nil => simp [sortSlice]
  | cons a l ih =>
    unfold sortSlice
    exact sortInsert_ordered less hasym htrans a _ ih

/-- Two orderings of the same elements by a comparator under which incomparable
elements are equal coincide. -/
theorem sorted_perm_unique
    (hanti : ∀ a b, less a b = false → less b a = false → a = b)
    (l₁ l₂ : List α) (hp : l₁.Perm l₂)
    (h₁ : l₁.Pairwise (fun x y => less y x = false))
    (h₂ : l₂.Pairwise (fun x y => less y x = false)) : l₁ = l₂ := by
  haveI : IsAntisymm α (fun x y => less y x = false) := ⟨fun a b h1 h2 => hanti a b h2 h1⟩
  exact List.eq_of_perm_of_sorted hp h₁ h₂

/-- A list whose neighbours are already in order is left unchanged. -/
theorem sortSlice_of_chain (l : List α) (h : l.Chain' (fun x y => less x y = true)) :
    sortSlice less l = l := by
  induction l with
  | nil => rfl
  | cons a l ih =>
    unfold sortSlice
    rw [ih (List.Chain'.tail h)]
    cases l with
    | nil => rfl
    | cons b l =>
      have hab : less a b = true := (List.chain'_cons.mp h).1
      simp [sortInsert, hab]

end SortFacts

/-! ## The comparator of `getResult` is a strict total order -/

theorem strLess_asymm : ∀ a b : List Nat, strLess a b = true → strLess b a = false := by
  intro a
  induction a with
  | nil => intro b; cases b <;> simp [strLess]
  | cons x a ih =>
    intro b
    cases b with
    | nil => simp [strLess]
    | cons y b =>
      simp only [strLess, Bool.or_eq_true, Bool.and_eq_true, decide_eq_true_eq,
        Bool.or_eq_false_iff, Bool.and_eq_false_imp, decide_eq_false_iff_not]
      rintro (h | ⟨h, hs⟩)
      · exact ⟨by omega, fun h' => by omega⟩
      · exact ⟨by omega, fun _ => ih b hs⟩

theorem strLess_antisymm : ∀ a b : List Nat, strLess a b = false → strLess b a = false → a = b := by
  intro a
  induction a with
  | nil => intro b; cases b <;> simp [strLess]
  | cons x a ih =>
    intro b
    cases b with
    | nil => simp [strLess]
    | cons y b =>
      simp only [strLess, Bool.or_eq_false_iff, Bool.and_eq_false_imp, decide_eq_false_iff_not,
        decide_eq_true_eq]
      rintro ⟨h1, h2⟩ ⟨h3, h4⟩
      have hxy : x = y := by omega
      rw [hxy, ih b (h2 hxy) (h4 hxy.symm)]

theorem strLess_trans_false : ∀ a b c : List Nat,
    strLess b a = false → strLess c b = false → strLess c a = false := by
  intro a
  induction a with
  | nil => intro b c _ _; cases c <;> simp [strLess]
  | cons x a ih =>
    intro b c
    cases b with
    | nil => intro h1; simp [strLess] at h1
    | cons y b =>
      cases c with
      | nil => simp [strLess]
      | cons z c =>
        simp only [strLess, Bool.or_eq_false_iff, Bool.and_eq_false_imp, decide_eq_false_iff_not,
          decide_eq_true_eq]
        rintro ⟨h1, h2⟩ ⟨h3, h4⟩
        refine ⟨by omega, fun hzx => ?_⟩
        have hyx : y = x := by omega
        have hzy : z = y := by omega
        exact ih b c (h2 hyx) (h4 hzy)

theorem resLess_asymm (a b : WordWithFrequency) : resLess a b = true → resLess b a = false := by
  unfold resLess
  intro h
  by_cases h1 : a.Frequency > b.Frequency
  · have h2 : ¬ b.Frequency > a.Frequency := by omega
    have h3 : b.Frequency < a.Frequency := by omega
    simp [h2, h3]
  · by_cases h2 : a.Frequency < b.Frequency
    · simp [h1, h2] at h
    · simp only [h1, h2, if_false] at h
      have h3 : ¬ b.Frequency > a.Frequency := by omega
      have h4 : ¬ b.Frequency < a.Frequency := by omega
      simp only [h3, h4, if_false]
      exact strLess_asymm _ _ h

theorem resLess_antisymm (a b : WordWithFrequency) :
    resLess a b = false → resLess b a = false → a = b := by
  unfold resLess
  intro h h'
  by_cases h1 : a.Frequency > b.Frequency
  · simp [h1] at h
  · by_cases h2 : a.Frequency < b.Frequency
    · have h3 : b.Frequency > a.Frequency := by omega
      simp [h3] at h'
    · simp only [h1, h2, if_false] at h
      have h3 : ¬ b.Frequency > a.Frequency := by omega
      have h4 : ¬ b.Frequency < a.Frequency := by omega
      simp only [h3, h4, if_false] at h'
      have hw := strLess_antisymm _ _ h h'
      have hf : a.Frequency = b.Frequency := by omega
      cases a; cases b; simp_all

theorem resLess_trans_false (a b c : WordWithFrequency) :
    resLess b a = false → resLess c b = false → resLess c a = false := by
  unfold resLess
  intro h h'
  by_cases h1 : b.Frequency > a.Frequency
  · simp [h1] at h
  · by_cases h2 : c.Frequency > b.Frequency
    · simp [h2] at h'
    · by_cases h3 : b.Frequency < a.Frequency
      · have h5 : ¬ c.Frequency > a.Frequency := by omega
        have h6 : c.Frequency < a.Frequency := by omega
        simp [h5, h6]
      · by_cases h4 : c.Frequency < b.Frequency
        · have h5 : ¬ c.Frequency > a.Frequency := by omega
          have h6 : c.Frequency < a.Frequency := by omega
          simp [h5, h6]
        · simp only [h1, h3, if_false] at h
          simp only [h2, h4, if_false] at h'
          have h5 : ¬ c.Frequency > a.Frequency := by omega
          have h6 : ¬ c.Frequency < a.Frequency := by omega
          simp only [h5, h6, if_false]
          exact strLess_trans_false _ _ _ h h'

theorem resLess_iff (a b : WordWithFrequency) :
    resLess a b = true ↔
      a.Frequency > b.Frequency ∨ (a.Frequency = b.Frequency ∧ strLess a.Word b.Word = true) := by
  unfold resLess
  by_cases h1 : a.Frequency > b.Frequency
  · simp [h1]
  · by_cases h2 : a.Frequency < b.Frequency
    · have h3 : ¬ a.Frequency = b.Frequency := by omega
      simp [h1, h2, h3]
    · have h3 : a.Frequency = b.Frequency := by omega
      simp [h3]

/-! ## Facts about frequency maps -/

theorem getResult_eq (m : FreqMap) : getResult m = sortSlice resLess (m.map toRecord) := rfl

theorem getResult_perm_map (m : FreqMap) : (getResult m).Perm (m.map toRecord) :=
  sortSlice_perm resLess _

theorem getResult_ordered (m : FreqMap) :
    (getResult m).Pairwise (fun x y => resLess y x = false) :=
  sortSlice_ordered resLess resLess_asymm resLess_trans_false _

theorem lookup_eq_some_iff (m : FreqMap) (hkeys : (m.map Prod.fst).Nodup) (w : List Nat) (c : Int) :
    lookup m w = some c ↔ (w, c) ∈ m := by
  induction m with
  | nil => simp [lookup]
  | cons e m ih =>
    obtain ⟨k, v⟩ := e
    rw [List.map_cons, List.nodup_cons] at hkeys
    unfold lookup
    by_cases hk : k = w
    · subst hk
      simp only [if_true, Option.some.injEq, List.mem_cons, Prod.mk.injEq, true_and]
      constructor
      · intro h; exact Or.inl h.symm
      · rintro (h | h)
        · exact h.symm
        · exact absurd (List.mem_map_of_mem Prod.fst h) hkeys.1
    · simp only [hk, if_false, List.mem_cons, Prod.mk.injEq]
      rw [ih hkeys.2]
      constructor
      · intro h; exact Or.inr h
      · rintro (h | h)
        · exact absurd h.1.symm hk
        · exact h

theorem lookup_eq_none_iff (m : FreqMap) (w : List Nat) :
    lookup m w = none ↔ w ∉ m.map Prod.fst := by
  induction m with
  | nil => simp [lookup]
  | cons e m ih =>
    obtain ⟨k, v⟩ := e
    unfold lookup
    by_cases hk : k = w
    · simp [hk]
    · simp only [hk, if_false, List.map_cons, List.mem_cons, not_or]
      rw [ih]
      exact ⟨fun h => ⟨fun h' => hk h'.symm, h⟩, fun h => h.2⟩

theorem countOf_cons (e : List Nat × Int) (m : FreqMap) (w : List Nat) :
    countOf (e :: m) w = if e.1 = w then e.2 else countOf m w := by
  obtain ⟨k, v⟩ := e
  unfold countOf
  by_cases hk : k = w <;> simp [lookup, hk]

theorem lookup_cons (k : List Nat) (c : Int) (m : FreqMap) (w : List Nat) :
    lookup ((k, c) :: m) w = if k = w then some c else lookup m w := rfl

theorem lookup_addFreq (m : FreqMap) (k : List Nat) (v : Int) (w : List Nat) :
    lookup (addFreq m k v) w = if k = w then some (countOf m k + v) else lookup m w := by
  induction m with
  | nil => by_cases hk : k = w <;> simp [addFreq, lookup, countOf, hk]
  | cons e m ih =>
    obtain ⟨k', c⟩ := e
    unfold addFreq
    by_cases hk' : k' = k
    · subst hk'
      by_cases hk : k' = w <;> simp [lookup_cons, countOf, hk]
    · rw [if_neg hk', lookup_cons, ih, lookup_cons]
      by_cases hk : k = w
      · have hk'w : ¬ k' = w := fun h => hk' (h.trans hk.symm)
        simp [hk, hk'w, countOf, lookup_cons, hk' |> fun h => (hk ▸ h : ¬ k' = w)]
      · simp [hk]

theorem countOf_addFreq (m : FreqMap) (k : List Nat) (v : Int) (w : List Nat) :
    countOf (addFreq m k v) w = countOf m w + (if k = w then v else 0) := by
  unfold countOf
  rw [lookup_addFreq]
  by_cases hk : k = w
  · subst hk; simp [countOf]
  · simp [hk]

theorem lookup_addFreq_none (m : FreqMap) (k : List Nat) (v : Int) (w : List Nat) :
    lookup (addFreq m k v) w = none ↔ (lookup m w = none ∧ k ≠ w) := by
  rw [lookup_addFreq]
  by_cases hk : k = w <;> simp [hk]

theorem incFreq_eq_addFreq (m : FreqMap) (k : List Nat) : incFreq m k = addFreq m k 1 := by
  induction m with
  | nil => rfl
  | cons e m ih =>
    obtain ⟨k', c⟩ := e
    unfold incFreq addFreq
    rw [ih]

theorem countOf_mergeLocal (loc m : FreqMap) (w : List Nat) :
    countOf (mergeLocal m loc) w = countOf m w + sumFor loc w := by
  induction loc generalizing m with
  | nil => simp [mergeLocal, sumFor]
  | cons e loc ih =>
    have h := ih (addFreq m e.1 e.2)
    unfold mergeLocal at h ⊢
    rw [List.foldl_cons, h, countOf_addFreq]
    simp only [sumFor]
    ring

theorem lookup_mergeLocal_none (loc m : FreqMap) (w : List Nat) :
    lookup (mergeLocal m loc) w = none ↔ (lookup m w = none ∧ w ∉ loc.map Prod.fst) := by
  induction loc generalizing m with
  | nil => simp [mergeLocal]
  | cons e loc ih =>
    have h := ih (addFreq m e.1 e.2)
    unfold mergeLocal at h ⊢
    rw [List.foldl_cons, h, lookup_addFreq_none]
    simp only [List.map_cons, List.mem_cons, not_or]
    constructor
    · rintro ⟨⟨h1, h2⟩, h3⟩; exact ⟨h1, fun h' => h2 h'.symm, h3⟩
    · rintro ⟨h1, h2, h3⟩; exact ⟨⟨h1, fun h' => h2 h'.symm⟩, h3⟩

theorem sumFor_of_nodup (loc : FreqMap) (hkeys : (loc.map Prod.fst).Nodup) (w : List Nat) :
    sumFor loc w = countOf loc w := by
  induction loc with
  | nil => simp [sumFor, countOf, lookup]
  | cons e loc ih =>
    rw [List.map_cons, List.nodup_cons] at hkeys
    rw [countOf_cons]
    simp only [sumFor]
    by_cases hk : e.1 = w
    · have hnone : lookup loc w = none := (lookup_eq_none_iff loc w).2 (hk ▸ hkeys.1)
      rw [ih hkeys.2]
      simp [hk, countOf, hnone]
    · simp [hk, ih hkeys.2]

theorem sumFor_perm (l₁ l₂ : List (List Nat × Int)) (hp : l₁.Perm l₂) (w : List Nat) :
    sumFor l₁ w = sumFor l₂ w := by
  induction hp with
  | nil => rfl
  | cons e _ ih => simp only [sumFor, ih]
  | swap a b l => simp only [sumFor]; ring
  | trans _ _ ih₁ ih₂ => exact ih₁.trans ih₂

theorem sumFor_append (l₁ l₂ : List (List Nat × Int)) (w : List Nat) :
    sumFor (l₁ ++ l₂) w = sumFor l₁ w + sumFor l₂ w := by
  induction l₁ with
  | nil => simp [sumFor]
  | cons e l ih =>
    show sumFor (e :: (l ++ l₂)) w = _
    simp only [sumFor, ih]; ring

/-- Two maps with the same counts and the same keys answer every lookup alike. -/
theorem lookup_ext (m₁ m₂ : FreqMap) (w : List Nat)
    (hc : countOf m₁ w = countOf m₂ w)
    (hn : lookup m₁ w = none ↔ lookup m₂ w = none) : lookup m₁ w = lookup m₂ w := by
  unfold countOf at hc
  cases h1 : lookup m₁ w with
  | none => exact (hn.1 h1).symm
  | some c =>
    cases h2 : lookup m₂ w with
    | none => rw [hn.2 h2] at h1; cases h1
    | some d => rw [h1, h2] at hc; simpa using hc

theorem keys_addFreq (m : FreqMap) (k : List Nat) (v : Int) :
    (addFreq m k v).map Prod.fst =
      if k ∈ m.map Prod.fst then m.map Prod.fst else m.map Prod.fst ++ [k] := by
  induction m with
  | nil => simp [addFreq]
  | cons e m ih =>
    obtain ⟨k', c⟩ := e
    unfold addFreq
    by_cases hk' : k' = k
    · simp [hk']
    · have hne : ¬ k = k' := fun h => hk' h.symm
      rw [if_neg hk', List.map_cons, ih]
      by_cases hmem : k ∈ m.map Prod.fst
      · simp [hmem]
      · simp only [hmem, if_false, List.map_cons, List.mem_cons, hne, false_or, List.cons_append]

theorem nodup_keys_addFreq (m : FreqMap) (k : List Nat) (v : Int)
    (h : (m.map Prod.fst).Nodup) : ((addFreq m k v).map Prod.fst).Nodup := by
  rw [keys_addFreq]
  by_cases hmem : k ∈ m.map Prod.fst
  · simpa [hmem] using h
  · rw [if_neg hmem]
    exact List.Nodup.append h (List.nodup_singleton k) (by simpa using hmem)

theorem nodup_keys_mergeLocal (loc m : FreqMap) (h : (m.map Prod.fst).Nodup) :
    ((mergeLocal m loc).map Prod.fst).Nodup := by
  induction loc generalizing m with
  | nil => simpa [mergeLocal] using h
  | cons e loc ih =>
    have h' := ih (addFreq m e.1 e.2) (nodup_keys_addFreq m e.1 e.2 h)
    unfold mergeLocal at h' ⊢
    rw [List.foldl_cons]
    exact h'

theorem nodup_keys_foldl_incFreq (ws : List (List Nat)) (m : FreqMap)
    (h : (m.map Prod.fst).Nodup) : ((ws.foldl incFreq m).map Prod.fst).Nodup := by
  induction ws generalizing m with
  | nil => simpa using h
  | cons a ws ih =>
    rw [List.foldl_cons]
    apply ih
    rw [incFreq_eq_addFreq]
    exact nodup_keys_addFreq m a 1 h

/-- Two maps that answer every lookup alike hold the same entries. -/
theorem perm_of_lookup_eq (m₁ m₂ : FreqMap)
    (h₁ : (m₁.map Prod.fst).Nodup) (h₂ : (m₂.map Prod.fst).Nodup)
    (h : ∀ w, lookup m₁ w = lookup m₂ w) : m₁.Perm m₂ := by
  refine (List.perm_ext_iff_of_nodup (List.Nodup.of_map _ h₁) (List.Nodup.of_map _ h₂)).2 ?_
  rintro ⟨w, c⟩
  rw [← lookup_eq_some_iff m₁ h₁, ← lookup_eq_some_iff m₂ h₂, h w]

theorem getResult_of_perm (m₁ m₂ : FreqMap) (hp : m₁.Perm m₂) : getResult m₁ = getResult m₂ := by
  apply sorted_perm_unique resLess resLess_antisymm
  · exact (getResult_perm_map m₁).trans ((hp.map toRecord).trans (getResult_perm_map m₂).symm)
  · exact getResult_ordered m₁
  · exact getResult_ordered m₂

theorem getResult_of_lookup_eq (m₁ m₂ : FreqMap)
    (h₁ : (m₁.map Prod.fst).Nodup) (h₂ : (m₂.map Prod.fst).Nodup)
    (h : ∀ w, lookup m₁ w = lookup m₂ w) : getResult m₁ = getResult m₂ :=
  getResult_of_perm m₁ m₂ (perm_of_lookup_eq m₁ m₂ h₁ h₂ h)

theorem getResult_words_perm (m : FreqMap) :
    ((getResult m).map (fun e => e.Word)).Perm (m.map Prod.fst) := by
  have h := (getResult_perm_map m).map (fun e => e.Word)
  rw [List.map_map] at h
  exact h

theorem getResult_strict (m : FreqMap) (hkeys : (m.map Prod.fst).Nodup) :
    (getResult m).Pairwise (fun a b => resLess a b = true) := by
  have hw : ((getResult m).map (fun e => e.Word)).Nodup :=
    (getResult_words_perm m).nodup_iff.2 hkeys
  have hne : (getResult m).Pairwise (fun a b => a.Word ≠ b.Word) := by
    rw [List.Nodup, List.pairwise_map] at hw
    exact hw
  refine ((getResult_ordered m).and hne).imp ?_
  rintro a b ⟨hba, hab⟩
  cases h : resLess a b with
  | true => rfl
  | false => exact absurd (congrArg (fun e => e.Word) (resLess_antisymm a b h hba)) hab

/-! ## Facts about `mergeSplitParts` and the collector -/

theorem mergeFlush_foldl (ct : Nat → Nat) (parts : List splitPart) (word : List Nat) (m : FreqMap) :
    mergeFlush ct (parts.foldl (mergeStep ct) (word, m)) =
      (mergeWords ct word parts).foldl incFreq m := by
  induction parts generalizing word m with
  | nil =>
    simp only [List.foldl_nil, mergeFlush, mergeWords]
    split <;> rfl
  | cons part parts ih =>
    rw [List.foldl_cons]
    unfold mergeWords
    cases hw : part.chunkIsWord with
    | true => simp only [mergeStep, hw, Bool.not_true, Bool.false_eq_true, if_false, ih]
    | false =>
      by_cases hl : (word ++ part.begin).length ≠ 0
      · simp only [mergeStep, hw, Bool.not_false, if_true, hl, ih, List.foldl_cons, ne_eq,
          not_false_eq_true, List.nil_append]
      · simp only [mergeStep, hw, Bool.not_false, if_true, hl, ih, if_false]

theorem mergeSplitParts_eq (ct : Nat → Nat) (parts : List splitPart) (m : FreqMap) :
    mergeSplitParts ct parts m = (mergeWords ct [] (sortSlice numLess parts)).foldl incFreq m :=
  mergeFlush_foldl ct _ [] m

theorem countOf_foldl_incFreq (ws : List (List Nat)) (m : FreqMap) (x : List Nat) :
    countOf (ws.foldl incFreq m) x = countOf m x + (ws.count x : Nat) := by
  induction ws generalizing m with
  | nil => simp
  | cons a ws ih =>
    rw [List.foldl_cons, ih, incFreq_eq_addFreq, countOf_addFreq, List.count_cons]
    by_cases ha : a = x
    · subst ha; simp; ring
    · have ha' : (a == x) = false := by simpa using ha
      simp [ha, ha']

theorem lookup_foldl_incFreq_none (ws : List (List Nat)) (m : FreqMap) (x : List Nat) :
    lookup (ws.foldl incFreq m) x = none ↔ (lookup m x = none ∧ x ∉ ws) := by
  induction ws generalizing m with
  | nil => simp
  | cons a ws ih =>
    rw [List.foldl_cons, ih, incFreq_eq_addFreq, lookup_addFreq_none]
    simp only [List.mem_cons, not_or]
    constructor
    · rintro ⟨⟨h1, h2⟩, h3⟩; exact ⟨h1, fun h' => h2 h'.symm, h3⟩
    · rintro ⟨h1, h2, h3⟩; exact ⟨⟨h1, fun h' => h2 h'.symm⟩, h3⟩

theorem numLess_sorted_unique (l₁ l₂ : List splitPart) (hp : l₁.Perm l₂)
    (hnum : (l₁.map (fun p => p.num)).Nodup) :
    sortSlice numLess l₁ = sortSlice numLess l₂ := by
  have hasym : ∀ a b : splitPart, numLess a b = true → numLess b a = false := by
    intro a b; simp only [numLess, decide_eq_true_eq, decide_eq_false_iff_not]; omega
  have htrans : ∀ a b c : splitPart,
      numLess b a = false → numLess c b = false → numLess c a = false := by
    intro a b c; simp only [numLess, decide_eq_false_iff_not]; omega
  have strict : ∀ l : List splitPart, (l.map (fun p => p.num)).Nodup →
      (sortSlice numLess l).Pairwise (fun a b => a.num < b.num) := by
    intro l hl
    have hn : ((sortSlice numLess l).map (fun p => p.num)).Nodup :=
      ((sortSlice_perm numLess l).map _).nodup_iff.2 hl
    rw [List.Nodup, List.pairwise_map] at hn
    refine ((sortSlice_ordered numLess hasym htrans l).and hn).imp ?_
    rintro a b ⟨h1, h2⟩
    simp only [numLess, decide_eq_false_iff_not] at h1
    omega
  haveI : IsAntisymm splitPart (fun a b => a.num < b.num) :=
    ⟨fun a b h1 h2 => absurd h1 (by omega)⟩
  have hnum₂ : (l₂.map (fun p => p.num)).Nodup := (hp.map _).nodup_iff.1 hnum
  exact List.eq_of_perm_of_sorted
    ((sortSlice_perm numLess l₁).trans (hp.trans (sortSlice_perm numLess l₂).symm))
    (strict l₁ hnum) (strict l₂ hnum₂)

theorem collect_foldl_parts (results : List workerWords) (acc : FreqMap × List splitPart) :
    (results.foldl collectStep acc).2 = acc.2 ++ results.map partOf := by
  induction results generalizing acc with
  | nil => simp
  | cons r rs ih => rw [List.foldl_cons, ih]; simp [collectStep]

theorem collect_foldl_count (results : List workerWords) (acc : FreqMap × List splitPart)
    (w : List Nat) :
    countOf (results.foldl collectStep acc).1 w =
      countOf acc.1 w + (results.map (fun r => sumFor r.freqByWord w)).sum := by
  induction results generalizing acc with
  | nil => simp
  | cons r rs ih =>
    rw [List.foldl_cons, ih]
    simp only [collectStep, countOf_mergeLocal, List.map_cons, List.sum_cons]
    ring

theorem collect_foldl_none (results : List workerWords) (acc : FreqMap × List splitPart)
    (w : List Nat) :
    lookup (results.foldl collectStep acc).1 w = none ↔
      (lookup acc.1 w = none ∧ ∀ r ∈ results, w ∉ r.freqByWord.map Prod.fst) := by
  induction results generalizing acc with
  | nil => simp
  | cons r rs ih =>
    rw [List.foldl_cons, ih]
    simp only [collectStep, lookup_mergeLocal_none, List.mem_cons, forall_eq_or_imp]
    exact and_assoc

theorem collect_foldl_nodup (results : List workerWords) (acc : FreqMap × List splitPart)
    (h : (acc.1.map Prod.fst).Nodup) :
    ((results.foldl collectStep acc).1.map Prod.fst).Nodup := by
  induction results generalizing acc with
  | nil => simpa using h
  | cons r rs ih =>
    rw [List.foldl_cons]
    exact ih _ (nodup_keys_mergeLocal r.freqByWord acc.1 h)

theorem globalTable_nodup (ct : Nat → Nat) (results : List workerWords) :
    ((globalTable ct results).map Prod.fst).Nodup := by
  unfold globalTable
  rw [mergeSplitParts_eq]
  exact nodup_keys_foldl_incFreq _ _ (collect_foldl_nodup results ([], []) (by simp))

theorem globalTable_lookup_perm (ct : Nat → Nat) (r₁ r₂ : List workerWords) (hp : r₁.Perm r₂)
    (hnum : (r₁.map (fun r => r.num)).Nodup) (w : List Nat) :
    lookup (globalTable ct r₁) w = lookup (globalTable ct r₂) w := by
  have hparts : sortSlice numLess (collect r₁).2 = sortSlice numLess (collect r₂).2 := by
    unfold collect
    rw [collect_foldl_parts, collect_foldl_parts]
    apply numLess_sorted_unique _ _ ((hp.map partOf).append_left _)
    simpa [List.map_map, Function.comp_def, partOf] using hnum
  have hcount : countOf (collect r₁).1 w = countOf (collect r₂).1 w := by
    unfold collect
    rw [collect_foldl_count, collect_foldl_count, (hp.map _).sum_eq]
  have hnone : lookup (collect r₁).1 w = none ↔ lookup (collect r₂).1 w = none := by
    unfold collect
    rw [collect_foldl_none, collect_foldl_none]
    exact and_congr Iff.rfl ⟨fun h r hr => h r (hp.mem_iff.2 hr), fun h r hr => h r (hp.mem_iff.1 hr)⟩
  unfold globalTable
  rw [mergeSplitParts_eq, mergeSplitParts_eq, hparts]
  apply lookup_ext
  · rw [countOf_foldl_incFreq, countOf_foldl_incFreq, hcount]
  · rw [lookup_foldl_incFreq_none, lookup_foldl_incFreq_none, hnone]

theorem mergeWords_append_exists (ct : Nat → Nat) (pre : List splitPart) (word : List Nat) :
    ∃ ws word', ∀ rest, mergeWords ct word (pre ++ rest) = ws ++ mergeWords ct word' rest := by
  induction pre generalizing word with
  | nil => exact ⟨[], word, fun rest => rfl⟩
  | cons part pre ih =>
    cases hw : part.chunkIsWord with
    | true =>
      obtain ⟨ws, word', h⟩ := ih (word ++ part.begin ++ part.reminder)
      refine ⟨ws, word', fun rest => ?_⟩
      rw [List.cons_append, mergeWords]
      simp only [hw, Bool.not_true, Bool.false_eq_true, if_false, h]
    | false =>
      by_cases hl : (word ++ part.begin).length ≠ 0
      · obtain ⟨ws, word', h⟩ := ih ([] ++ part.reminder)
        refine ⟨ToLower ct (word ++ part.begin) :: ws, word', fun rest => ?_⟩
        rw [List.cons_append, mergeWords]
        simp only [hw, Bool.not_false, if_true, h, List.cons_append]
        rw [if_pos hl]
      · obtain ⟨ws, word', h⟩ := ih (word ++ part.begin ++ part.reminder)
        refine ⟨ws, word', fun rest => ?_⟩
        rw [List.cons_append, mergeWords]
        simp only [hw, Bool.not_false, if_true, h]
        rw [if_neg hl]

theorem mergeWords_boundary (ct : Nat → Nat) (word : List Nat) (part : splitPart)
    (hw : part.chunkIsWord = false) :
    ∃ ws, ∀ rem rest,
      mergeWords ct word ({ part with reminder := rem } :: rest) = ws ++ mergeWords ct rem rest := by
  by_cases hl : (word ++ part.begin).length ≠ 0
  · refine ⟨[ToLower ct (word ++ part.begin)], fun rem rest => ?_⟩
    rw [mergeWords]
    simp only [hw, Bool.not_false, if_true, List.nil_append, List.singleton_append]
    rw [if_pos hl]
  · refine ⟨[], fun rem rest => ?_⟩
    rw [mergeWords]
    have hnil : word ++ part.begin = [] := by
      simpa [List.length_eq_zero] using hl
    simp [hw, hnil]

theorem mergeWords_whole_chunks (ct : Nat → Nat) (mids : List splitPart)
    (hmid : ∀ p ∈ mids, p.chunkIsWord = true ∧ p.reminder = [])
    (acc : List Nat) (rest : List splitPart) :
    mergeWords ct acc (mids ++ rest) =
      mergeWords ct (acc ++ (mids.map (fun p => p.begin)).flatten) rest := by
  induction mids generalizing acc with
  | nil => simp
  | cons p mids ih =>
    have hp := hmid p (List.mem_cons_self _ _)
    rw [List.cons_append, mergeWords]
    simp only [hp.1, hp.2, Bool.not_true, Bool.false_eq_true, if_false, List.append_nil]
    rw [ih (fun q hq => hmid q (List.mem_cons_of_mem _ hq))]
    simp [List.append_assoc]

theorem mergeWords_close (ct : Nat → Nat) (acc : List Nat) (part : splitPart)
    (hw : part.chunkIsWord = false) (hne : acc ++ part.begin ≠ []) (rest : List splitPart) :
    mergeWords ct acc (part :: rest) =
      ToLower ct (acc ++ part.begin) :: mergeWords ct part.reminder rest := by
  rw [mergeWords]
  have hl : (acc ++ part.begin).length ≠ 0 := by
    simpa [List.length_eq_zero] using hne
  simp only [hw, Bool.not_false, if_true, List.nil_append]
  rw [if_pos hl]

theorem mergeWords_skip (ct : Nat → Nat) (part : splitPart)
    (hw : part.chunkIsWord = false) (rest : List splitPart) :
    mergeWords ct [] ({ part with begin := [] } :: rest) = mergeWords ct part.reminder rest := by
  rw [mergeWords]
  simp [hw]

theorem sortSlice_numLess_id (l : List splitPart)
    (h : l.Pairwise (fun a b => a.num < b.num)) : sortSlice numLess l = l := by
  apply sortSlice_of_chain
  exact (h.imp (fun {a b} hab => by simpa [numLess] using hab)).chain'

theorem resLess_irrefl (a : WordWithFrequency) : resLess a a = false := by
  cases h : resLess a a with
  | false => rfl
  | true => exact (resLess_asymm a a h).symm.trans h |> fun h' => by simp at h'

theorem resLess_trans (a b c : WordWithFrequency)
    (hab : resLess a b = true) (hbc : resLess b c = true) : resLess a c = true := by
  cases h : resLess a c with
  | true => rfl
  | false =>
    have hbc' := resLess_trans_false c a b h (resLess_asymm a b hab)
    rw [hbc] at hbc'
    cases hbc'

theorem resLess_total (a b : WordWithFrequency) (hne : a.Word ≠ b.Word) :
    resLess a b = true ∨ resLess b a = true := by
  cases h : resLess a b with
  | true => exact Or.inl rfl
  | false =>
    cases h' : resLess b a with
    | true => exact Or.inr rfl
    | false => exact absurd (congrArg (fun e => e.Word) (resLess_antisymm a b h h')) hne

theorem sortSlice_numLess_of_perm (parts l : List splitPart) (hp : parts.Perm l)
    (h : l.Pairwise (fun a b => a.num < b.num)) : sortSlice numLess parts = l := by
  have hnd : (l.map (fun p => p.num)).Nodup := by
    rw [List.Nodup, List.pairwise_map]
    exact h.imp (fun {a b} hab => by omega)
  rw [numLess_sorted_unique parts l hp ((hp.map _).nodup_iff.2 hnd)]
  exact sortSlice_numLess_id l h

/-! ## The step budgets are never exhausted -/

theorem DecodeRune_width_pos (b : Nat) (s : List Nat) : 1 ≤ (DecodeRune (b :: s)).2 := by
  simp only [DecodeRune]
  repeat' split
  all_goals simp

theorem scanStep_i (ct : Nat → Nat) (buf : List Nat) (st : ScanState) :
    (scanStep ct buf st).i = st.i + (DecodeRune (buf.drop st.i)).2 := by
  simp only [scanStep]

theorem scanStep_advances (ct : Nat → Nat) (buf : List Nat) (st : ScanState)
    (h : st.i < buf.length) : st.i + 1 ≤ (scanStep ct buf st).i := by
  rw [scanStep_i]
  obtain ⟨b, s, hbs⟩ : ∃ b s, buf.drop st.i = b :: s := by
    cases hd : buf.drop st.i with
    | nil => simp at hd; omega
    | cons b s => exact ⟨b, s, rfl⟩
  rw [hbs]
  have := DecodeRune_width_pos b s
  omega

/-- The loop of `runWorker` leaves through its condition: with the budget `n`
given by `runWorker` the returned state has `i ≥ n`. -/
theorem scanLoop_done (ct : Nat → Nat) (buf : List Nat) (n : Nat) (hn : n ≤ buf.length) :
    ∀ (fuel : Nat) (st : ScanState), n ≤ st.i + fuel → n ≤ (scanLoop ct buf n fuel st).i := by
  intro fuel
  induction fuel with
  | zero => intro st h; simpa [scanLoop] using h
  | succ fuel ih =>
    intro st h
    unfold scanLoop
    by_cases hi : st.i < n
    · rw [if_pos hi]
      apply ih
      have := scanStep_advances ct buf st (by omega)
      omega
    · rw [if_neg hi]
      omega

theorem mapLoop_fuel (mapping : Nat → Nat) :
    ∀ (fuel : Nat) (s : List Nat), s.length ≤ fuel →
      mapLoop mapping fuel s = mapLoop mapping s.length s := by
  intro fuel
  induction fuel using Nat.strong_induction_on with
  | _ fuel ih =>
    intro s hs
    cases s with
    | nil => cases fuel <;> rfl
    | cons b s =>
      cases fuel with
      | zero => simp at hs
      | succ fuel =>
        have hw := DecodeRune_width_pos b s
        have hlen : ((b :: s).drop (DecodeRune (b :: s)).2).length ≤ s.length := by
          simp only [List.length_drop, List.length_cons]; omega
        simp only [mapLoop, List.length_cons]
        rw [ih fuel (Nat.lt_succ_self _) _ (by simp only [List.length_cons] at hs; omega),
          ih s.length (by simp only [List.length_cons] at hs; omega) _ hlen]

theorem seqLoop_fuel (ct : Nat → Nat) :
    ∀ (fuel : Nat) (s word : List Nat) (m : FreqMap), s.length ≤ fuel →
      seqLoop ct fuel s word m = seqLoop ct s.length s word m := by
  intro fuel
  induction fuel using Nat.strong_induction_on with
  | _ fuel ih =>
    intro s word m hs
    cases s with
    | nil => cases fuel <;> rfl
    | cons b s =>
      cases fuel with
      | zero => simp at hs
      | succ fuel =>
        have hw := DecodeRune_width_pos b s
        have hlen : ((b :: s).drop (DecodeRune (b :: s)).2).length ≤ s.length := by
          simp only [List.length_drop, List.length_cons]; omega
        have hf : ((b :: s).drop (DecodeRune (b :: s)).2).length ≤ fuel := by
          simp only [List.length_cons] at hs; omega
        simp only [seqLoop, List.length_cons]
        split
        · rw [ih fuel (Nat.lt_succ_self _) _ _ _ hf,
            ih s.length (by simp only [List.length_cons] at hs; omega) _ _ _ hlen]
        · rw [ih fuel (Nat.lt_succ_self _) _ _ _ hf,
            ih s.length (by simp only [List.length_cons] at hs; omega) _ _ _ hlen]

theorem readChunks_fuel (size : Nat) (hsize : 1 ≤ size) :
    ∀ (fuel i : Nat) (s : List Nat), s.length ≤ fuel →
      readChunks size fuel i s = readChunks size s.length i s := by
  intro fuel
  induction fuel using Nat.strong_induction_on with
  | _ fuel ih =>
    intro i s hs
    cases s with
    | nil => cases fuel <;> rfl
    | cons b s =>
      cases fuel with
      | zero => simp at hs
      | succ fuel =>
        have hlen : ((b :: s).drop size).length ≤ s.length := by
          simp only [List.length_drop, List.length_cons]; omega
        have hf : ((b :: s).drop size).length ≤ fuel := by
          simp only [List.length_cons] at hs; omega
        simp only [readChunks, List.length_cons]
        rw [ih fuel (Nat.lt_succ_self _) _ _ hf,
          ih s.length (by simp only [List.length_cons] at hs; omega) _ _ hlen]

/-- A buffer in which no offset of the chunk starts a whitespace code point is
reported whole as `begin`, with nothing counted. -/
theorem scanLoop_no_space (ct : Nat → Nat) (buf : List Nat) (n : Nat)
    (h : ∀ i, i < n → IsSpace (DecodeRune (buf.drop i)).1 = false) :
    ∀ (fuel : Nat) (st : ScanState),
      ∃ j, scanLoop ct buf n fuel st = { st with i := j } := by
  intro fuel
  induction fuel with
  | zero => intro st; exact ⟨st.i, rfl⟩
  | succ fuel ih =>
    intro st
    unfold scanLoop
    by_cases hi : st.i < n
    · rw [if_pos hi]
      have hstep : scanStep ct buf st = { st with i := st.i + (DecodeRune (buf.drop st.i)).2 } := by
        simp only [scanStep, h st.i hi, Bool.false_eq_true, if_false]
      obtain ⟨j, hj⟩ := ih (scanStep ct buf st)
      exact ⟨j, by rw [hj, hstep]⟩
    · rw [if_neg hi]
      exact ⟨st.i, rfl⟩

theorem runWorker_no_space (ct : Nat → Nat) (ch : chunk)
    (h : ∀ i, i < ch.n → IsSpace (DecodeRune (ch.data.drop i)).1 = false) :
    runWorker ct ch =
      { num := ch.num, freqByWord := [], begin := ch.data.take ch.n, reminder := [],
        chunkIsWord := true } := by
  obtain ⟨j, hj⟩ := scanLoop_no_space ct ch.data ch.n h ch.n scanInit
  unfold runWorker
  rw [hj]
  simp [scanInit, slice]

/-! ## The claims -/

/-- C2: take boundary records with increasing ordinals, handed over in any
order.  Let a word start as the reminder of record `pi` (a record that met a
whitespace), run through the records `mids` that are whole-chunk fragments, and
end as the begin of record `pj` (the next record that met a whitespace).  Then
`mergeSplitParts` counts the lower-cased concatenation exactly once: against the
same records with these pieces removed, the count of that word is one higher
and every other count is the same, so no piece is counted as a word of its own. -/
theorem mergeSplitParts_fused_word (ct : Nat → Nat) (pre mids post : List splitPart)
    (pi pj : splitPart) (parts parts' : List splitPart) (freq : FreqMap)
    (hparts : parts.Perm (pre ++ pi :: (mids ++ pj :: post)))
    (hparts' : parts'.Perm
      (pre ++ { pi with reminder := [] } :: { pj with begin := [] } :: post))
    (hsorted : (pre ++ pi :: (mids ++ pj :: post)).Pairwise (fun a b => a.num < b.num))
    (hi : pi.chunkIsWord = false)
    (hmid : ∀ p ∈ mids, p.chunkIsWord = true ∧ p.reminder = [])
    (hj : pj.chunkIsWord = false)
    (hw : pi.reminder ++ (mids.map (fun p => p.begin)).flatten ++ pj.begin ≠ [])
    (x : List Nat) :
    countOf (mergeSplitParts ct parts freq) x =
      countOf (mergeSplitParts ct parts' freq) x
        + (if x = ToLower ct (pi.reminder ++ (mids.map (fun p => p.begin)).flatten ++ pj.begin)
            then 1 else 0) := by
  have hsorted' : (pre ++ { pi with reminder := [] } :: { pj with begin := [] } :: post).Pairwise
      (fun a b => a.num < b.num) := by
    simp only [List.pairwise_append, List.pairwise_cons, List.mem_cons, List.mem_append,
      forall_eq_or_imp] at hsorted ⊢
    obtain ⟨h1, ⟨h2, h3⟩, h4⟩ := hsorted
    refine ⟨h1, ⟨⟨?_, ?_⟩, ⟨?_, ?_⟩⟩, ?_⟩
    · exact h2 pj (Or.inr (Or.inl rfl))
    · exact fun a ha => h2 a (Or.inr (Or.inr ha))
    · exact h3.2.1.1
    · exact h3.2.1.2
    · intro a ha
      refine ⟨(h4 a ha).1, ?_, ?_⟩
      · exact (h4 a ha).2 pj (Or.inr (Or.inl rfl))
      · exact fun b hb => (h4 a ha).2 b (Or.inr (Or.inr hb))
  rw [mergeSplitParts_eq, mergeSplitParts_eq, sortSlice_numLess_of_perm _ _ hparts hsorted,
    sortSlice_numLess_of_perm _ _ hparts' hsorted']
  obtain ⟨ws, word', hpre⟩ := mergeWords_append_exists ct pre []
  obtain ⟨ws', hbound⟩ := mergeWords_boundary ct word' pi hi
  have e1 := hbound pi.reminder (mids ++ pj :: post)
  have e2 := hbound [] ({ pj with begin := [] } :: post)
  rw [hpre, hpre, e2, mergeWords_skip ct pj hj]
  have e3 : mergeWords ct word' (pi :: (mids ++ pj :: post)) =
      ws' ++ ToLower ct (pi.reminder ++ (mids.map (fun p => p.begin)).flatten ++ pj.begin)
        :: mergeWords ct pj.reminder post := by
    rw [← mergeWords_close ct _ pj hj hw, ← mergeWords_whole_chunks ct mids hmid]
    exact e1
  rw [e3, countOf_foldl_incFreq, countOf_foldl_incFreq]
  simp only [List.count_append, List.count_cons, Nat.cast_add, beq_iff_eq]
  by_cases hx : ToLower ct (pi.reminder ++ (mids.map (fun p => p.begin)).flatten ++ pj.begin) = x
  · subst hx
    simp only [if_true, Nat.cast_add, Nat.cast_one]
    ring
  · have hx' : ¬ x = ToLower ct (pi.reminder ++ (mids.map (fun p => p.begin)).flatten ++ pj.begin) :=
      fun h => hx h.symm
    simp only [hx, hx', if_false, Nat.cast_add, Nat.cast_zero, add_zero]

/-- Instance of C2: the word "abcde" cut as "ab" | "cd" | "e" over the records
0, 1, 2, which arrive in the order 2, 0, 1: its count is 1, against 0 without
the pieces. -/
theorem mergeSplitParts_fused_word_witness :
    countOf (mergeSplitParts caselessTable
        [{ num := 2, begin := [101], reminder := [102], chunkIsWord := false },
         { num := 0, begin := [120], reminder := [97, 98], chunkIsWord := false },
         { num := 1, begin := [99, 100], reminder := [], chunkIsWord := true }] [])
        [97, 98, 99, 100, 101] = 1 ∧
    countOf (mergeSplitParts caselessTable
        [{ num := 0, begin := [120], reminder := [], chunkIsWord := false },
         { num := 2, begin := [], reminder := [102], chunkIsWord := false }] [])
        [97, 98, 99, 100, 101] = 0 ∧
    countOf (mergeSplitParts caselessTable
        [{ num := 2, begin := [101], reminder := [102], chunkIsWord := false },
         { num := 0, begin := [120], reminder := [97, 98], chunkIsWord := false },
         { num := 1, begin := [99, 100], reminder := [], chunkIsWord := true }] [])
        [97, 98, 99, 100, 101] =
      countOf (mergeSplitParts caselessTable
        [{ num := 0, begin := [120], reminder := [], chunkIsWord := false },
         { num := 2, begin := [], reminder := [102], chunkIsWord := false }] [])
        [97, 98, 99, 100, 101]
        + (if [97, 98, 99, 100, 101] = ToLower caselessTable
              ([97, 98] ++
                ([{ num := 1, begin := [99, 100], reminder := [], chunkIsWord := true }].map
                  (fun p : splitPart => p.begin)).flatten ++ [101])
            then 1 else 0) :=
  ⟨by decide, by decide,
   mergeSplitParts_fused_word caselessTable []
    [{ num := 1, begin := [99, 100], reminder := [], chunkIsWord := true }] []
    { num := 0, begin := [120], reminder := [97, 98], chunkIsWord := false }
    { num := 2, begin := [101], reminder := [102], chunkIsWord := false }
    [{ num := 2, begin := [101], reminder := [102], chunkIsWord := false },
     { num := 0, begin := [120], reminder := [97, 98], chunkIsWord := false },
     { num := 1, begin := [99, 100], reminder := [], chunkIsWord := true }]
    [{ num := 0, begin := [120], reminder := [], chunkIsWord := false },
     { num := 2, begin := [], reminder := [102], chunkIsWord := false }] []
    (by decide) (List.Perm.refl _)
    (by decide) rfl (by decide) rfl (by decide) [97, 98, 99, 100, 101]⟩

/-- C5: for a map (one entry per key), every two adjacent entries `(a, b)` of
`getResult` have `a.Frequency > b.Frequency`, or equal frequencies and
`a.Word < b.Word` bytewise. -/
theorem getResult_ranked (m : FreqMap) (hkeys : (m.map Prod.fst).Nodup) :
    (getResult m).Chain' (fun a b =>
      a.Frequency > b.Frequency ∨ (a.Frequency = b.Frequency ∧ strLess a.Word b.Word = true)) :=
  ((getResult_strict m hkeys).imp (fun {a b} h => (resLess_iff a b).1 h)).chain'

/-- Instance of C5 on the map {"b": 2, "a": 2, "c": 5}. -/
theorem getResult_ranked_witness :
    (getResult [([98], 2), ([97], 2), ([99], 5)]).Chain' (fun a b =>
      a.Frequency > b.Frequency ∨ (a.Frequency = b.Frequency ∧ strLess a.Word b.Word = true)) :=
  getResult_ranked [([98], 2), ([97], 2), ([99], 5)] (by decide)

/-- C6: for a map (one entry per key), `getResult` has as many entries as the
map has keys, no word twice, and holds `(w, c)` exactly when the map sends `w`
to `c`. -/
theorem getResult_one_entry_per_key (m : FreqMap) (hkeys : (m.map Prod.fst).Nodup) :
    (getResult m).length = m.length ∧
    ((getResult m).map (fun e => e.Word)).Nodup ∧
    ∀ w c, ({ Word := w, Frequency := c } ∈ getResult m ↔ lookup m w = some c) := by
  refine ⟨?_, (getResult_words_perm m).nodup_iff.2 hkeys, fun w c => ?_⟩
  · rw [(getResult_perm_map m).length_eq, List.length_map]
  · rw [(getResult_perm_map m).mem_iff, lookup_eq_some_iff m hkeys, List.mem_map]
    constructor
    · rintro ⟨⟨k, v⟩, hmem, heq⟩
      simp only [toRecord, WordWithFrequency.mk.injEq] at heq
      rw [← heq.1, ← heq.2]
      exact hmem
    · intro hmem
      exact ⟨(w, c), hmem, rfl⟩

/-- Instance of C6 on the map {"b": 2, "a": 2, "c": 5}. -/
theorem getResult_one_entry_per_key_witness :
    (getResult [([98], 2), ([97], 2), ([99], 5)]).length
        = ([([98], 2), ([97], 2), ([99], 5)] : FreqMap).length ∧
    ((getResult [([98], 2), ([97], 2), ([99], 5)]).map (fun e => e.Word)).Nodup ∧
    ∀ w c, ({ Word := w, Frequency := c } ∈ getResult [([98], 2), ([97], 2), ([99], 5)] ↔
      lookup [([98], 2), ([97], 2), ([99], 5)] w = some c) :=
  getResult_one_entry_per_key [([98], 2), ([97], 2), ([99], 5)] (by decide)

/-- C7: sorting the sequence returned by `getResult` again with the comparator of
`getResult` returns it unchanged. -/
theorem getResult_resort_unchanged (m : FreqMap) :
    sortSlice resLess (getResult m) = getResult m :=
  sorted_perm_unique resLess resLess_antisymm _ _ (sortSlice_perm resLess _)
    (sortSlice_ordered resLess resLess_asymm resLess_trans_false _) (getResult_ordered m)

/-- C8: the comparator of `getResult` is irreflexive and transitive and orders
any two entries with distinct words, and two enumerations of the same entries
give the same ranked sequence. -/
theorem getResult_enumeration_independent (m₁ m₂ : FreqMap) (hp : m₁.Perm m₂) :
    (∀ a, resLess a a = false) ∧
    (∀ a b c, resLess a b = true → resLess b c = true → resLess a c = true) ∧
    (∀ a b : WordWithFrequency, a.Word ≠ b.Word → resLess a b = true ∨ resLess b a = true) ∧
    getResult m₁ = getResult m₂ :=
  ⟨resLess_irrefl, resLess_trans, resLess_total, getResult_of_perm m₁ m₂ hp⟩

/-- Instance of C8: the map {"b": 2, "a": 2} enumerated in both orders. -/
theorem getResult_enumeration_independent_witness :
    (∀ a, resLess a a = false) ∧
    (∀ a b c, resLess a b = true → resLess b c = true → resLess a c = true) ∧
    (∀ a b : WordWithFrequency, a.Word ≠ b.Word → resLess a b = true ∨ resLess b a = true) ∧
    getResult [([97], 2), ([98], 2)] = getResult [([98], 2), ([97], 2)] :=
  getResult_enumeration_independent [([97], 2), ([98], 2)] [([98], 2), ([97], 2)]
    (List.Perm.swap _ _ _)

/-- C9: for worker results with pairwise distinct ordinals, collecting them in
any order of arrival and then running `mergeSplitParts` gives the same global
table (the same answer to every lookup), hence the same ranked list. -/
theorem arrival_order_irrelevant (ct : Nat → Nat) (results results' : List workerWords)
    (hp : results.Perm results') (hnum : (results.map (fun r => r.num)).Nodup) :
    (∀ w, lookup (globalTable ct results) w = lookup (globalTable ct results') w) ∧
    getResult (globalTable ct results) = getResult (globalTable ct results') := by
  have h := globalTable_lookup_perm ct results results' hp hnum
  exact ⟨h, getResult_of_lookup_eq _ _ (globalTable_nodup ct results)
    (globalTable_nodup ct results') h⟩

/-- Instance of C9: the two results of "ab c" | "d ef" arriving in either order. -/
theorem arrival_order_irrelevant_witness :
    (∀ w, lookup (globalTable caselessTable
        [{ num := 0, freqByWord := [], begin := [97, 98], reminder := [99], chunkIsWord := false },
         { num := 1, freqByWord := [], begin := [100], reminder := [101, 102], chunkIsWord := false }]) w =
      lookup (globalTable caselessTable
        [{ num := 1, freqByWord := [], begin := [100], reminder := [101, 102], chunkIsWord := false },
         { num := 0, freqByWord := [], begin := [97, 98], reminder := [99], chunkIsWord := false }]) w) ∧
    getResult (globalTable caselessTable
        [{ num := 0, freqByWord := [], begin := [97, 98], reminder := [99], chunkIsWord := false },
         { num := 1, freqByWord := [], begin := [100], reminder := [101, 102], chunkIsWord := false }]) =
      getResult (globalTable caselessTable
        [{ num := 1, freqByWord := [], begin := [100], reminder := [101, 102], chunkIsWord := false },
         { num := 0, freqByWord := [], begin := [97, 98], reminder := [99], chunkIsWord := false }]) :=
  arrival_order_irrelevant caselessTable _ _ (List.Perm.swap _ _ _) (by decide)

/-- C10: after the collector merges a local map (one entry per key) into the
global map, the count of every word is its count before plus its count in the
local map, a word is a key afterwards exactly when it was a key of either map,
and a single `addFreq` adds `freq` to the count of `k` and leaves every other
key as it was. -/
theorem collector_merge_additive (freqByWord loc : FreqMap)
    (hloc : (loc.map Prod.fst).Nodup) (w : List Nat) :
    countOf (mergeLocal freqByWord loc) w = countOf freqByWord w + countOf loc w ∧
    (lookup (mergeLocal freqByWord loc) w = none ↔
      (lookup freqByWord w = none ∧ lookup loc w = none)) ∧
    (∀ k freq, lookup (addFreq freqByWord k freq) w =
      if k = w then some (countOf freqByWord k + freq) else lookup freqByWord w) := by
  refine ⟨?_, ?_, fun k freq => lookup_addFreq freqByWord k freq w⟩
  · rw [countOf_mergeLocal, sumFor_of_nodup loc hloc]
  · rw [lookup_mergeLocal_none, lookup_eq_none_iff loc w]

/-- Instance of C10: merging {"a": 2, "b": 1} into {"a": 3}, read at "a". -/
theorem collector_merge_additive_witness :
    countOf (mergeLocal [([97], 3)] [([97], 2), ([98], 1)]) [97]
      = countOf [([97], 3)] [97] + countOf [([97], 2), ([98], 1)] [97] ∧
    (lookup (mergeLocal [([97], 3)] [([97], 2), ([98], 1)]) [97] = none ↔
      (lookup [([97], 3)] [97] = none ∧ lookup [([97], 2), ([98], 1)] [97] = none)) ∧
    (∀ k freq, lookup (addFreq [([97], 3)] k freq) [97] =
      if k = [97] then some (countOf [([97], 3)] k + freq) else lookup [([97], 3)] [97]) :=
  collector_merge_additive [([97], 3)] [([97], 2), ([98], 1)] (by decide) [97]

/-- C1, evaluated: on the stream "a", U+00A0, "b" read as one 4-byte chunk the
parallel counter returns the words "a" and U+FFFD "b", the sequential
reference the words "a" and "b". -/
theorem countParallel_differs_on_nbsp :
    countParallel caselessTable 4 [0x61, 0xC2, 0xA0, 0x62] =
      [{ Word := [0x61], Frequency := 1 }, { Word := [0xEF, 0xBF, 0xBD, 0x62], Frequency := 1 }] ∧
    countSequential caselessTable [0x61, 0xC2, 0xA0, 0x62] =
      [{ Word := [0x61], Frequency := 1 }, { Word := [0x62], Frequency := 1 }] := by
  decide

/-- C3, evaluated: the one-byte chunk C2 holds no whitespace code point, but in
a buffer whose next byte is A0 the worker decodes U+00A0 across the end of the
chunk and reports a whitespace boundary with empty `begin`. -/
theorem runWorker_decodes_past_chunk_end :
    spacesOf (chunkBytes { num := 0, data := [0xC2, 0xA0], n := 1 }) = [] ∧
    runWorker caselessTable { num := 0, data := [0xC2, 0xA0], n := 1 } =
      { num := 0, freqByWord := [], begin := [], reminder := [], chunkIsWord := false } := by
  decide

/-- C4, evaluated: in the chunk "a", U+00A0, "b" the byte run after the last
whitespace code point is "b", and the worker reports the reminder A0 "b". -/
theorem runWorker_reminder_keeps_space_bytes :
    afterLastSpace (chunkBytes { num := 0, data := [0x61, 0xC2, 0xA0, 0x62], n := 4 }) = [0x62] ∧
    beforeFirstSpace (chunkBytes { num := 0, data := [0x61, 0xC2, 0xA0, 0x62], n := 4 }) = [0x61] ∧
    runWorker caselessTable { num := 0, data := [0x61, 0xC2, 0xA0, 0x62], n := 4 } =
      { num := 0, freqByWord := [], begin := [0x61], reminder := [0xA0, 0x62],
        chunkIsWord := false } := by
  decide


theorem readerLoop_error (i : Nat) (good : List readCall) (bad : readCall) (rest : List readCall)
    (code : Nat) (hgood : ∀ c ∈ good, c.err = none)
    (hbad : bad.err = some (ioError.failure code)) :
    (readerLoop i (good ++ bad :: rest)).2 = some (ioError.failure code) := by
  induction good generalizing i with
  | nil => simp [readerLoop, hbad]
  | cons c good ih =>
    have hc : c.err = none := hgood c (List.mem_cons_self _ _)
    rw [List.cons_append, readerLoop]
    simp only [hc]
    exact ih (i + 1) (fun c' hc' => hgood c' (List.mem_cons_of_mem _ hc'))

/-! ## On ASCII bytes the case table is never consulted -/

theorem ToLower_ascii (ct ct' : Nat → Nat) (s : List Nat) (h : ∀ b ∈ s, b < 0x80) :
    ToLower ct s = ToLower ct' s := by
  have hall : s.all (fun c => decide (c < 0x80)) = true := by
    simpa [List.all_eq_true] using h
  simp only [ToLower, hall, if_true]

theorem mem_slice (buf : List Nat) (lo hi : Nat) (b : Nat) (h : b ∈ slice buf lo hi) : b ∈ buf :=
  List.mem_of_mem_drop (List.mem_of_mem_take h)

theorem scanStep_ascii (ct ct' : Nat → Nat) (buf : List Nat) (h : ∀ b ∈ buf, b < 0x80)
    (st : ScanState) : scanStep ct buf st = scanStep ct' buf st := by
  simp only [scanStep]
  rw [ToLower_ascii ct ct' (slice buf st.wordStart st.i)
    (fun b hb => h b (mem_slice buf _ _ b hb))]

theorem scanLoop_ascii (ct ct' : Nat → Nat) (buf : List Nat) (h : ∀ b ∈ buf, b < 0x80)
    (n fuel : Nat) (st : ScanState) : scanLoop ct buf n fuel st = scanLoop ct' buf n fuel st := by
  induction fuel generalizing st with
  | zero => rfl
  | succ fuel ih =>
    unfold scanLoop
    rw [scanStep_ascii ct ct' buf h, ih]

theorem runWorker_ascii (ct ct' : Nat → Nat) (ch : chunk) (h : ∀ b ∈ ch.data, b < 0x80) :
    runWorker ct ch = runWorker ct' ch := by
  unfold runWorker
  rw [scanLoop_ascii ct ct' ch.data h]

theorem scanStep_begin_ascii (ct : Nat → Nat) (buf : List Nat) (h : ∀ b ∈ buf, b < 0x80)
    (st : ScanState) (hst : ∀ b ∈ st.begin, b < 0x80) :
    ∀ b ∈ (scanStep ct buf st).begin, b < 0x80 := by
  simp only [scanStep]
  split
  · split
    · split
      · exact hst
      · exact fun b hb => h b (mem_slice buf _ _ b hb)
    · exact hst
  · exact hst

theorem scanLoop_begin_ascii (ct : Nat → Nat) (buf : List Nat) (h : ∀ b ∈ buf, b < 0x80)
    (n fuel : Nat) (st : ScanState) (hst : ∀ b ∈ st.begin, b < 0x80) :
    ∀ b ∈ (scanLoop ct buf n fuel st).begin, b < 0x80 := by
  induction fuel generalizing st with
  | zero => exact hst
  | succ fuel ih =>
    unfold scanLoop
    split
    · exact ih _ (scanStep_begin_ascii ct buf h st hst)
    · exact hst

theorem runWorker_parts_ascii (ct : Nat → Nat) (ch : chunk) (h : ∀ b ∈ ch.data, b < 0x80) :
    (∀ b ∈ (runWorker ct ch).begin, b < 0x80) ∧ (∀ b ∈ (runWorker ct ch).reminder, b < 0x80) := by
  have hb := scanLoop_begin_ascii ct ch.data h ch.n ch.n scanInit (by simp [scanInit])
  simp only [runWorker]
  by_cases hm : (scanLoop ct ch.data ch.n ch.n scanInit).beginMet = true
  · rw [if_pos hm]
    exact ⟨hb, fun b hb' => h b (mem_slice _ _ _ b hb')⟩
  · rw [if_neg hm]
    exact ⟨fun b hb' => h b (mem_slice _ _ _ b hb'), by simp⟩

theorem mergeWords_ascii (ct ct' : Nat → Nat) (parts : List splitPart)
    (hparts : ∀ p ∈ parts, (∀ b ∈ p.begin, b < 0x80) ∧ (∀ b ∈ p.reminder, b < 0x80))
    (word : List Nat) (hword : ∀ b ∈ word, b < 0x80) :
    mergeWords ct word parts = mergeWords ct' word parts := by
  induction parts generalizing word with
  | nil =>
    simp only [mergeWords]
    rw [ToLower_ascii ct ct' word hword]
  | cons p parts ih =>
    have hp := hparts p (List.mem_cons_self _ _)
    have hrest : ∀ q ∈ parts, (∀ b ∈ q.begin, b < 0x80) ∧ (∀ b ∈ q.reminder, b < 0x80) :=
      fun q hq => hparts q (List.mem_cons_of_mem _ hq)
    have h1 : ∀ b ∈ word ++ p.begin, b < 0x80 := by
      intro b hb
      rcases List.mem_append.mp hb with hb | hb
      · exact hword b hb
      · exact hp.1 b hb
    have h2 : ∀ b ∈ word ++ p.begin ++ p.reminder, b < 0x80 := by
      intro b hb
      rcases List.mem_append.mp hb with hb | hb
      · exact h1 b hb
      · exact hp.2 b hb
    have h3 : ∀ b ∈ [] ++ p.reminder, b < 0x80 := by simpa using hp.2
    simp only [mergeWords]
    rw [ToLower_ascii ct ct' _ h1, ih hrest _ h2, ih hrest _ h3]

theorem countChunks_ascii (ct ct' : Nat → Nat) (chunks : List chunk)
    (h : ∀ ch ∈ chunks, ∀ b ∈ ch.data, b < 0x80) :
    countChunks ct chunks = countChunks ct' chunks := by
  have hmap : chunks.map (runWorker ct) = chunks.map (runWorker ct') :=
    List.map_congr_left (fun ch hch => runWorker_ascii ct ct' ch (h ch hch))
  unfold countChunks globalTable
  rw [mergeSplitParts_eq, mergeSplitParts_eq, hmap]
  congr 2
  apply mergeWords_ascii ct ct' _ _ [] (by simp)
  intro p hp
  have hp' := (sortSlice_perm numLess _).subset hp
  unfold collect at hp'
  rw [collect_foldl_parts] at hp'
  simp only [List.nil_append, List.mem_map] at hp'
  obtain ⟨r, hr, rfl⟩ := hp'
  obtain ⟨ch, hch, rfl⟩ := hr
  exact runWorker_parts_ascii ct' ch (h ch hch)

/-- C12: when the first read reports the end of the stream, or the stream has no
read outcome at all, no chunk is published and the counter returns the empty
result sequence and no error. -/
theorem empty_stream_empty_result (ct : Nat → Nat) (c : readCall) (rest : List readCall)
    (hc : c.err = some ioError.EOF) :
    (readerLoop 0 (c :: rest)).1 = [] ∧
    WithManualParsingNoWordAllocParallel ct (c :: rest) = (some [], none) ∧
    WithManualParsingNoWordAllocParallel ct [] = (some [], none) := by
  refine ⟨?_, ?_, rfl⟩
  · simp [readerLoop, hc]
  · simp [WithManualParsingNoWordAllocParallel, readerLoop, hc, globalTable, collect,
      mergeSplitParts, sortSlice, mergeFlush, getResult]

/-- Instance of C12: a first read that stores nothing and reports the end of the
stream. -/
theorem empty_stream_empty_result_witness :
    (readerLoop 0 ({ data := [0, 0, 0, 0], n := 0, err := some ioError.EOF } :: [])).1 = [] ∧
    WithManualParsingNoWordAllocParallel caselessTable
      ({ data := [0, 0, 0, 0], n := 0, err := some ioError.EOF } :: []) = (some [], none) ∧
    WithManualParsingNoWordAllocParallel caselessTable [] = (some [], none) :=
  empty_stream_empty_result caselessTable
    { data := [0, 0, 0, 0], n := 0, err := some ioError.EOF } [] rfl

/-- C13: the input "The cat sat. THE CAT SAT." read in 5-byte chunks ("The c",
"at sa", "t. TH", "E CAT", " SAT.") gives exactly [("cat",2), ("sat.",2),
("the",2)], whatever the case table holds above U+007F. -/
theorem cat_sat_scenario (ct : Nat → Nat) :
    (readChunks 5 25 0
        [84, 104, 101, 32, 99, 97, 116, 32, 115, 97, 116, 46, 32,
         84, 72, 69, 32, 67, 65, 84, 32, 83, 65, 84, 46]).map chunkBytes =
      [[84, 104, 101, 32, 99], [97, 116, 32, 115, 97], [116, 46, 32, 84, 72],
       [69, 32, 67, 65, 84], [32, 83, 65, 84, 46]] ∧
    countParallel ct 5
        [84, 104, 101, 32, 99, 97, 116, 32, 115, 97, 116, 46, 32,
         84, 72, 69, 32, 67, 65, 84, 32, 83, 65, 84, 46] =
      [{ Word := [99, 97, 116], Frequency := 2 },
       { Word := [115, 97, 116, 46], Frequency := 2 },
       { Word := [116, 104, 101], Frequency := 2 }] := by
  refine ⟨by decide, ?_⟩
  unfold countParallel
  rw [countChunks_ascii ct caselessTable _ (by decide)]
  decide

/-- C14, evaluated: on the stream "abcd" delivered by two reads "ab" and "cd",
`WithManualParsing` returns [("abcd",1)] and `WithManualParsingNoWordAlloc`
returns [("abcdcd",1)]. -/
theorem noWordAlloc_differs_on_split_word :
    WithManualParsing caselessTable
        [{ data := [97, 98, 0, 0], n := 2, err := none },
         { data := [99, 100, 0, 0], n := 2, err := none }] =
      (some [{ Word := [97, 98, 99, 100], Frequency := 1 }], none) ∧
    WithManualParsingNoWordAlloc caselessTable
        [{ data := [97, 98, 0, 0], n := 2, err := none },
         { data := [99, 100, 0, 0], n := 2, err := none }] =
      (some [{ Word := [97, 98, 99, 100, 99, 100], Frequency := 1 }], none) := by
  decide

/-- C16: when a read returns an error other than the end of the stream, after
any number of reads without error, the counter returns that error and no
result list. -/
theorem read_error_no_result (ct : Nat → Nat) (good : List readCall) (bad : readCall)
    (rest : List readCall) (code : Nat) (hgood : ∀ c ∈ good, c.err = none)
    (hbad : bad.err = some (ioError.failure code)) :
    WithManualParsingNoWordAllocParallel ct (good ++ bad :: rest) =
      (none, some (ioError.failure code)) := by
  unfold WithManualParsingNoWordAllocParallel
  rw [readerLoop_error 0 good bad rest code hgood hbad]

/-- Instance of C16: the read after the chunk "ab c" fails with error 7. -/
theorem read_error_no_result_witness :
    WithManualParsingNoWordAllocParallel caselessTable
      ([{ data := [97, 98, 32, 99], n := 4, err := none }] ++
        { data := [97, 98, 32, 99], n := 0, err := some (ioError.failure 7) } :: []) =
      (none, some (ioError.failure 7)) :=
  read_error_no_result caselessTable [{ data := [97, 98, 32, 99], n := 4, err := none }]
    { data := [97, 98, 32, 99], n := 0, err := some (ioError.failure 7) } [] 7
    (by decide) rfl

/-- C18, evaluated: on the chunk " " followed by U+00A0 (bytes 20 C2 A0) the
worker counts the empty string, and its reminder is A0, the second byte of the
whitespace code point. -/
theorem runWorker_counts_empty_word :
    runWorker caselessTable { num := 0, data := [0x20, 0xC2, 0xA0], n := 3 } =
      { num := 0, freqByWord := [([], 1)], begin := [], reminder := [0xA0],
        chunkIsWord := false } := by
  decide

/-- C19, evaluated: two buffers of length 2 that agree on the chunk's single
byte C2 and differ after it give different results. -/
theorem runWorker_depends_on_stale_bytes :
    ([0xC2, 0xA0] : List Nat).take 1 = ([0xC2, 0x00] : List Nat).take 1 ∧
    runWorker caselessTable { num := 0, data := [0xC2, 0xA0], n := 1 } =
      { num := 0, freqByWord := [], begin := [], reminder := [], chunkIsWord := false } ∧
    runWorker caselessTable { num := 0, data := [0xC2, 0x00], n := 1 } =
      { num := 0, freqByWord := [], begin := [0xC2], reminder := [], chunkIsWord := true } := by
  decide

/-! ## ASCII input: the workers and the boundary merge against the sequential walk -/

theorem DecodeRune_ascii (b : Nat) (s : List Nat) (hb : b < 0x80) :
    DecodeRune (b :: s) = (b, 1) := by
  simp [DecodeRune, hb]

theorem slice_length (buf : List Nat) (lo hi : Nat) (h : hi ≤ buf.length) :
    (slice buf lo hi).length = hi - lo := by
  simp only [slice, List.length_take, List.length_drop]
  omega

theorem slice_self (buf : List Nat) (i : Nat) : slice buf i i = [] := by
  simp [slice]

theorem slice_cons (buf : List Nat) (i n b : Nat) (tl : List Nat)
    (hd : buf.drop i = b :: tl) (h : i < n) : slice buf i n = b :: slice buf (i + 1) n := by
  have hd' : buf.drop (i + 1) = tl := by
    rw [← List.drop_drop, hd]; rfl
  obtain ⟨k, hk⟩ : ∃ k, n - i = k + 1 := ⟨n - i - 1, by omega⟩
  have hk' : n - (i + 1) = k := by omega
  simp only [slice, hd, hd', hk, hk', List.take_succ_cons]

theorem slice_snoc (buf : List Nat) (lo i b : Nat) (tl : List Nat)
    (hd : buf.drop i = b :: tl) (h : lo ≤ i) : slice buf lo (i + 1) = slice buf lo i ++ [b] := by
  have hsplit : buf.drop lo = (buf.drop lo).take (i - lo) ++ (b :: tl) := by
    have h1 : (buf.drop lo).drop (i - lo) = b :: tl := by
      rw [List.drop_drop]
      have : lo + (i - lo) = i := by omega
      rw [this, hd]
    rw [← h1, List.take_append_drop]
  have hlen : ((buf.drop lo).take (i - lo)).length = i - lo := by
    have hi : i < buf.length := by
      by_contra hcon
      rw [List.drop_eq_nil_of_le (by omega)] at hd
      cases hd
    simp only [List.length_take, List.length_drop]
    omega
  have e : i + 1 - lo = (i - lo) + 1 := by omega
  simp only [slice, e]
  conv_lhs => rw [hsplit]
  rw [List.take_append_eq_append_take, hlen]
  simp [List.take_take]

theorem drop_cons_of_lt (buf : List Nat) (i : Nat) (h : i < buf.length) :
    ∃ b tl, buf.drop i = b :: tl := by
  cases hd : buf.drop i with
  | nil =>
    have := List.drop_eq_nil_iff.mp hd
    omega
  | cons b tl => exact ⟨b, tl, rfl⟩

/-- On one-byte code points the loop of `runWorker` computes `asciiRun` of the
bytes still to scan and the pending run. -/
theorem scanLoop_asciiRun (ct : Nat → Nat) (buf : List Nat) (n : Nat) (hn : n ≤ buf.length) :
    ∀ (fuel : Nat) (st : ScanState), st.wordStart ≤ st.i → st.i ≤ n →
      (∀ b ∈ slice buf st.i n, b < 0x80) → n - st.i ≤ fuel →
      st.chunkIsWord = !st.beginMet →
      (scanLoop ct buf n fuel st).beginMet =
        (asciiRun ct (slice buf st.i n) (slice buf st.wordStart st.i)
          st.beginMet st.begin st.freqByWord).1 ∧
      (scanLoop ct buf n fuel st).begin =
        (asciiRun ct (slice buf st.i n) (slice buf st.wordStart st.i)
          st.beginMet st.begin st.freqByWord).2.1 ∧
      (scanLoop ct buf n fuel st).freqByWord =
        (asciiRun ct (slice buf st.i n) (slice buf st.wordStart st.i)
          st.beginMet st.begin st.freqByWord).2.2.1 ∧
      slice buf (scanLoop ct buf n fuel st).wordStart n =
        (asciiRun ct (slice buf st.i n) (slice buf st.wordStart st.i)
          st.beginMet st.begin st.freqByWord).2.2.2 ∧
      (scanLoop ct buf n fuel st).chunkIsWord =
        !(asciiRun ct (slice buf st.i n) (slice buf st.wordStart st.i)
          st.beginMet st.begin st.freqByWord).1 := by
  intro fuel
  induction fuel with
  | zero =>
    intro st _ hin _ hfuel hflag
    have hi : st.i = n := by omega
    have hnil : slice buf st.i n = [] := by rw [hi]; exact slice_self _ _
    rw [hnil]
    simp [scanLoop, asciiRun, hi, hflag]
  | succ fuel ih =>
    intro st hws hin hascii hfuel hflag
    unfold scanLoop
    by_cases hi : st.i < n
    · rw [if_pos hi]
      obtain ⟨b, tl, hd⟩ := drop_cons_of_lt buf st.i (by omega)
      have hsl : slice buf st.i n = b :: slice buf (st.i + 1) n := slice_cons buf st.i n b tl hd hi
      have hb : b < 0x80 := hascii b (by rw [hsl]; exact List.mem_cons_self _ _)
      have hrest : ∀ x ∈ slice buf (st.i + 1) n, x < 0x80 :=
        fun x hx => hascii x (by rw [hsl]; exact List.mem_cons_of_mem _ hx)
      have hdec : DecodeRune (buf.drop st.i) = (b, 1) := by rw [hd]; exact DecodeRune_ascii b tl hb
      have hplen : (slice buf st.wordStart st.i).length = st.i - st.wordStart :=
        slice_length buf _ _ (by omega)
      have hfuel' : n - (st.i + 1) ≤ fuel := by omega
      rw [hsl]
      by_cases hsp : IsSpace b = true
      · by_cases hne : st.wordStart = st.i
        · have hp0 : ¬ (slice buf st.wordStart st.i).length ≠ 0 := by rw [hplen]; omega
          have hstep : scanStep ct buf st =
              { st with beginMet := true, chunkIsWord := false, wordStart := st.i + 1,
                        i := st.i + 1 } := by
            simp [scanStep, hdec, hsp, hne]
          have key := ih (scanStep ct buf st)
          rw [hstep] at key ⊢
          have := key (Nat.le_refl _) hi hrest hfuel' rfl
          dsimp only at this
          simp only [slice_self] at this
          simp only [asciiRun, hsp, if_true, if_neg hp0]
          exact this
        · have hp1 : (slice buf st.wordStart st.i).length ≠ 0 := by rw [hplen]; omega
          cases hbm : st.beginMet with
          | true =>
            have hstep : scanStep ct buf st =
                { st with beginMet := true, chunkIsWord := false, wordStart := st.i + 1,
                          i := st.i + 1,
                          freqByWord := incFreq st.freqByWord
                            (ToLower ct (slice buf st.wordStart st.i)) } := by
              simp [scanStep, hdec, hsp, hne, hbm]
            have key := ih (scanStep ct buf st)
            rw [hstep] at key ⊢
            have := key (Nat.le_refl _) hi hrest hfuel' rfl
            dsimp only at this
            simp only [slice_self] at this
            simp only [asciiRun, hsp, if_true, if_pos hp1]
            exact this
          | false =>
            have hstep : scanStep ct buf st =
                { st with beginMet := true, chunkIsWord := false, wordStart := st.i + 1,
                          i := st.i + 1, begin := slice buf st.wordStart st.i } := by
              simp [scanStep, hdec, hsp, hne, hbm]
            have key := ih (scanStep ct buf st)
            rw [hstep] at key ⊢
            have := key (Nat.le_refl _) hi hrest hfuel' rfl
            dsimp only at this
            simp only [slice_self] at this
            simp only [asciiRun, hsp, if_true, if_pos hp1, Bool.false_eq_true, if_false]
            exact this
      · have hstep : scanStep ct buf st = { st with i := st.i + 1 } := by
          simp [scanStep, hdec, hsp]
        have key := ih (scanStep ct buf st)
        rw [hstep] at key ⊢
        have := key (Nat.le_succ_of_le hws) hi hrest hfuel' hflag
        dsimp only at this
        rw [slice_snoc buf st.wordStart st.i b tl hd hws] at this
        simp only [asciiRun, hsp, Bool.false_eq_true, if_false]
        exact this
    · rw [if_neg hi]
      have hi' : st.i = n := by omega
      have hnil : slice buf st.i n = [] := by rw [hi']; exact slice_self _ _
      rw [hnil]
      simp [asciiRun, hi', hflag]

theorem asciiRun_met (ct : Nat → Nat) (s p bg : List Nat) (f : FreqMap) :
    asciiRun ct s p true bg f =
      (true, bg, (asciiScan ct s p).1.foldl incFreq f, (asciiScan ct s p).2) := by
  induction s generalizing p f with
  | nil => rfl
  | cons b s ih =>
    by_cases hsp : IsSpace b = true
    · by_cases hp : p.length ≠ 0
      · simp only [asciiRun, asciiScan, hsp, if_true, if_pos hp, flushWord, ih,
          List.singleton_append, List.foldl_cons]
      · simp only [asciiRun, asciiScan, hsp, if_true, if_neg hp, flushWord, ih, List.nil_append]
    · simp only [asciiRun, asciiScan, hsp, Bool.false_eq_true, if_false, ih]

theorem asciiRun_no_space (ct : Nat → Nat) (s p bg : List Nat) (f : FreqMap)
    (h : ∀ b ∈ s, IsSpace b = false) : asciiRun ct s p false bg f = (false, bg, f, p ++ s) := by
  induction s generalizing p with
  | nil => simp [asciiRun]
  | cons b s ih =>
    have hb : IsSpace b = false := h b (List.mem_cons_self _ _)
    simp only [asciiRun, hb, Bool.false_eq_true, if_false]
    rw [ih _ (fun x hx => h x (List.mem_cons_of_mem _ hx))]
    simp [List.append_assoc]

theorem asciiRun_first_space (ct : Nat → Nat) (a rest : List Nat) (sp : Nat) (p bg : List Nat)
    (f : FreqMap) (ha : ∀ b ∈ a, IsSpace b = false) (hsp : IsSpace sp = true) :
    asciiRun ct (a ++ sp :: rest) p false bg f =
      (true, if (p ++ a).length ≠ 0 then p ++ a else bg,
        (asciiScan ct rest []).1.foldl incFreq f, (asciiScan ct rest []).2) := by
  induction a generalizing p with
  | nil =>
    by_cases hp : p.length ≠ 0
    · simp only [List.nil_append, asciiRun, hsp, if_true, if_pos hp, Bool.false_eq_true, if_false,
        asciiRun_met, List.append_nil]
    · simp only [List.nil_append, asciiRun, hsp, if_true, if_neg hp, asciiRun_met,
        List.append_nil]
  | cons b a ih =>
    have hb : IsSpace b = false := ha b (List.mem_cons_self _ _)
    rw [List.cons_append]
    simp only [asciiRun, hb, Bool.false_eq_true, if_false]
    rw [ih _ (fun x hx => ha x (List.mem_cons_of_mem _ hx))]
    simp [List.append_assoc]

theorem asciiScan_no_space (ct : Nat → Nat) (s word : List Nat)
    (h : ∀ b ∈ s, IsSpace b = false) : asciiScan ct s word = ([], word ++ s) := by
  induction s generalizing word with
  | nil => simp [asciiScan]
  | cons b s ih =>
    have hb : IsSpace b = false := h b (List.mem_cons_self _ _)
    simp only [asciiScan, hb, Bool.false_eq_true, if_false]
    rw [ih _ (fun x hx => h x (List.mem_cons_of_mem _ hx))]
    simp [List.append_assoc]

theorem asciiScan_first_space (ct : Nat → Nat) (a rest : List Nat) (sp : Nat) (word : List Nat)
    (ha : ∀ b ∈ a, IsSpace b = false) (hsp : IsSpace sp = true) :
    asciiScan ct (a ++ sp :: rest) word =
      (flushWord ct (word ++ a) ++ (asciiScan ct rest []).1, (asciiScan ct rest []).2) := by
  induction a generalizing word with
  | nil => simp only [List.nil_append, asciiScan, hsp, if_true, List.append_nil]
  | cons b a ih =>
    have hb : IsSpace b = false := ha b (List.mem_cons_self _ _)
    rw [List.cons_append]
    simp only [asciiScan, hb, Bool.false_eq_true, if_false]
    rw [ih _ (fun x hx => ha x (List.mem_cons_of_mem _ hx))]
    simp [List.append_assoc]

theorem asciiScan_append (ct : Nat → Nat) (s₁ s₂ word : List Nat) :
    asciiScan ct (s₁ ++ s₂) word =
      ((asciiScan ct s₁ word).1 ++ (asciiScan ct s₂ (asciiScan ct s₁ word).2).1,
        (asciiScan ct s₂ (asciiScan ct s₁ word).2).2) := by
  induction s₁ generalizing word with
  | nil => simp [asciiScan]
  | cons b s ih =>
    by_cases hsp : IsSpace b = true
    · rw [List.cons_append]
      simp only [asciiScan, hsp, if_true, ih, List.append_assoc]
    · rw [List.cons_append]
      simp only [asciiScan, hsp, Bool.false_eq_true, if_false, ih]

theorem first_space_split (c : List Nat) :
    (∀ b ∈ c, IsSpace b = false) ∨
      ∃ a sp rest, c = a ++ sp :: rest ∧ (∀ b ∈ a, IsSpace b = false) ∧ IsSpace sp = true := by
  induction c with
  | nil => exact Or.inl (by simp)
  | cons b c ih =>
    by_cases hb : IsSpace b = true
    · exact Or.inr ⟨[], b, c, rfl, by simp, hb⟩
    · have hb' : IsSpace b = false := by simpa using hb
      rcases ih with h | ⟨a, sp, rest, hc, ha, hsp⟩
      · exact Or.inl (fun x hx => by
          rcases List.mem_cons.mp hx with rfl | hx
          · exact hb'
          · exact h x hx)
      · refine Or.inr ⟨b :: a, sp, rest, by rw [hc]; rfl, ?_, hsp⟩
        intro x hx
        rcases List.mem_cons.mp hx with rfl | hx
        · exact hb'
        · exact ha x hx

theorem seqLoop_ascii (ct : Nat → Nat) (s : List Nat) (hs : ∀ b ∈ s, b < 0x80) :
    ∀ (fuel : Nat) (word : List Nat) (m : FreqMap), s.length ≤ fuel →
      seqLoop ct fuel s word m =
        ((asciiScan ct s word).1 ++ flushWord ct (asciiScan ct s word).2).foldl incFreq m := by
  induction s with
  | nil =>
    intro fuel word m _
    cases fuel <;>
    · simp only [seqLoop, asciiScan, flushWord, List.nil_append]
      split <;> rfl
  | cons b s ih =>
    intro fuel word m hfuel
    cases fuel with
    | zero => simp at hfuel
    | succ fuel =>
      have hb : b < 0x80 := hs b (List.mem_cons_self _ _)
      have hs' : ∀ x ∈ s, x < 0x80 := fun x hx => hs x (List.mem_cons_of_mem _ hx)
      have hf : s.length ≤ fuel := by simp only [List.length_cons] at hfuel; omega
      simp only [seqLoop, DecodeRune_ascii b s hb, List.drop_succ_cons, List.drop_zero,
        List.take_succ_cons, List.take_zero]
      by_cases hsp : IsSpace b = true
      · rw [if_pos hsp, ih hs' fuel _ _ hf]
        simp only [asciiScan, hsp, if_true, flushWord, List.append_assoc]
        by_cases hw : word.length ≠ 0
        · simp only [if_pos hw, List.singleton_append, List.foldl_cons]
        · simp only [if_neg hw, List.nil_append]
      · rw [if_neg hsp, ih hs' fuel _ _ hf]
        simp only [asciiScan, hsp, Bool.false_eq_true, if_false]

theorem runWorker_eq_asciiRun (ct : Nat → Nat) (ch : chunk) (hfit : ch.n ≤ ch.data.length)
    (hascii : ∀ b ∈ chunkBytes ch, b < 0x80) :
    runWorker ct ch =
      if (asciiRun ct (chunkBytes ch) [] false [] []).1 = true then
        { num := ch.num, freqByWord := (asciiRun ct (chunkBytes ch) [] false [] []).2.2.1,
          begin := (asciiRun ct (chunkBytes ch) [] false [] []).2.1,
          reminder := (asciiRun ct (chunkBytes ch) [] false [] []).2.2.2,
          chunkIsWord := !(asciiRun ct (chunkBytes ch) [] false [] []).1 }
      else
        { num := ch.num, freqByWord := (asciiRun ct (chunkBytes ch) [] false [] []).2.2.1,
          begin := (asciiRun ct (chunkBytes ch) [] false [] []).2.2.2,
          reminder := [],
          chunkIsWord := !(asciiRun ct (chunkBytes ch) [] false [] []).1 } := by
  have hsl : slice ch.data 0 ch.n = chunkBytes ch := by simp [slice, chunkBytes]
  have h := scanLoop_asciiRun ct ch.data ch.n hfit ch.n scanInit (Nat.le_refl _) (Nat.zero_le _)
    (by rw [show scanInit.i = 0 from rfl, hsl]; exact hascii) (by simp [scanInit]) rfl
  rw [show scanInit.i = 0 from rfl, show scanInit.wordStart = 0 from rfl, hsl, slice_self,
    show scanInit.beginMet = false from rfl, show scanInit.begin = [] from rfl,
    show scanInit.freqByWord = [] from rfl] at h
  obtain ⟨h1, h2, h3, h4, h5⟩ := h
  simp only [runWorker]
  rw [h1, h2, h3, h4, h5]

theorem runWorker_ascii_whole (ct : Nat → Nat) (ch : chunk) (hfit : ch.n ≤ ch.data.length)
    (hascii : ∀ b ∈ chunkBytes ch, b < 0x80) (h : ∀ b ∈ chunkBytes ch, IsSpace b = false) :
    runWorker ct ch =
      { num := ch.num, freqByWord := [], begin := chunkBytes ch, reminder := [],
        chunkIsWord := true } := by
  rw [runWorker_eq_asciiRun ct ch hfit hascii, asciiRun_no_space ct _ _ _ _ h]
  simp

theorem runWorker_ascii_split (ct : Nat → Nat) (ch : chunk) (hfit : ch.n ≤ ch.data.length)
    (hascii : ∀ b ∈ chunkBytes ch, b < 0x80) (a rest : List Nat) (sp : Nat)
    (hc : chunkBytes ch = a ++ sp :: rest) (ha : ∀ b ∈ a, IsSpace b = false)
    (hsp : IsSpace sp = true) :
    runWorker ct ch =
      { num := ch.num, freqByWord := (asciiScan ct rest []).1.foldl incFreq [], begin := a,
        reminder := (asciiScan ct rest []).2, chunkIsWord := false } := by
  rw [runWorker_eq_asciiRun ct ch hfit hascii, hc, asciiRun_first_space ct a rest sp [] [] [] ha hsp]
  cases a <;> simp

theorem mergeWords_cons (ct : Nat → Nat) (word : List Nat) (part : splitPart)
    (parts : List splitPart) :
    mergeWords ct word (part :: parts) =
      (if part.chunkIsWord then [] else flushWord ct (word ++ part.begin)) ++
        mergeWords ct
          (if part.chunkIsWord then word ++ part.begin ++ part.reminder else part.reminder)
          parts := by
  rw [mergeWords]
  cases hw : part.chunkIsWord with
  | true => simp
  | false =>
    by_cases hl : (word ++ part.begin).length ≠ 0
    · simp only [Bool.not_false, if_true, Bool.false_eq_true, if_false, flushWord, List.nil_append,
        List.singleton_append]
      rw [if_pos hl, if_pos hl]
      rfl
    · have hnil : word ++ part.begin = [] := by simpa [List.length_eq_zero] using hl
      simp only [Bool.not_false, if_true, Bool.false_eq_true, if_false, flushWord]
      rw [if_neg hl, if_neg hl, hnil]
      rfl

theorem sumFor_foldl_incFreq (ws : List (List Nat)) (w : List Nat) :
    sumFor (ws.foldl incFreq []) w = (ws.count w : Nat) := by
  rw [sumFor_of_nodup _ (nodup_keys_foldl_incFreq ws [] (by simp)), countOf_foldl_incFreq]
  simp [countOf, lookup]

/-- One ASCII chunk: walking its bytes sequentially with `word` pending leaves
the same pending bytes as the boundary merge of its record, and counts the
words of its local map together with the word the merge counts. -/
theorem ascii_chunk_step (ct : Nat → Nat) (ch : chunk) (hfit : ch.n ≤ ch.data.length)
    (hascii : ∀ b ∈ chunkBytes ch, b < 0x80) (word w : List Nat) :
    (asciiScan ct (chunkBytes ch) word).2 =
      (if (partOf (runWorker ct ch)).chunkIsWord then
        word ++ (partOf (runWorker ct ch)).begin ++ (partOf (runWorker ct ch)).reminder
      else (partOf (runWorker ct ch)).reminder) ∧
    (((asciiScan ct (chunkBytes ch) word).1.count w : Nat) : Int) =
      sumFor (runWorker ct ch).freqByWord w +
        (((if (partOf (runWorker ct ch)).chunkIsWord then []
          else flushWord ct (word ++ (partOf (runWorker ct ch)).begin)).count w : Nat) : Int) := by
  rcases first_space_split (chunkBytes ch) with h | ⟨a, sp, rest, hc, ha, hsp⟩
  · rw [runWorker_ascii_whole ct ch hfit hascii h, asciiScan_no_space ct _ _ h]
    simp [partOf, sumFor]
  · rw [runWorker_ascii_split ct ch hfit hascii a rest sp hc ha hsp, hc,
      asciiScan_first_space ct a rest sp word ha hsp]
    simp only [partOf, Bool.false_eq_true, if_false, List.count_append, Nat.cast_add,
      sumFor_foldl_incFreq, true_and]
    ring

theorem ascii_chunks_count (ct : Nat → Nat) (chunks : List chunk)
    (hfit : ∀ ch ∈ chunks, ch.n ≤ ch.data.length)
    (hascii : ∀ ch ∈ chunks, ∀ b ∈ chunkBytes ch, b < 0x80) (w : List Nat) :
    ∀ word : List Nat,
      ((((asciiScan ct (chunks.map chunkBytes).flatten word).1 ++
          flushWord ct (asciiScan ct (chunks.map chunkBytes).flatten word).2).count w : Nat) : Int) =
        (chunks.map (fun ch => sumFor (runWorker ct ch).freqByWord w)).sum +
          (((mergeWords ct word (chunks.map (fun ch => partOf (runWorker ct ch)))).count w : Nat) :
            Int) := by
  induction chunks with
  | nil =>
    intro word
    simp only [List.map_nil, List.flatten_nil, asciiScan, List.nil_append, List.sum_nil, zero_add,
      mergeWords, flushWord]
  | cons ch chunks ih =>
    intro word
    have hstep := ascii_chunk_step ct ch (hfit ch (List.mem_cons_self _ _))
      (hascii ch (List.mem_cons_self _ _)) word w
    have hrec := ih (fun c hc => hfit c (List.mem_cons_of_mem _ hc))
      (fun c hc => hascii c (List.mem_cons_of_mem _ hc)) (asciiScan ct (chunkBytes ch) word).2
    simp only [List.map_cons, List.flatten_cons, asciiScan_append, List.sum_cons,
      mergeWords_cons, List.count_append, Nat.cast_add] at hrec ⊢
    rw [← hstep.1]
    linarith [hstep.2]

theorem positive_addFreq (m : FreqMap) (k : List Nat) (v : Int) (hv : 0 < v)
    (h : ∀ e ∈ m, 0 < e.2) : ∀ e ∈ addFreq m k v, 0 < e.2 := by
  induction m with
  | nil =>
    intro e he
    simp only [addFreq, List.mem_singleton] at he
    rw [he]; simpa using hv
  | cons e' m ih =>
    obtain ⟨k', c⟩ := e'
    have hc : 0 < c := h (k', c) (List.mem_cons_self _ _)
    have hm : ∀ e ∈ m, 0 < e.2 := fun e he => h e (List.mem_cons_of_mem _ he)
    intro e he
    unfold addFreq at he
    by_cases hk : k' = k
    · rw [if_pos hk] at he
      rcases List.mem_cons.mp he with rfl | he
      · show 0 < c + v; omega
      · exact hm e he
    · rw [if_neg hk] at he
      rcases List.mem_cons.mp he with rfl | he
      · exact hc
      · exact ih hm e he

theorem positive_foldl_incFreq (ws : List (List Nat)) (m : FreqMap) (h : ∀ e ∈ m, 0 < e.2) :
    ∀ e ∈ ws.foldl incFreq m, 0 < e.2 := by
  induction ws generalizing m with
  | nil => exact h
  | cons a ws ih =>
    rw [List.foldl_cons, incFreq_eq_addFreq]
    exact ih _ (positive_addFreq m a 1 (by omega) h)

theorem positive_mergeLocal (loc m : FreqMap) (hloc : ∀ e ∈ loc, 0 < e.2)
    (h : ∀ e ∈ m, 0 < e.2) : ∀ e ∈ mergeLocal m loc, 0 < e.2 := by
  induction loc generalizing m with
  | nil => exact h
  | cons e loc ih =>
    unfold mergeLocal
    rw [List.foldl_cons]
    exact ih _ (fun x hx => hloc x (List.mem_cons_of_mem _ hx))
      (positive_addFreq m e.1 e.2 (hloc e (List.mem_cons_self _ _)) h)

theorem positive_scanLoop (ct : Nat → Nat) (buf : List Nat) (n fuel : Nat) (st : ScanState)
    (h : ∀ e ∈ st.freqByWord, 0 < e.2) : ∀ e ∈ (scanLoop ct buf n fuel st).freqByWord, 0 < e.2 := by
  induction fuel generalizing st with
  | zero => exact h
  | succ fuel ih =>
    unfold scanLoop
    split
    · apply ih
      simp only [scanStep]
      split
      · split
        · split
          · rw [incFreq_eq_addFreq]
            exact positive_addFreq _ _ 1 (by omega) h
          · exact h
        · exact h
      · exact h
    · exact h

theorem positive_runWorker (ct : Nat → Nat) (ch : chunk) :
    ∀ e ∈ (runWorker ct ch).freqByWord, 0 < e.2 := by
  have h := positive_scanLoop ct ch.data ch.n ch.n scanInit (by simp [scanInit])
  simp only [runWorker]
  split <;> exact h

theorem positive_collect (results : List workerWords) (acc : FreqMap × List splitPart)
    (hres : ∀ r ∈ results, ∀ e ∈ r.freqByWord, 0 < e.2) (h : ∀ e ∈ acc.1, 0 < e.2) :
    ∀ e ∈ (results.foldl collectStep acc).1, 0 < e.2 := by
  induction results generalizing acc with
  | nil => exact h
  | cons r rs ih =>
    rw [List.foldl_cons]
    exact ih _ (fun x hx => hres x (List.mem_cons_of_mem _ hx))
      (positive_mergeLocal r.freqByWord acc.1 (hres r (List.mem_cons_self _ _)) h)

theorem lookup_none_iff_countOf (m : FreqMap) (h : ∀ e ∈ m, 0 < e.2) (w : List Nat) :
    lookup m w = none ↔ countOf m w = 0 := by
  induction m with
  | nil => simp [lookup, countOf]
  | cons e m ih =>
    obtain ⟨k, c⟩ := e
    have hc : 0 < c := h (k, c) (List.mem_cons_self _ _)
    have ih' := ih (fun e he => h e (List.mem_cons_of_mem _ he))
    rw [countOf_cons, lookup_cons]
    by_cases hk : k = w
    · simp only [hk, if_true]
      constructor
      · intro h'; cases h'
      · intro h'; omega
    · simp only [hk, if_false]
      exact ih'

/-- Two tables with positive counters that hold the same count of `w` answer
the lookup of `w` alike. -/
theorem lookup_eq_of_countOf_eq (m₁ m₂ : FreqMap) (h₁ : ∀ e ∈ m₁, 0 < e.2)
    (h₂ : ∀ e ∈ m₂, 0 < e.2) (w : List Nat) (hc : countOf m₁ w = countOf m₂ w) :
    lookup m₁ w = lookup m₂ w := by
  apply lookup_ext m₁ m₂ w hc
  rw [lookup_none_iff_countOf m₁ h₁, lookup_none_iff_countOf m₂ h₂, hc]

theorem runWorker_num (ct : Nat → Nat) (ch : chunk) : (runWorker ct ch).num = ch.num := by
  simp only [runWorker]
  split <;> rfl

theorem sequentialTable_ascii (ct : Nat → Nat) (input : List Nat) (h : ∀ b ∈ input, b < 0x80) :
    sequentialTable ct input =
      ((asciiScan ct input []).1 ++ flushWord ct (asciiScan ct input []).2).foldl incFreq [] :=
  seqLoop_ascii ct input h input.length [] [] (Nat.le_refl _)

theorem globalTable_ascii_count (ct : Nat → Nat) (chunks : List chunk)
    (hfit : ∀ ch ∈ chunks, ch.n ≤ ch.data.length)
    (hascii : ∀ ch ∈ chunks, ∀ b ∈ chunkBytes ch, b < 0x80)
    (hnum : chunks.Pairwise (fun a b => a.num < b.num)) (w : List Nat) :
    countOf (globalTable ct (chunks.map (runWorker ct))) w =
      countOf (sequentialTable ct (chunks.map chunkBytes).flatten) w := by
  have hflat : ∀ b ∈ (chunks.map chunkBytes).flatten, b < 0x80 := by
    intro b hb
    obtain ⟨l, hl, hbl⟩ := List.mem_flatten.mp hb
    obtain ⟨ch, hch, rfl⟩ := List.mem_map.mp hl
    exact hascii ch hch b hbl
  have hsorted : ((chunks.map (runWorker ct)).map partOf).Pairwise
      (fun a b => a.num < b.num) := by
    rw [List.pairwise_map, List.pairwise_map]
    exact hnum.imp (fun {a b} hab => by
      show (runWorker ct a).num < (runWorker ct b).num
      rw [runWorker_num, runWorker_num]; exact hab)
  rw [sequentialTable_ascii ct _ hflat, countOf_foldl_incFreq]
  unfold globalTable
  rw [mergeSplitParts_eq, countOf_foldl_incFreq]
  unfold collect
  rw [collect_foldl_count, collect_foldl_parts, List.nil_append,
    sortSlice_numLess_id _ hsorted, List.map_map, List.map_map]
  have key := ascii_chunks_count ct chunks hfit hascii w []
  simp only [countOf, lookup, Option.getD_none, zero_add]
  rw [key]
  rfl

/-- C17: for chunks that hold only ASCII bytes, listed in stream order with
increasing ordinals, whatever their buffers hold after the chunk and in
whatever order the workers' results arrive: the table after collection and
`mergeSplitParts` answers every lookup as the table of the sequential
tokenizer over the concatenated chunks does, and the ranked lists are equal. -/
theorem ascii_pipeline_refines_sequential (ct : Nat → Nat) (chunks : List chunk)
    (results : List workerWords)
    (hres : results.Perm (chunks.map (runWorker ct)))
    (hfit : ∀ ch ∈ chunks, ch.n ≤ ch.data.length)
    (hascii : ∀ ch ∈ chunks, ∀ b ∈ chunkBytes ch, b < 0x80)
    (hnum : chunks.Pairwise (fun a b => a.num < b.num)) :
    (∀ w, lookup (globalTable ct results) w =
      lookup (sequentialTable ct (chunks.map chunkBytes).flatten) w) ∧
    getResult (globalTable ct results) = countSequential ct (chunks.map chunkBytes).flatten := by
  have hflat : ∀ b ∈ (chunks.map chunkBytes).flatten, b < 0x80 := by
    intro b hb
    obtain ⟨l, hl, hbl⟩ := List.mem_flatten.mp hb
    obtain ⟨ch, hch, rfl⟩ := List.mem_map.mp hl
    exact hascii ch hch b hbl
  have hnd : ((chunks.map (runWorker ct)).map (fun r => r.num)).Nodup := by
    rw [List.Nodup, List.pairwise_map, List.pairwise_map]
    exact hnum.imp (fun {a b} hab => by
      show (runWorker ct a).num ≠ (runWorker ct b).num
      rw [runWorker_num, runWorker_num]; omega)
  have hposg : ∀ e ∈ globalTable ct (chunks.map (runWorker ct)), 0 < e.2 := by
    unfold globalTable
    rw [mergeSplitParts_eq]
    apply positive_foldl_incFreq
    apply positive_collect _ _ _ (by simp)
    intro r hr
    obtain ⟨ch, _, rfl⟩ := List.mem_map.mp hr
    exact positive_runWorker ct ch
  have hposs : ∀ e ∈ sequentialTable ct (chunks.map chunkBytes).flatten, 0 < e.2 := by
    rw [sequentialTable_ascii ct _ hflat]
    exact positive_foldl_incFreq _ [] (by simp)
  have hlook : ∀ w, lookup (globalTable ct results) w =
      lookup (sequentialTable ct (chunks.map chunkBytes).flatten) w := by
    intro w
    rw [globalTable_lookup_perm ct results _ hres ((hres.map _).nodup_iff.2 hnd) w]
    exact lookup_eq_of_countOf_eq _ _ hposg hposs w
      (globalTable_ascii_count ct chunks hfit hascii hnum w)
  refine ⟨hlook, ?_⟩
  unfold countSequential
  apply getResult_of_lookup_eq _ _ (globalTable_nodup ct results) _ hlook
  rw [sequentialTable_ascii ct _ hflat]
  exact nodup_keys_foldl_incFreq _ [] (by simp)

/-- Instance of C17: the stream "ab cd ef" cut as "ab c" | "d ef", the second
chunk in a buffer with bytes left over after it, the results arriving in
reverse order. -/
theorem ascii_pipeline_refines_sequential_witness :
    (∀ w, lookup (globalTable caselessTable
        [runWorker caselessTable { num := 1, data := [100, 32, 101, 102, 194, 160], n := 4 },
         runWorker caselessTable { num := 0, data := [97, 98, 32, 99], n := 4 }]) w =
      lookup (sequentialTable caselessTable
        ([{ num := 0, data := [97, 98, 32, 99], n := 4 },
          { num := 1, data := [100, 32, 101, 102, 194, 160], n := 4 }].map chunkBytes).flatten) w) ∧
    getResult (globalTable caselessTable
        [runWorker caselessTable { num := 1, data := [100, 32, 101, 102, 194, 160], n := 4 },
         runWorker caselessTable { num := 0, data := [97, 98, 32, 99], n := 4 }]) =
      countSequential caselessTable
        ([{ num := 0, data := [97, 98, 32, 99], n := 4 },
          { num := 1, data := [100, 32, 101, 102, 194, 160], n := 4 }].map chunkBytes).flatten :=
  ascii_pipeline_refines_sequential caselessTable
    [{ num := 0, data := [97, 98, 32, 99], n := 4 },
     { num := 1, data := [100, 32, 101, 102, 194, 160], n := 4 }]
    [runWorker caselessTable { num := 1, data := [100, 32, 101, 102, 194, 160], n := 4 },
     runWorker caselessTable { num := 0, data := [97, 98, 32, 99], n := 4 }]
    (List.Perm.swap _ _ _) (by decide) (by decide) (by decide)

/-! ## Case: lower-casing the ASCII letters of the input changes nothing -/

theorem lowerByte_of_ge (b : Nat) (h : 0x80 ≤ b) : lowerByte b = b := by
  unfold lowerByte
  rw [if_neg (by omega)]

theorem lowerByte_lt (b : Nat) : lowerByte b < 0x80 ↔ b < 0x80 := by
  unfold lowerByte
  split <;> omega

theorem isCont_lowerByte (b : Nat) : isCont (lowerByte b) = isCont b := by
  by_cases h : 0x80 ≤ b
  · rw [lowerByte_of_ge b h]
  · have h1 : ¬ 0x80 ≤ lowerByte b := by
      have := lowerByte_lt b
      omega
    simp [isCont, h, h1]

theorem range_lowerByte (b lo hi : Nat) (hlo : 0x80 ≤ lo) :
    (lo ≤ lowerByte b ∧ lowerByte b ≤ hi) ↔ (lo ≤ b ∧ b ≤ hi) := by
  by_cases h : 0x80 ≤ b
  · rw [lowerByte_of_ge b h]
  · have := lowerByte_lt b
    constructor <;> intro h' <;> omega

theorem lowerByte_of_isCont (b : Nat) (h : isCont b = true) : lowerByte b = b := by
  apply lowerByte_of_ge
  simp [isCont] at h
  omega

theorem decode2_lower (p0 b1 : Nat) :
    (if isCont (lowerByte b1) = true then ((p0 % 32) * 64 + lowerByte b1 % 64, 2)
      else (RuneError, 1)) =
    (if isCont b1 = true then ((p0 % 32) * 64 + b1 % 64, 2) else (RuneError, 1)) := by
  rw [isCont_lowerByte]
  by_cases h : isCont b1 = true
  · rw [lowerByte_of_isCont b1 h]
  · rw [if_neg h, if_neg h]

theorem decode3_lower (p0 lo hi b1 b2 : Nat) (hlo : 0x80 ≤ lo) :
    (if lo ≤ lowerByte b1 ∧ lowerByte b1 ≤ hi ∧ isCont (lowerByte b2) = true then
        ((p0 % 16) * 4096 + (lowerByte b1 % 64) * 64 + lowerByte b2 % 64, 3)
      else (RuneError, 1)) =
    (if lo ≤ b1 ∧ b1 ≤ hi ∧ isCont b2 = true then
        ((p0 % 16) * 4096 + (b1 % 64) * 64 + b2 % 64, 3)
      else (RuneError, 1)) := by
  rw [isCont_lowerByte]
  by_cases h : lo ≤ b1 ∧ b1 ≤ hi ∧ isCont b2 = true
  · rw [lowerByte_of_ge b1 (by omega), lowerByte_of_isCont b2 h.2.2]
  · have h' : ¬ (lo ≤ lowerByte b1 ∧ lowerByte b1 ≤ hi ∧ isCont b2 = true) := by
      rw [← and_assoc, range_lowerByte b1 lo hi hlo, and_assoc]
      exact h
    rw [if_neg h, if_neg h']

theorem decode4_lower (p0 lo hi b1 b2 b3 : Nat) (hlo : 0x80 ≤ lo) :
    (if lo ≤ lowerByte b1 ∧ lowerByte b1 ≤ hi ∧ isCont (lowerByte b2) = true ∧
          isCont (lowerByte b3) = true then
        ((p0 % 8) * 262144 + (lowerByte b1 % 64) * 4096 + (lowerByte b2 % 64) * 64
          + lowerByte b3 % 64, 4)
      else (RuneError, 1)) =
    (if lo ≤ b1 ∧ b1 ≤ hi ∧ isCont b2 = true ∧ isCont b3 = true then
        ((p0 % 8) * 262144 + (b1 % 64) * 4096 + (b2 % 64) * 64 + b3 % 64, 4)
      else (RuneError, 1)) := by
  rw [isCont_lowerByte, isCont_lowerByte]
  by_cases h : lo ≤ b1 ∧ b1 ≤ hi ∧ isCont b2 = true ∧ isCont b3 = true
  · rw [lowerByte_of_ge b1 (by omega), lowerByte_of_isCont b2 h.2.2.1,
      lowerByte_of_isCont b3 h.2.2.2]
  · have h' : ¬ (lo ≤ lowerByte b1 ∧ lowerByte b1 ≤ hi ∧ isCont b2 = true ∧
        isCont b3 = true) := by
      rw [← and_assoc, range_lowerByte b1 lo hi hlo, and_assoc]
      exact h
    rw [if_neg h, if_neg h']

theorem DecodeRune_lower_tail (p0 : Nat) (t : List Nat) (h0 : ¬ p0 < 0x80) :
    DecodeRune (p0 :: t.map lowerByte) = DecodeRune (p0 :: t) := by
  rcases t with _ | ⟨b1, _ | ⟨b2, _ | ⟨b3, t⟩⟩⟩
  · rfl
  · simp only [List.map_cons, List.map_nil, DecodeRune, if_neg h0]
    split
    · exact decode2_lower p0 b1
    · split_ifs <;> rfl
  · simp only [List.map_cons, List.map_nil, DecodeRune, if_neg h0]
    split
    · exact decode2_lower p0 b1
    · split
      · exact decode3_lower p0 _ _ b1 b2 (by split <;> omega)
      · rfl
  · simp only [List.map_cons, DecodeRune, if_neg h0]
    split
    · exact decode2_lower p0 b1
    · split
      · exact decode3_lower p0 _ _ b1 b2 (by split <;> omega)
      · split
        · exact decode4_lower p0 _ _ b1 b2 b3 (by split <;> omega)
        · rfl

theorem DecodeRune_width_lower (p : List Nat) :
    (DecodeRune (p.map lowerByte)).2 = (DecodeRune p).2 := by
  cases p with
  | nil => rfl
  | cons p0 t =>
    by_cases h0 : p0 < 0x80
    · have h0' : lowerByte p0 < 0x80 := (lowerByte_lt p0).2 h0
      simp [DecodeRune, h0, h0']
    · rw [List.map_cons, lowerByte_of_ge p0 (by omega), DecodeRune_lower_tail p0 t h0]

theorem DecodeRune_rune_lower (p : List Nat) :
    (DecodeRune (p.map lowerByte)).1 = (DecodeRune p).1 ∨
      ((DecodeRune p).1 < 0x80 ∧ (DecodeRune (p.map lowerByte)).1 = lowerByte (DecodeRune p).1) := by
  cases p with
  | nil => exact Or.inl rfl
  | cons p0 t =>
    by_cases h0 : p0 < 0x80
    · have h0' : lowerByte p0 < 0x80 := (lowerByte_lt p0).2 h0
      right
      simp [DecodeRune, h0, h0']
    · left
      rw [List.map_cons, lowerByte_of_ge p0 (by omega), DecodeRune_lower_tail p0 t h0]

theorem IsSpace_lowerByte (r : Nat) : IsSpace (lowerByte r) = IsSpace r := by
  unfold lowerByte
  split
  · rename_i h
    have h1 : ¬ (r + 0x20 = 0x09 ∨ r + 0x20 = 0x0A ∨ r + 0x20 = 0x0B ∨ r + 0x20 = 0x0C ∨
        r + 0x20 = 0x0D ∨ r + 0x20 = 0x20 ∨ r + 0x20 = 0x85 ∨ r + 0x20 = 0xA0) := by omega
    have h2 : ¬ (r = 0x09 ∨ r = 0x0A ∨ r = 0x0B ∨ r = 0x0C ∨ r = 0x0D ∨ r = 0x20 ∨ r = 0x85 ∨
        r = 0xA0) := by omega
    have h3 : r + 0x20 ≤ 0xFF := by omega
    have h4 : r ≤ 0xFF := by omega
    simp only [IsSpace, if_pos h3, if_pos h4, decide_eq_false h1, decide_eq_false h2]
  · rfl

theorem unicodeToLower_lowerByte (ct : Nat → Nat) (r : Nat) :
    unicodeToLower ct (lowerByte r) = unicodeToLower ct r := by
  unfold lowerByte unicodeToLower
  split_ifs <;> omega

theorem DecodeRune_space_lower (p : List Nat) :
    IsSpace (DecodeRune (p.map lowerByte)).1 = IsSpace (DecodeRune p).1 := by
  rcases DecodeRune_rune_lower p with h | ⟨_, h⟩
  · rw [h]
  · rw [h, IsSpace_lowerByte]

theorem DecodeRune_toLower_lower (ct : Nat → Nat) (p : List Nat) :
    unicodeToLower ct (DecodeRune (p.map lowerByte)).1 = unicodeToLower ct (DecodeRune p).1 := by
  rcases DecodeRune_rune_lower p with h | ⟨_, h⟩
  · rw [h]
  · rw [h, unicodeToLower_lowerByte]

theorem mapLoop_lower (ct : Nat → Nat) (fuel : Nat) (s : List Nat) :
    mapLoop (unicodeToLower ct) fuel (s.map lowerByte) = mapLoop (unicodeToLower ct) fuel s := by
  induction fuel generalizing s with
  | zero => rfl
  | succ fuel ih =>
    cases s with
    | nil => rfl
    | cons b s =>
      have hw := DecodeRune_width_lower (b :: s)
      have ht := DecodeRune_toLower_lower ct (b :: s)
      rw [List.map_cons] at hw ht
      simp only [List.map_cons, mapLoop, hw, ht]
      rw [← List.map_cons, ← List.map_drop, ih]

theorem ToLower_lower (ct : Nat → Nat) (s : List Nat) :
    ToLower ct (s.map lowerByte) = ToLower ct s := by
  have hall : (s.map lowerByte).all (fun c => decide (c < 0x80)) =
      s.all (fun c => decide (c < 0x80)) := by
    induction s with
    | nil => rfl
    | cons b s ih =>
      simp only [List.map_cons, List.all_cons, ih]
      congr 1
      exact decide_eq_decide.mpr (lowerByte_lt b)
  have hfun : (fun c => if 0x41 ≤ c ∧ c ≤ 0x5A then c + 0x20 else c) = lowerByte := rfl
  have hidem : ∀ c, lowerByte (lowerByte c) = lowerByte c := by
    intro c
    unfold lowerByte
    split_ifs <;> omega
  simp only [ToLower, hall, List.length_map, mapLoop_lower, hfun, List.map_map]
  congr 2
  funext c
  exact hidem c

theorem slice_map (f : Nat → Nat) (buf : List Nat) (lo hi : Nat) :
    slice (buf.map f) lo hi = (slice buf lo hi).map f := by
  simp [slice, List.map_take, List.map_drop]

theorem scanStep_lower (ct : Nat → Nat) (buf : List Nat) (st : ScanState) :
    scanStep ct (buf.map lowerByte) (lowerState st) = lowerState (scanStep ct buf st) := by
  have hw := DecodeRune_width_lower (buf.drop st.i)
  have hs := DecodeRune_space_lower (buf.drop st.i)
  rw [List.map_drop] at hw hs
  simp only [scanStep, lowerState, hw, hs, slice_map, ToLower_lower]
  split
  · split
    · split <;> rfl
    · rfl
  · rfl

theorem scanLoop_lower (ct : Nat → Nat) (buf : List Nat) (n fuel : Nat) (st : ScanState) :
    scanLoop ct (buf.map lowerByte) n fuel (lowerState st) =
      lowerState (scanLoop ct buf n fuel st) := by
  induction fuel generalizing st with
  | zero => rfl
  | succ fuel ih =>
    unfold scanLoop
    have hi : (lowerState st).i = st.i := rfl
    rw [hi]
    split
    · rw [scanStep_lower, ih]
    · rfl

theorem runWorker_lower (ct : Nat → Nat) (ch : chunk) :
    runWorker ct (lowerChunk ch) = lowerWords (runWorker ct ch) := by
  have h := scanLoop_lower ct ch.data ch.n ch.n scanInit
  have hinit : lowerState scanInit = scanInit := rfl
  rw [hinit] at h
  simp only [runWorker, lowerChunk, h, lowerState, slice_map, lowerWords]
  split <;> rfl

theorem mergeWords_lower (ct : Nat → Nat) (parts : List splitPart) (word : List Nat) :
    mergeWords ct (word.map lowerByte) (parts.map lowerPart) = mergeWords ct word parts := by
  induction parts generalizing word with
  | nil => simp only [List.map_nil, mergeWords, List.length_map, ToLower_lower]
  | cons p parts ih =>
    have h1 : word.map lowerByte ++ p.begin.map lowerByte = (word ++ p.begin).map lowerByte := by
      simp
    have h2 : (word ++ p.begin).map lowerByte ++ p.reminder.map lowerByte =
        (word ++ p.begin ++ p.reminder).map lowerByte := by simp
    have h3 : ([] : List Nat) ++ p.reminder.map lowerByte = ([] ++ p.reminder).map lowerByte := by
      simp
    simp only [List.map_cons, mergeWords, lowerPart, h1, h2, h3, List.length_map, ToLower_lower, ih]

theorem sortInsert_map {α : Type} (less : α → α → Bool) (f : α → α)
    (hf : ∀ a b, less (f a) (f b) = less a b) (a : α) (l : List α) :
    sortInsert less (f a) (l.map f) = (sortInsert less a l).map f := by
  induction l with
  | nil => rfl
  | cons b l ih =>
    simp only [List.map_cons, sortInsert, hf]
    split
    · rfl
    · rw [ih]; rfl

theorem sortSlice_map {α : Type} (less : α → α → Bool) (f : α → α)
    (hf : ∀ a b, less (f a) (f b) = less a b) (l : List α) :
    sortSlice less (l.map f) = (sortSlice less l).map f := by
  induction l with
  | nil => rfl
  | cons a l ih => simp only [List.map_cons, sortSlice, ih, sortInsert_map less f hf]

theorem collect_lower (results : List workerWords) (acc : FreqMap × List splitPart) :
    (results.map lowerWords).foldl collectStep (acc.1, acc.2.map lowerPart) =
      ((results.foldl collectStep acc).1, (results.foldl collectStep acc).2.map lowerPart) := by
  induction results generalizing acc with
  | nil => rfl
  | cons r rs ih =>
    simp only [List.map_cons, List.foldl_cons]
    have : collectStep (acc.1, acc.2.map lowerPart) (lowerWords r) =
        ((collectStep acc r).1, (collectStep acc r).2.map lowerPart) := by
      simp [collectStep, lowerWords, partOf, lowerPart]
    rw [this, ih]

theorem globalTable_lower (ct : Nat → Nat) (results : List workerWords) :
    globalTable ct (results.map lowerWords) = globalTable ct results := by
  have h := collect_lower results ([], [])
  simp only [List.map_nil] at h
  unfold globalTable collect
  rw [h, mergeSplitParts_eq, mergeSplitParts_eq,
    sortSlice_map numLess lowerPart (fun a b => rfl)]
  have := mergeWords_lower ct (sortSlice numLess (results.foldl collectStep ([], [])).2) []
  rw [List.map_nil] at this
  rw [this]

theorem countChunks_lower (ct : Nat → Nat) (chunks : List chunk) :
    countChunks ct (chunks.map lowerChunk) = countChunks ct chunks := by
  unfold countChunks
  rw [List.map_map]
  have : (runWorker ct ∘ lowerChunk) = (lowerWords ∘ runWorker ct) := by
    funext ch
    exact runWorker_lower ct ch
  rw [this, ← List.map_map, globalTable_lower]

theorem readChunks_lower (size : Nat) (fuel i : Nat) (s : List Nat) :
    readChunks size fuel i (s.map lowerByte) = (readChunks size fuel i s).map lowerChunk := by
  induction fuel generalizing i s with
  | zero => rfl
  | succ fuel ih =>
    cases s with
    | nil => rfl
    | cons b s =>
      have hz : (List.replicate (size - ((b :: s).take size).length) 0).map lowerByte =
          List.replicate (size - ((b :: s).take size).length) 0 := by
        rw [List.map_replicate]; rfl
      rw [List.map_cons]
      simp only [readChunks]
      rw [← List.map_cons, ← List.map_drop, ih, ← List.map_take]
      simp only [List.map_cons, lowerChunk, List.map_append, hz, List.length_map]

theorem countParallel_lower (ct : Nat → Nat) (size : Nat) (x : List Nat) :
    countParallel ct size (x.map lowerByte) = countParallel ct size x := by
  unfold countParallel
  rw [List.length_map, readChunks_lower, countChunks_lower]

/-! ## Lower-casing twice is lower-casing once -/

theorem isCont_iff (b : Nat) : isCont b = true ↔ (0x80 ≤ b ∧ b ≤ 0xBF) := by
  simp [isCont]

theorem DecodeRune_scalar (p : List Nat) : isScalar (DecodeRune p).1 := by
  unfold isScalar
  rcases p with _ | ⟨p0, _ | ⟨b1, _ | ⟨b2, _ | ⟨b3, t⟩⟩⟩⟩
  · simp [DecodeRune, RuneError]
  all_goals
    simp only [DecodeRune, RuneError, isCont_iff]
    split_ifs <;> simp only [] <;> omega

theorem decode_two (q m : Nat) (t : List Nat) (hq : 2 ≤ q ∧ q ≤ 31) (hm : m < 64) :
    DecodeRune ((0xC0 + q) :: (0x80 + m) :: t) = (q * 64 + m, 2) := by
  have hc : isCont (0x80 + m) = true := (isCont_iff _).2 (by omega)
  simp only [DecodeRune, hc, if_true]
  rw [if_neg (by omega), if_pos (by omega)]
  have e : (0xC0 + q) % 32 * 64 + (0x80 + m) % 64 = q * 64 + m := by omega
  rw [e]

theorem decode_three (a q m : Nat) (t : List Nat) (ha : a ≤ 15) (hq : q < 64) (hm : m < 64)
    (h0 : a = 0 → 32 ≤ q) (hd : a = 13 → q ≤ 31) :
    DecodeRune ((0xE0 + a) :: (0x80 + q) :: (0x80 + m) :: t) = (a * 4096 + q * 64 + m, 3) := by
  have hc : isCont (0x80 + m) = true := (isCont_iff _).2 (by omega)
  simp only [DecodeRune, hc]
  rw [if_neg (by omega), if_neg (by omega), if_pos (by omega),
    if_pos ⟨by split_ifs <;> omega, by split_ifs <;> omega, trivial⟩]
  have e : (0xE0 + a) % 16 * 4096 + (0x80 + q) % 64 * 64 + (0x80 + m) % 64 =
      a * 4096 + q * 64 + m := by omega
  rw [e]

theorem decode_four (a q₁ q₂ m : Nat) (t : List Nat) (ha : a ≤ 4) (hq₁ : q₁ < 64)
    (hq₂ : q₂ < 64) (hm : m < 64) (h0 : a = 0 → 16 ≤ q₁) (h4 : a = 4 → q₁ ≤ 15) :
    DecodeRune ((0xF0 + a) :: (0x80 + q₁) :: (0x80 + q₂) :: (0x80 + m) :: t) =
      (a * 262144 + q₁ * 4096 + q₂ * 64 + m, 4) := by
  have hc : isCont (0x80 + m) = true := (isCont_iff _).2 (by omega)
  have hc₂ : isCont (0x80 + q₂) = true := (isCont_iff _).2 (by omega)
  simp only [DecodeRune, hc, hc₂]
  rw [if_neg (by omega), if_neg (by omega), if_neg (by omega), if_pos (by omega),
    if_pos ⟨by split_ifs <;> omega, by split_ifs <;> omega, trivial, trivial⟩]
  have e : (0xF0 + a) % 8 * 262144 + (0x80 + q₁) % 64 * 4096 + (0x80 + q₂) % 64 * 64
      + (0x80 + m) % 64 = a * 262144 + q₁ * 4096 + q₂ * 64 + m := by omega
  rw [e]

theorem DecodeRune_EncodeRune (r : Nat) (t : List Nat) (hr : isScalar r) :
    DecodeRune (EncodeRune r ++ t) = (r, (EncodeRune r).length) := by
  unfold isScalar at hr
  unfold EncodeRune
  by_cases h1 : r < 0x80
  · rw [if_pos h1]
    exact DecodeRune_ascii r t h1
  · rw [if_neg h1]
    by_cases h2 : r < 0x800
    · rw [if_pos h2]
      have := decode_two (r / 64) (r % 64) t (by omega) (by omega)
      rw [List.cons_append, List.cons_append, List.nil_append, this]
      congr 1
      omega
    · rw [if_neg h2, if_neg (by omega)]
      by_cases h3 : r < 0x10000
      · rw [if_pos h3]
        have := decode_three (r / 4096) ((r / 64) % 64) (r % 64) t (by omega) (by omega)
          (by omega) (by omega) (by omega)
        rw [List.cons_append, List.cons_append, List.cons_append, List.nil_append, this]
        congr 1
        omega
      · rw [if_neg h3]
        have := decode_four (r / 262144) ((r / 4096) % 64) ((r / 64) % 64) (r % 64) t (by omega)
          (by omega) (by omega) (by omega) (by omega) (by omega)
        rw [List.cons_append, List.cons_append, List.cons_append, List.cons_append,
          List.nil_append, this]
        congr 1
        omega

theorem EncodeRune_length_pos (r : Nat) : 1 ≤ (EncodeRune r).length := by
  unfold EncodeRune
  split_ifs <;> simp

theorem unicodeToLower_scalar (ct : Nat → Nat) (hscalar : ∀ r, isScalar r → isScalar (ct r))
    (r : Nat) (hr : isScalar r) : isScalar (unicodeToLower ct r) := by
  unfold unicodeToLower
  split_ifs
  · unfold isScalar; omega
  · exact hr
  · exact hscalar r hr

theorem mapLoop_ascii (ct : Nat → Nat) (s : List Nat) (hs : ∀ b ∈ s, b < 0x80) :
    ∀ fuel, s.length ≤ fuel → mapLoop (unicodeToLower ct) fuel s = s.map lowerByte := by
  induction s with
  | nil => intro fuel _; cases fuel <;> rfl
  | cons b s ih =>
    intro fuel hfuel
    cases fuel with
    | zero => simp at hfuel
    | succ fuel =>
      have hb : b < 0x80 := hs b (List.mem_cons_self _ _)
      have hl : unicodeToLower ct b = lowerByte b := by
        unfold unicodeToLower lowerByte
        rw [if_pos (by omega)]
      have hlt : lowerByte b < 0x80 := (lowerByte_lt b).2 hb
      have he : EncodeRune (lowerByte b) = [lowerByte b] := by
        unfold EncodeRune
        rw [if_pos hlt]
      simp only [mapLoop, DecodeRune_ascii b s hb, hl, he, List.drop_succ_cons, List.drop_zero,
        List.map_cons, List.singleton_append]
      rw [ih (fun x hx => hs x (List.mem_cons_of_mem _ hx)) fuel
        (by simp only [List.length_cons] at hfuel; omega)]

theorem ToLower_eq_mapLoop (ct : Nat → Nat) (s : List Nat) :
    ToLower ct s = mapLoop (unicodeToLower ct) s.length s := by
  unfold ToLower
  split
  · rename_i h
    have hs : ∀ b ∈ s, b < 0x80 := by simpa [List.all_eq_true] using h
    rw [mapLoop_ascii ct s hs s.length (Nat.le_refl _)]
    rfl
  · rfl

theorem mapLoop_idem (ct : Nat → Nat)
    (hidem : ∀ r, unicodeToLower ct (unicodeToLower ct r) = unicodeToLower ct r)
    (hscalar : ∀ r, isScalar r → isScalar (ct r)) :
    ∀ (fuel : Nat) (s : List Nat),
      mapLoop (unicodeToLower ct) (mapLoop (unicodeToLower ct) fuel s).length
        (mapLoop (unicodeToLower ct) fuel s) = mapLoop (unicodeToLower ct) fuel s := by
  intro fuel
  induction fuel with
  | zero => intro s; rfl
  | succ fuel ih =>
    intro s
    cases s with
    | nil => rfl
    | cons b s =>
      simp only [mapLoop]
      have hr : isScalar (unicodeToLower ct (DecodeRune (b :: s)).1) :=
        unicodeToLower_scalar ct hscalar _ (DecodeRune_scalar _)
      have hfr := hidem (DecodeRune (b :: s)).1
      generalize unicodeToLower ct (DecodeRune (b :: s)).1 = r at hr hfr ⊢
      generalize hout : mapLoop (unicodeToLower ct) fuel ((b :: s).drop (DecodeRune (b :: s)).2)
        = out
      have ihout : mapLoop (unicodeToLower ct) out.length out = out := by
        rw [← hout]; exact ih _
      obtain ⟨e0, E', hE⟩ : ∃ e0 E', EncodeRune r = e0 :: E' := by
        cases h : EncodeRune r with
        | nil =>
          have := EncodeRune_length_pos r
          rw [h] at this
          simp at this
        | cons e0 E' => exact ⟨e0, E', rfl⟩
      have hX : EncodeRune r ++ out = e0 :: (E' ++ out) := by rw [hE]; rfl
      have hdec : DecodeRune (e0 :: (E' ++ out)) = (r, E'.length + 1) := by
        rw [← hX, DecodeRune_EncodeRune r out hr, hE]; rfl
      rw [hX]
      simp only [List.length_cons, mapLoop, hdec, hfr, List.drop_succ_cons, List.drop_left]
      rw [mapLoop_fuel (unicodeToLower ct) (E' ++ out).length out (by simp), ihout, hE]
      rfl

theorem ToLower_idem (ct : Nat → Nat)
    (hidem : ∀ r, unicodeToLower ct (unicodeToLower ct r) = unicodeToLower ct r)
    (hscalar : ∀ r, isScalar r → isScalar (ct r)) (s : List Nat) :
    ToLower ct (ToLower ct s) = ToLower ct s := by
  rw [ToLower_eq_mapLoop ct s, ToLower_eq_mapLoop ct (mapLoop (unicodeToLower ct) s.length s)]
  exact mapLoop_idem ct hidem hscalar s.length s

theorem mem_keys_addFreq (m : FreqMap) (k : List Nat) (v : Int) (x : List Nat)
    (hx : x ∈ (addFreq m k v).map Prod.fst) : x ∈ m.map Prod.fst ∨ x = k := by
  rw [keys_addFreq] at hx
  split at hx
  · exact Or.inl hx
  · rcases List.mem_append.mp hx with h | h
    · exact Or.inl h
    · exact Or.inr (by simpa using h)

theorem keys_foldl_incFreq (P : List Nat → Prop) (ws : List (List Nat)) (m : FreqMap)
    (hm : ∀ k ∈ m.map Prod.fst, P k) (hws : ∀ w ∈ ws, P w) :
    ∀ k ∈ (ws.foldl incFreq m).map Prod.fst, P k := by
  induction ws generalizing m with
  | nil => exact hm
  | cons a ws ih =>
    rw [List.foldl_cons]
    apply ih _ _ (fun w hw => hws w (List.mem_cons_of_mem _ hw))
    intro k hk
    rw [incFreq_eq_addFreq] at hk
    rcases mem_keys_addFreq m a 1 k hk with h | h
    · exact hm k h
    · rw [h]; exact hws a (List.mem_cons_self _ _)

theorem keys_mergeLocal (P : List Nat → Prop) (loc m : FreqMap)
    (hm : ∀ k ∈ m.map Prod.fst, P k) (hloc : ∀ k ∈ loc.map Prod.fst, P k) :
    ∀ k ∈ (mergeLocal m loc).map Prod.fst, P k := by
  induction loc generalizing m with
  | nil => exact hm
  | cons e loc ih =>
    unfold mergeLocal
    rw [List.foldl_cons]
    apply ih _ _ (fun k hk => hloc k (by rw [List.map_cons]; exact List.mem_cons_of_mem _ hk))
    intro k hk
    rcases mem_keys_addFreq m e.1 e.2 k hk with h | h
    · exact hm k h
    · rw [h]; exact hloc e.1 (by rw [List.map_cons]; exact List.mem_cons_self _ _)

theorem keys_scanLoop (ct : Nat → Nat) (P : List Nat → Prop) (hP : ∀ u, P (ToLower ct u))
    (buf : List Nat) (n fuel : Nat) (st : ScanState)
    (h : ∀ k ∈ st.freqByWord.map Prod.fst, P k) :
    ∀ k ∈ (scanLoop ct buf n fuel st).freqByWord.map Prod.fst, P k := by
  induction fuel generalizing st with
  | zero => exact h
  | succ fuel ih =>
    unfold scanLoop
    split
    · apply ih
      simp only [scanStep]
      split
      · split
        · split
          · intro k hk
            rw [incFreq_eq_addFreq] at hk
            rcases mem_keys_addFreq _ _ 1 k hk with h' | h'
            · exact h k h'
            · rw [h']; exact hP _
          · exact h
        · exact h
      · exact h
    · exact h

theorem keys_runWorker (ct : Nat → Nat) (P : List Nat → Prop) (hP : ∀ u, P (ToLower ct u))
    (ch : chunk) : ∀ k ∈ (runWorker ct ch).freqByWord.map Prod.fst, P k := by
  have h := keys_scanLoop ct P hP ch.data ch.n ch.n scanInit (by simp [scanInit])
  simp only [runWorker]
  split <;> exact h

theorem keys_collect (P : List Nat → Prop) (results : List workerWords)
    (acc : FreqMap × List splitPart)
    (hres : ∀ r ∈ results, ∀ k ∈ r.freqByWord.map Prod.fst, P k)
    (h : ∀ k ∈ acc.1.map Prod.fst, P k) :
    ∀ k ∈ (results.foldl collectStep acc).1.map Prod.fst, P k := by
  induction results generalizing acc with
  | nil => exact h
  | cons r rs ih =>
    rw [List.foldl_cons]
    exact ih _ (fun x hx => hres x (List.mem_cons_of_mem _ hx))
      (keys_mergeLocal P r.freqByWord acc.1 h (hres r (List.mem_cons_self _ _)))

theorem mergeWords_mem (ct : Nat → Nat) (parts : List splitPart) (word w : List Nat)
    (hw : w ∈ mergeWords ct word parts) : ∃ u, w = ToLower ct u := by
  induction parts generalizing word with
  | nil =>
    simp only [mergeWords] at hw
    split at hw
    · exact ⟨word, by simpa using hw⟩
    · simp at hw
  | cons p parts ih =>
    rw [mergeWords_cons] at hw
    rcases List.mem_append.mp hw with h | h
    · split at h
      · simp at h
      · simp only [flushWord] at h
        split at h
        · exact ⟨_, by simpa using h⟩
        · simp at h
    · exact ih _ h

theorem keys_countChunks (ct : Nat → Nat) (P : List Nat → Prop) (hP : ∀ u, P (ToLower ct u))
    (chunks : List chunk) : ∀ e ∈ countChunks ct chunks, P e.Word := by
  intro e he
  have hk : ∀ k ∈ (globalTable ct (chunks.map (runWorker ct))).map Prod.fst, P k := by
    unfold globalTable
    rw [mergeSplitParts_eq]
    apply keys_foldl_incFreq P
    · apply keys_collect P _ _ _ (by simp)
      intro r hr
      obtain ⟨ch, _, rfl⟩ := List.mem_map.mp hr
      exact keys_runWorker ct P hP ch
    · intro w hw
      obtain ⟨u, rfl⟩ := mergeWords_mem ct _ _ w hw
      exact hP u
  apply hk
  exact (getResult_words_perm _).subset (List.mem_map_of_mem (fun e => e.Word) he)

theorem readerLoop_lower (i : Nat) (reads : List readCall) :
    readerLoop i (reads.map lowerRead) =
      ((readerLoop i reads).1.map lowerChunk, (readerLoop i reads).2) := by
  induction reads generalizing i with
  | nil => rfl
  | cons c reads ih =>
    rw [List.map_cons]
    unfold readerLoop
    have herr : (lowerRead c).err = c.err := rfl
    rw [herr]
    split
    · rfl
    · rfl
    · rw [ih (i + 1)]
      rfl

/-- Two runs whose reads return the same byte counts and errors and whose
buffers, stale bytes included, agree once the ASCII letters are lower-cased
return the same result, for every case table. -/
theorem parallel_equal_on_case_equal_buffers (ct : Nat → Nat) (xs ys : List readCall)
    (h : xs.map lowerRead = ys.map lowerRead) :
    WithManualParsingNoWordAllocParallel ct xs = WithManualParsingNoWordAllocParallel ct ys := by
  have key : ∀ reads : List readCall,
      WithManualParsingNoWordAllocParallel ct (reads.map lowerRead) =
        WithManualParsingNoWordAllocParallel ct reads := by
    intro reads
    have hc := countChunks_lower ct (readerLoop 0 reads).1
    unfold countChunks at hc
    unfold WithManualParsingNoWordAllocParallel
    rw [readerLoop_lower]
    simp only []
    rw [hc]
  rw [← key xs, ← key ys, h]

/-- Every word of a returned list is its own lower-case form, when the case
table is idempotent and maps code points to code points. -/
theorem parallel_words_lower_case (ct : Nat → Nat)
    (hidem : ∀ r, unicodeToLower ct (unicodeToLower ct r) = unicodeToLower ct r)
    (hscalar : ∀ r, isScalar r → isScalar (ct r)) (reads : List readCall)
    (ws : List WordWithFrequency)
    (h : (WithManualParsingNoWordAllocParallel ct reads).1 = some ws) :
    ∀ e ∈ ws, ToLower ct e.Word = e.Word := by
  have hk := keys_countChunks ct (fun w => ToLower ct w = w)
    (fun u => ToLower_idem ct hidem hscalar u) (readerLoop 0 reads).1
  unfold countChunks at hk
  unfold WithManualParsingNoWordAllocParallel at h
  split at h
  · exact absurd h (by simp)
  · simp only [Option.some.injEq] at h
    rw [← h]
    exact hk

/-- C11, evaluated: the streams C3 A0 42 20 C2 and C3 A0 62 20 C2 differ in the
case of one letter ("B", "b") and are both read as 4 bytes, then 1 byte.  With
the last byte read into a fresh buffer the first gives two words; with the last
byte read into the buffer of the first chunk, come back from the pool, the
second gives one word, and so does the first. -/
theorem parallel_case_run_differs :
    ([0xC3, 0xA0, 0x42, 0x20, 0xC2] : List Nat).map lowerByte =
      ([0xC3, 0xA0, 0x62, 0x20, 0xC2] : List Nat).map lowerByte ∧
    WithManualParsingNoWordAllocParallel caselessTable
        [{ data := [0xC3, 0xA0, 0x42, 0x20], n := 4, err := none },
         { data := [0xC2, 0, 0, 0], n := 1, err := none },
         { data := [0, 0, 0, 0], n := 0, err := some ioError.EOF }] =
      (some [{ Word := [0xC3, 0xA0, 0x62], Frequency := 1 },
        { Word := [0xEF, 0xBF, 0xBD], Frequency := 1 }], none) ∧
    WithManualParsingNoWordAllocParallel caselessTable
        [{ data := [0xC3, 0xA0, 0x62, 0x20], n := 4, err := none },
         { data := [0xC2, 0xA0, 0x62, 0x20], n := 1, err := none },
         { data := [0, 0, 0, 0], n := 0, err := some ioError.EOF }] =
      (some [{ Word := [0xC3, 0xA0, 0x62], Frequency := 1 }], none) ∧
    WithManualParsingNoWordAllocParallel caselessTable
        [{ data := [0xC3, 0xA0, 0x42, 0x20], n := 4, err := none },
         { data := [0xC2, 0xA0, 0x42, 0x20], n := 1, err := none },
         { data := [0, 0, 0, 0], n := 0, err := some ioError.EOF }] =
      (some [{ Word := [0xC3, 0xA0, 0x62], Frequency := 1 }], none) := by
  decide

/-! ## Writing and reading back -/

theorem parseDigits_append (ds : List Nat) (c acc : Nat) :
    parseDigits (ds ++ [c]) acc =
      (parseDigits ds acc).bind
        (fun v => if 48 ≤ c ∧ c ≤ 57 then some (v * 10 + (c - 48)) else none) := by
  induction ds generalizing acc with
  | nil => simp [parseDigits]
  | cons d ds ih =>
    simp only [List.cons_append, parseDigits]
    split
    · exact ih _
    · rfl

theorem parseDigits_digitsRev (fuel n : Nat) (h : n < fuel) :
    parseDigits (digitsRev fuel n).reverse 0 = some n := by
  induction fuel generalizing n with
  | zero => omega
  | succ fuel ih =>
    unfold digitsRev
    by_cases hn : n < 10
    · rw [if_pos hn]
      simp only [List.reverse_singleton, parseDigits]
      rw [if_pos (by omega)]
      simp
    · rw [if_neg hn, List.reverse_cons, parseDigits_append, ih (n / 10) (by omega)]
      simp only [Option.some_bind]
      rw [if_pos (by omega)]
      congr 1
      omega

theorem digitsRev_numeral (fuel n : Nat) : ∀ c ∈ digitsRev fuel n, 48 ≤ c ∧ c ≤ 57 := by
  induction fuel generalizing n with
  | zero => simp [digitsRev]
  | succ fuel ih =>
    unfold digitsRev
    split
    · intro c hc
      simp only [List.mem_singleton] at hc
      omega
    · intro c hc
      rcases List.mem_cons.mp hc with rfl | hc
      · omega
      · exact ih _ c hc

theorem formatNat_ne_nil (n : Nat) : formatNat n ≠ [] := by
  unfold formatNat digitsRev
  split <;> simp

theorem formatNat_numeral (n : Nat) : ∀ c ∈ formatNat n, 48 ≤ c ∧ c ≤ 57 := by
  intro c hc
  exact digitsRev_numeral _ _ c (List.mem_reverse.mp hc)

theorem parseDigits_formatNat (n : Nat) : parseDigits (formatNat n) 0 = some n :=
  parseDigits_digitsRev (n + 1) n (Nat.lt_succ_self n)

theorem Atoi_digits (d : Nat) (ds : List Nat) (hd : 48 ≤ d ∧ d ≤ 57) :
    Atoi (d :: ds) =
      (parseDigits (d :: ds) 0).bind (fun n => if n < 2 ^ 63 then some (n : Int) else none) := by
  unfold Atoi
  split
  · rename_i h; cases h
  · rename_i h; injection h with h1 _; omega
  · rename_i h; injection h with h1 _; omega
  · rfl

theorem Atoi_Itoa (f : Int) (hlo : -(2 : Int) ^ 63 ≤ f) (hhi : f < (2 : Int) ^ 63) :
    Atoi (Itoa f) = some f := by
  unfold Itoa
  by_cases hneg : f < 0
  · rw [if_pos hneg]
    simp only [Atoi, formatNat_ne_nil, if_false, parseDigits_formatNat, Option.some_bind]
    have h1 : f.natAbs ≤ 2 ^ 63 := by omega
    rw [if_pos h1]
    congr 1
    omega
  · rw [if_neg hneg]
    obtain ⟨d, ds, hds⟩ : ∃ d ds, formatNat f.natAbs = d :: ds := by
      cases h : formatNat f.natAbs with
      | nil => exact absurd h (formatNat_ne_nil _)
      | cons d ds => exact ⟨d, ds, rfl⟩
    have hd : 48 ≤ d ∧ d ≤ 57 := formatNat_numeral f.natAbs d (by rw [hds]; exact List.mem_cons_self _ _)
    have hp := parseDigits_formatNat f.natAbs
    rw [hds] at hp ⊢
    rw [Atoi_digits d ds hd, hp]
    simp only [Option.some_bind]
    have h1 : f.natAbs < 2 ^ 63 := by omega
    rw [if_pos h1]
    congr 1
    omega

theorem Itoa_ne_nil (f : Int) : Itoa f ≠ [] := by
  unfold Itoa
  split
  · simp
  · exact formatNat_ne_nil _

theorem Itoa_numeral (f : Int) : ∀ c ∈ Itoa f, isNumeral c := by
  unfold Itoa isNumeral
  split
  · intro c hc
    rcases List.mem_cons.mp hc with rfl | hc
    · exact Or.inl rfl
    · exact Or.inr (formatNat_numeral _ c hc)
  · intro c hc
    exact Or.inr (formatNat_numeral _ c hc)

theorem splitLine_append (a X : List Nat) (h : 10 ∉ a) :
    splitLine (a ++ X) = (a ++ (splitLine X).1, (splitLine X).2) := by
  induction a with
  | nil => rfl
  | cons c a ih =>
    have hc : ¬ c = 10 := fun hc => h (by rw [hc]; exact List.mem_cons_self _ _)
    have ha : 10 ∉ a := fun ha => h (List.mem_cons_of_mem _ ha)
    rw [List.cons_append, splitLine, if_neg hc, ih ha]
    rfl

theorem splitLine_line (Y rest : List Nat) (h : 10 ∉ Y) :
    splitLine (Y ++ 10 :: rest) = (Y ++ [10], rest) := by
  rw [splitLine_append Y _ h]
  simp [splitLine]

theorem readLine_line (Y rest : List Nat) (h : 10 ∉ Y) (hcr : Y.getLast? ≠ some 13) :
    readLine (Y ++ 10 :: rest) = (Y ++ [10], rest, false) := by
  have hne : Y ++ 10 :: rest ≠ [] := by simp
  unfold readLine
  rw [if_neg hne, splitLine_line Y rest h]
  simp only [List.reverse_append, List.reverse_cons, List.reverse_nil, List.nil_append,
    List.singleton_append]
  cases hrev : Y.reverse with
  | nil => rfl
  | cons c front =>
    have hlast : Y.getLast? = some c := by
      rw [List.getLast?_eq_head?_reverse, hrev]; rfl
    have hc : c ≠ 13 := fun hc => hcr (by rw [hlast, hc])
    split
    · rename_i heq
      injection heq with _ h2
      injection h2 with h3 _
      exact absurd h3 hc
    · rfl
    · rename_i heq
      injection heq with h1 _
      omega
    · rfl

theorem indexByte_found (c : Nat) (a s : List Nat) (h : c ∉ a) :
    indexByte c (a ++ c :: s) = some (a, s) := by
  induction a with
  | nil => simp [indexByte]
  | cons b a ih =>
    have hb : ¬ b = c := fun hb => h (by rw [hb]; exact List.mem_cons_self _ _)
    have ha : c ∉ a := fun ha => h (List.mem_cons_of_mem _ ha)
    rw [List.cons_append, indexByte, if_neg hb, ih ha]

theorem indexByte_none (c : Nat) (l : List Nat) (h : c ∉ l) : indexByte c l = none := by
  induction l with
  | nil => rfl
  | cons b l ih =>
    have hb : ¬ b = c := fun hb => h (by rw [hb]; exact List.mem_cons_self _ _)
    have hl : c ∉ l := fun hl => h (List.mem_cons_of_mem _ hl)
    rw [indexByte, if_neg hb, ih hl]

theorem lengthNL_line (Y : List Nat) : lengthNL (Y ++ [10]) = 1 := by
  simp [lengthNL]

/-- The last field of a row: the frequency, ended by the line feed. -/
theorem parseRecord_last (fuel : Nat) (D rest : List Nat) (fields : List (List Nat))
    (hne : D ≠ []) (hD : ∀ c ∈ D, isNumeral c) :
    parseRecord (fuel + 1) none (D ++ [10]) rest fields = Except.ok (fields ++ [D], rest) := by
  obtain ⟨d, ds, rfl⟩ : ∃ d ds, D = d :: ds := by
    cases D with
    | nil => exact absurd rfl hne
    | cons d ds => exact ⟨d, ds, rfl⟩
  have hd : isNumeral d := hD d (List.mem_cons_self _ _)
  have hhead : (d :: ds ++ [10]).head? ≠ some 34 := by
    simp only [List.cons_append, List.head?_cons, ne_eq, Option.some.injEq]
    unfold isNumeral at hd
    omega
  have h44 : 44 ∉ d :: ds ++ [10] := by
    intro hmem
    rcases List.mem_append.mp hmem with hm | hm
    · have := hD 44 hm
      unfold isNumeral at this
      omega
    · simp at hm
  have h34 : 34 ∉ d :: ds := by
    intro hm
    have := hD 34 hm
    unfold isNumeral at this
    omega
  have htake : (d :: ds ++ [10]).take ((d :: ds ++ [10]).length - lengthNL (d :: ds ++ [10])) =
      d :: ds := by
    rw [lengthNL_line]
    simp
  rw [parseRecord, if_pos hhead, indexByte_none 44 _ h44]
  simp only [htake]
  rw [if_neg h34]

theorem noCRLF_tail (c : Nat) (s : List Nat) (h : noCRLF (c :: s) = true) : noCRLF s = true := by
  simp only [noCRLF, Bool.and_eq_true] at h
  exact h.2

theorem noCRLF_append (x y : List Nat) (h : noCRLF (x ++ y) = true) : noCRLF y = true := by
  induction x with
  | nil => exact h
  | cons c x ih => exact ih (noCRLF_tail c _ h)

theorem getLast?_cons_ne (c : Nat) (l : List Nat) (h1 : l = [] → c ≠ 13)
    (h2 : l.getLast? ≠ some 13) : (c :: l).getLast? ≠ some 13 := by
  cases l with
  | nil =>
    simp only [List.getLast?_singleton, ne_eq, Option.some.injEq]
    exact h1 rfl
  | cons d l =>
    rw [List.getLast?_cons_cons]
    exact h2

theorem escapeField_append_plain (a s : List Nat) (h : 34 ∉ a) :
    escapeField (a ++ s) = a ++ escapeField s := by
  induction a with
  | nil => rfl
  | cons c a ih =>
    have hc : ¬ c = 34 := fun hc => h (by rw [hc]; exact List.mem_cons_self _ _)
    have ha : 34 ∉ a := fun ha => h (List.mem_cons_of_mem _ ha)
    rw [List.cons_append, escapeField, if_neg hc, ih ha]
    rfl

theorem escapeField_plain (a : List Nat) (h : 34 ∉ a) : escapeField a = a := by
  have := escapeField_append_plain a [] h
  simpa [escapeField] using this

/-- The text that follows a quoted field body splits at its first line feed into
a line that does not end in a carriage return. -/
theorem quoted_text_line (tl b0 r0 : List Nat) (htl : tl = b0 ++ 10 :: r0) (hb0 : 10 ∉ b0)
    (hne : b0 ≠ []) (hlast : b0.getLast? ≠ some 13) :
    ∀ u : List Nat, noCRLF u = true →
      ∃ body rest, escapeField u ++ tl = body ++ 10 :: rest ∧ 10 ∉ body ∧
        body.getLast? ≠ some 13 ∧ (body = [] → u.head? = some 10) := by
  intro u
  induction u with
  | nil =>
    intro _
    exact ⟨b0, r0, by simp [escapeField, htl], hb0, hlast, fun h => absurd h hne⟩
  | cons c u ih =>
    intro hcr
    obtain ⟨body, rest, hT, hbody, hl, hhead⟩ := ih (noCRLF_tail c u hcr)
    by_cases h10 : c = 10
    · refine ⟨[], escapeField u ++ tl, ?_, by simp, by simp, fun _ => by simp [h10]⟩
      simp [escapeField, h10]
    · by_cases h34 : c = 34
      · refine ⟨34 :: 34 :: body, rest, ?_, ?_, ?_, by simp⟩
        · simp only [escapeField, h34, if_true, List.cons_append, hT]
        · simp only [List.mem_cons, not_or]
          exact ⟨by omega, by omega, hbody⟩
        · exact getLast?_cons_ne 34 _ (by simp) (getLast?_cons_ne 34 _ (by simp) hl)
      · refine ⟨c :: body, rest, ?_, ?_, ?_, by simp⟩
        · simp only [escapeField, if_neg h34, List.cons_append, hT]
        · simp only [List.mem_cons, not_or]
          exact ⟨fun h => h10 h.symm, hbody⟩
        · apply getLast?_cons_ne c _ _ hl
          intro hb hc
          have h1 := hhead hb
          simp only [noCRLF, hc, h1, decide_True, Bool.and_self, Bool.not_true,
            Bool.false_and] at hcr
          exact absurd hcr (by simp)

theorem readLine_quoted (tl b0 r0 : List Nat) (htl : tl = b0 ++ 10 :: r0) (hb0 : 10 ∉ b0)
    (hne : b0 ≠ []) (hlast : b0.getLast? ≠ some 13) (u : List Nat) (hcr : noCRLF u = true) :
    readLine (escapeField u ++ tl) =
      ((splitLine (escapeField u ++ tl)).1, (splitLine (escapeField u ++ tl)).2, false) := by
  obtain ⟨body, rest, hT, hbody, hl, _⟩ := quoted_text_line tl b0 r0 htl hb0 hne hlast u hcr
  rw [hT, readLine_line body rest hbody hl, splitLine_line body rest hbody]

theorem first_special_split (c₁ c₂ : Nat) (u : List Nat) :
    (c₁ ∉ u ∧ c₂ ∉ u) ∨
      ∃ a c rest, u = a ++ c :: rest ∧ c₁ ∉ a ∧ c₂ ∉ a ∧ (c = c₁ ∨ c = c₂) := by
  induction u with
  | nil => exact Or.inl ⟨by simp, by simp⟩
  | cons b u ih =>
    by_cases hb : b = c₁ ∨ b = c₂
    · exact Or.inr ⟨[], b, u, rfl, by simp, by simp, hb⟩
    · have hb1 : ¬ b = c₁ := fun h => hb (Or.inl h)
      have hb2 : ¬ b = c₂ := fun h => hb (Or.inr h)
      rcases ih with ⟨h1, h2⟩ | ⟨a, c, rest, hu, h1, h2, hc⟩
      · left
        simp only [List.mem_cons, not_or]
        exact ⟨⟨fun h => hb1 h.symm, h1⟩, ⟨fun h => hb2 h.symm, h2⟩⟩
      · right
        refine ⟨b :: a, c, rest, by rw [hu]; rfl, ?_, ?_, hc⟩
        · simp only [List.mem_cons, not_or]
          exact ⟨fun h => hb1 h.symm, h1⟩
        · simp only [List.mem_cons, not_or]
          exact ⟨fun h => hb2 h.symm, h2⟩

theorem numeral_not_mem (D : List Nat) (hD : ∀ c ∈ D, isNumeral c) (c : Nat)
    (hc : c = 10 ∨ c = 13 ∨ c = 34 ∨ c = 44) : c ∉ D := by
  intro hm
  have := hD c hm
  unfold isNumeral at this
  omega

theorem numeral_getLast (D : List Nat) (hD : ∀ c ∈ D, isNumeral c) (b : List Nat) :
    (b ++ D).getLast? ≠ some 13 ∨ D = [] := by
  rcases List.eq_nil_or_concat D with h | ⟨D', d, h⟩
  · exact Or.inr h
  · left
    have hd := hD d (by rw [h]; simp)
    rw [h, List.concat_eq_append, ← List.append_assoc, List.getLast?_concat]
    simp only [ne_eq, Option.some.injEq]
    have := hd
    unfold isNumeral at this
    omega

theorem parseRecord_quoted_end (f : Nat) (acc u D R : List Nat) (fields : List (List Nat))
    (hne : D ≠ []) (hD : ∀ c ∈ D, isNumeral c) (h34 : 34 ∉ u) :
    parseRecord (f + 2) (some acc) (u ++ 34 :: 44 :: (D ++ [10])) R fields =
      Except.ok (fields ++ [acc ++ u, D], R) := by
  rw [parseRecord, indexByte_found 34 u _ h34]
  simp only []
  rw [parseRecord_last f D R _ hne hD]
  simp

theorem quoted_tail_shape (D R : List Nat) (hne : D ≠ []) (hD : ∀ c ∈ D, isNumeral c) :
    (34 :: 44 :: (D ++ 10 :: R)) = (34 :: 44 :: D) ++ 10 :: R ∧ 10 ∉ (34 :: 44 :: D) ∧
      (34 :: 44 :: D) ≠ [] ∧ (34 :: 44 :: D).getLast? ≠ some 13 := by
  refine ⟨by simp, ?_, by simp, ?_⟩
  · simp only [List.mem_cons, not_or]
    exact ⟨by omega, by omega, numeral_not_mem D hD 10 (Or.inl rfl)⟩
  · rcases numeral_getLast D hD [34, 44] with h | h
    · exact h
    · exact absurd h hne

/-- The loop of `parseRecord` inside a quoted field reads the rest of the word
back, then the frequency field. -/
theorem parseRecord_quoted (D R : List Nat) (hne : D ≠ []) (hD : ∀ c ∈ D, isNumeral c) :
    ∀ (n : Nat) (u : List Nat), u.length ≤ n → noCRLF u = true →
      ∀ (fuel : Nat) (acc : List Nat) (fields : List (List Nat)), n + 2 ≤ fuel →
        parseRecord fuel (some acc)
            (splitLine (escapeField u ++ 34 :: 44 :: (D ++ 10 :: R))).1
            (splitLine (escapeField u ++ 34 :: 44 :: (D ++ 10 :: R))).2 fields =
          Except.ok (fields ++ [acc ++ u, D], R) := by
  obtain ⟨hshape, hb0, hb0ne, hlast⟩ := quoted_tail_shape D R hne hD
  have hplain : ∀ (u : List Nat), 34 ∉ u → 10 ∉ u →
      ∀ (fuel : Nat) (acc : List Nat) (fields : List (List Nat)), 2 ≤ fuel →
        parseRecord fuel (some acc)
            (splitLine (escapeField u ++ 34 :: 44 :: (D ++ 10 :: R))).1
            (splitLine (escapeField u ++ 34 :: 44 :: (D ++ 10 :: R))).2 fields =
          Except.ok (fields ++ [acc ++ u, D], R) := by
    intro u h34 h10 fuel acc fields hfuel
    obtain ⟨f, rfl⟩ : ∃ f, fuel = f + 2 := ⟨fuel - 2, by omega⟩
    have hY : 10 ∉ u ++ 34 :: 44 :: D := by
      intro hm
      rcases List.mem_append.mp hm with hm | hm
      · exact h10 hm
      · exact hb0 hm
    have hsplit : splitLine (escapeField u ++ 34 :: 44 :: (D ++ 10 :: R)) =
        (u ++ 34 :: 44 :: (D ++ [10]), R) := by
      rw [escapeField_plain u h34]
      have := splitLine_line (u ++ 34 :: 44 :: D) R hY
      simpa using this
    rw [hsplit]
    exact parseRecord_quoted_end f acc u D R fields hne hD h34
  intro n
  induction n with
  | zero =>
    intro u hu _ fuel acc fields hfuel
    have : u = [] := List.length_eq_zero.mp (by omega)
    subst this
    exact hplain [] (by simp) (by simp) fuel acc fields (by omega)
  | succ n ih =>
    intro u hu hcr fuel acc fields hfuel
    rcases first_special_split 34 10 u with ⟨h34, h10⟩ | ⟨a, c, rest, hu', h34, h10, hc⟩
    · exact hplain u h34 h10 fuel acc fields (by omega)
    · obtain ⟨f, rfl⟩ : ∃ f, fuel = f + 1 := ⟨fuel - 1, by omega⟩
      subst hu'
      have hlen : rest.length ≤ n := by
        simp only [List.length_append, List.length_cons] at hu
        omega
      have hcr' : noCRLF rest = true := noCRLF_tail c rest (noCRLF_append a _ hcr)
      rcases hc with hc | hc
      · subst hc
        have hesc : escapeField (a ++ 34 :: rest) ++ 34 :: 44 :: (D ++ 10 :: R) =
            (a ++ [34, 34]) ++ (escapeField rest ++ 34 :: 44 :: (D ++ 10 :: R)) := by
          rw [escapeField_append_plain a _ h34]
          simp [escapeField]
        have ha : 10 ∉ a ++ [34, 34] := by
          intro hm
          rcases List.mem_append.mp hm with hm | hm
          · exact h10 hm
          · simp at hm
        rw [hesc, splitLine_append _ _ ha]
        have hline : a ++ [34, 34] ++
            (splitLine (escapeField rest ++ 34 :: 44 :: (D ++ 10 :: R))).1 =
            a ++ 34 :: (34 :: (splitLine (escapeField rest ++ 34 :: 44 :: (D ++ 10 :: R))).1) := by
          simp
        simp only []
        rw [hline, parseRecord, indexByte_found 34 a _ h34]
        simp only []
        rw [ih rest hlen hcr' f _ fields (by omega)]
        simp
      · subst hc
        have hesc : escapeField (a ++ 10 :: rest) ++ 34 :: 44 :: (D ++ 10 :: R) =
            a ++ 10 :: (escapeField rest ++ 34 :: 44 :: (D ++ 10 :: R)) := by
          rw [escapeField_append_plain a _ h34]
          simp [escapeField]
        rw [hesc, splitLine_line a _ h10]
        simp only []
        have hidx : indexByte 34 (a ++ [10]) = none := by
          apply indexByte_none
          intro hm
          rcases List.mem_append.mp hm with hm | hm
          · exact h34 hm
          · simp at hm
        rw [parseRecord, hidx]
        simp only []
        rw [if_pos (by simp), readLine_quoted _ _ R hshape hb0 hb0ne hlast rest hcr']
        simp only []
        rw [ih rest hlen hcr' f _ fields (by omega)]
        simp

theorem escapeField_length (w : List Nat) : w.length ≤ (escapeField w).length := by
  induction w with
  | nil => simp [escapeField]
  | cons c w ih =>
    unfold escapeField
    split
    · simp only [List.length_cons]
      omega
    · simp only [List.length_cons]
      omega

theorem plain_of_no_quotes (w : List Nat) (h : fieldNeedsQuotes w = false) (c : Nat)
    (hc : c = 10 ∨ c = 13 ∨ c = 34 ∨ c = 44) : c ∉ w := by
  intro hm
  have hne : w ≠ [] := List.ne_nil_of_mem hm
  unfold fieldNeedsQuotes at h
  rw [if_neg hne] at h
  split at h
  · exact absurd h (by simp)
  · split at h
    · exact absurd h (by simp)
    · rename_i hany
      apply hany
      rw [List.any_eq_true]
      exact ⟨c, hm, by simpa using hc⟩

theorem writeField_Itoa (f : Int) : writeField (Itoa f) = Itoa f := by
  have hnum := Itoa_numeral f
  have hne := Itoa_ne_nil f
  have hq : fieldNeedsQuotes (Itoa f) = false := by
    unfold fieldNeedsQuotes
    rw [if_neg hne]
    have h1 : Itoa f ≠ [92, 46] := by
      intro h
      have := hnum 92 (by rw [h]; simp)
      unfold isNumeral at this
      omega
    rw [if_neg h1]
    have h2 : ¬ (Itoa f).any (fun c => decide (c = 10 ∨ c = 13 ∨ c = 34 ∨ c = 44)) = true := by
      rw [List.any_eq_true]
      rintro ⟨c, hm, hc⟩
      have := hnum c hm
      unfold isNumeral at this
      simp only [decide_eq_true_eq] at hc
      omega
    rw [if_neg h2]
    obtain ⟨d, ds, hd⟩ : ∃ d ds, Itoa f = d :: ds := by
      cases h : Itoa f with
      | nil => exact absurd h hne
      | cons d ds => exact ⟨d, ds, rfl⟩
    have hdn := hnum d (by rw [hd]; simp)
    unfold isNumeral at hdn
    rw [hd, DecodeRune_ascii d ds (by omega)]
    unfold IsSpace
    rw [if_pos (by show d ≤ 0xFF; omega)]
    simp only [decide_eq_false_iff_not]
    omega
  unfold writeField
  rw [hq]
  simp

theorem lengthNL_le_one (line : List Nat) : lengthNL line ≤ 1 := by
  unfold lengthNL
  split <;> omega

theorem firstLine_of_readLine (fuel : Nat) (input line rest : List Nat)
    (h : readLine input = (line, rest, false)) (hlen : 2 ≤ line.length) :
    firstLine (fuel + 1) input = some (line, rest) := by
  have := lengthNL_le_one line
  rw [firstLine, h]
  simp only [Bool.false_eq_true, if_false]
  rw [if_neg (by omega)]

theorem readRecord_of (input line rest R : List Nat) (fields : List (List Nat)) (fpr : Nat)
    (h : readLine input = (line, rest, false)) (hlen : 2 ≤ line.length)
    (hparse : parseRecord (line.length + rest.length + 1) none line rest [] =
      Except.ok (fields, R))
    (hfields : fields.length = 2) (hfpr : fpr = 0 ∨ fpr = 2) :
    readRecord { input := input, fieldsPerRecord := fpr } =
      csvRead.record fields { input := R, fieldsPerRecord := 2 } := by
  unfold readRecord
  simp only []
  rw [firstLine_of_readLine _ input line rest h hlen]
  simp only []
  rw [hparse]
  simp only []
  rcases hfpr with h0 | h2
  · subst h0
    simp [hfields]
  · subst h2
    simp [hfields]

/-- The row of an entry whose word has no carriage return directly before a
line feed is read back as the word and the numeral. -/
theorem readRecord_writeRow (e : WordWithFrequency) (R : List Nat) (fpr : Nat)
    (hcr : noCRLF e.Word = true) (hfpr : fpr = 0 ∨ fpr = 2) :
    readRecord { input := writeRow e ++ R, fieldsPerRecord := fpr } =
      csvRead.record [e.Word, Itoa e.Frequency] { input := R, fieldsPerRecord := 2 } := by
  have hD := Itoa_numeral e.Frequency
  have hne := Itoa_ne_nil e.Frequency
  obtain ⟨hshape, hb0, hb0ne, hlast⟩ := quoted_tail_shape (Itoa e.Frequency) R hne hD
  have hDlen : 1 ≤ (Itoa e.Frequency).length := by
    cases h : Itoa e.Frequency with
    | nil => exact absurd h hne
    | cons d ds => simp
  unfold writeRow
  rw [writeField_Itoa]
  by_cases hq : fieldNeedsQuotes e.Word = true
  · obtain ⟨body, rest, hT, hbody, hl, _⟩ :=
      quoted_text_line _ _ R hshape hb0 hb0ne hlast e.Word hcr
    have hinput : writeField e.Word ++ [44] ++ Itoa e.Frequency ++ [10] ++ R =
        (34 :: body) ++ 10 :: rest := by
      have hcons : (34 :: body) ++ 10 :: rest = 34 :: (body ++ 10 :: rest) := rfl
      unfold writeField
      rw [if_pos hq, hcons, ← hT]
      simp
    have hsplit := splitLine_line body rest hbody
    rw [← hT] at hsplit
    have hlenT := congrArg List.length hT
    have hesc := escapeField_length e.Word
    simp only [List.length_append, List.length_cons] at hlenT
    rw [hinput]
    apply readRecord_of _ (34 :: body ++ [10]) rest R [e.Word, Itoa e.Frequency] fpr _ _ _ rfl
      hfpr
    · exact readLine_line (34 :: body) rest
        (by simp only [List.mem_cons, not_or]; exact ⟨by omega, hbody⟩)
        (getLast?_cons_ne 34 body (by simp) hl)
    · simp
    · have hfuel : (34 :: body ++ [10]).length + rest.length + 1 =
          (body.length + rest.length + 2) + 1 := by
        simp only [List.length_append, List.length_cons, List.length_nil]
        omega
      have key := parseRecord_quoted (Itoa e.Frequency) R hne hD e.Word.length e.Word
        (le_refl _) hcr (body.length + rest.length + 2) [] [] (by omega)
      rw [hsplit] at key
      have hline : (34 :: body ++ [10]).tail = body ++ [10] := rfl
      rw [hfuel, parseRecord, if_neg (by simp), hline, key]
      simp
  · have hq' : fieldNeedsQuotes e.Word = false := by simpa using hq
    have h10 := plain_of_no_quotes e.Word hq' 10 (by simp)
    have h34 := plain_of_no_quotes e.Word hq' 34 (by simp)
    have h44 := plain_of_no_quotes e.Word hq' 44 (by simp)
    have hinput : writeField e.Word ++ [44] ++ Itoa e.Frequency ++ [10] ++ R =
        (e.Word ++ 44 :: Itoa e.Frequency) ++ 10 :: R := by
      unfold writeField
      rw [if_neg hq]
      simp
    have hY : 10 ∉ e.Word ++ 44 :: Itoa e.Frequency := by
      intro hm
      rcases List.mem_append.mp hm with hm | hm
      · exact h10 hm
      · rcases List.mem_cons.mp hm with hm | hm
        · omega
        · exact numeral_not_mem _ hD 10 (by simp) hm
    have hlastY : (e.Word ++ 44 :: Itoa e.Frequency).getLast? ≠ some 13 := by
      rcases numeral_getLast (Itoa e.Frequency) hD (e.Word ++ [44]) with h | h
      · simpa using h
      · exact absurd h hne
    rw [hinput]
    apply readRecord_of _ (e.Word ++ 44 :: Itoa e.Frequency ++ [10]) R R
      [e.Word, Itoa e.Frequency] fpr _ _ _ rfl hfpr
    · exact readLine_line _ R hY hlastY
    · simp only [List.length_append, List.length_cons, List.length_nil]
      omega
    · have hfuel : (e.Word ++ 44 :: Itoa e.Frequency ++ [10]).length + R.length + 1 =
          (e.Word.length + (Itoa e.Frequency).length + R.length + 1) + 1 + 1 := by
        simp only [List.length_append, List.length_cons, List.length_nil]
        omega
      have hhead : (e.Word ++ 44 :: Itoa e.Frequency ++ [10]).head? ≠ some 34 := by
        cases hw : e.Word with
        | nil => simp
        | cons c w =>
          simp only [List.cons_append, List.head?_cons, ne_eq, Option.some.injEq]
          intro hc
          apply h34
          rw [hw, hc]
          exact List.mem_cons_self _ _
      have hline : e.Word ++ 44 :: Itoa e.Frequency ++ [10] =
          e.Word ++ 44 :: (Itoa e.Frequency ++ [10]) := by simp
      rw [hfuel, parseRecord, if_pos hhead, hline, indexByte_found 44 e.Word _ h44]
      simp only []
      rw [if_neg h34, parseRecord_last _ _ R _ hne hD]
      simp

theorem WriteResult_cons (e : WordWithFrequency) (es : List WordWithFrequency) :
    WriteResult (e :: es) = writeRow e ++ WriteResult es := by
  simp [WriteResult]

/-- The loop of `ReadResult` on the text written for a list of entries appends
the entries to the words read so far. -/
theorem readLoop_rows (es : List WordWithFrequency) :
    (∀ e ∈ es, noCRLF e.Word = true) →
    (∀ e ∈ es, -(2 : Int) ^ 63 ≤ e.Frequency ∧ e.Frequency < (2 : Int) ^ 63) →
    ∀ (fuel i fpr : Nat) (acc : List WordWithFrequency), es.length + 1 ≤ fuel →
      (fpr = 0 ∨ fpr = 2) →
      readLoop fuel i { input := WriteResult es, fieldsPerRecord := fpr } acc =
        readOutcome.ok (acc ++ es) := by
  induction es with
  | nil =>
    intro _ _ fuel i fpr acc hfuel _
    obtain ⟨f, rfl⟩ : ∃ f, fuel = f + 1 := ⟨fuel - 1, by omega⟩
    simp [readLoop, readRecord, WriteResult, firstLine, readLine]
  | cons e es ih =>
    intro hcr hrange fuel i fpr acc hfuel hfpr
    obtain ⟨f, rfl⟩ : ∃ f, fuel = f + 1 := ⟨fuel - 1, by omega⟩
    have he := hrange e (List.mem_cons_self _ _)
    rw [WriteResult_cons, readLoop,
      readRecord_writeRow e _ fpr (hcr e (List.mem_cons_self _ _)) hfpr]
    simp only []
    rw [Atoi_Itoa e.Frequency he.1 he.2]
    simp only []
    rw [ih (fun x hx => hcr x (List.mem_cons_of_mem _ hx))
      (fun x hx => hrange x (List.mem_cons_of_mem _ hx)) f (i + 1) 2 _
      (by simp only [List.length_cons] at hfuel; omega) (Or.inr rfl)]
    simp

theorem writeRow_length (e : WordWithFrequency) : 1 ≤ (writeRow e).length := by
  simp only [writeRow, List.length_append, List.length_cons, List.length_nil]
  omega

theorem WriteResult_length (es : List WordWithFrequency) :
    es.length ≤ (WriteResult es).length := by
  induction es with
  | nil => simp
  | cons e es ih =>
    have := writeRow_length e
    rw [WriteResult_cons]
    simp only [List.length_cons, List.length_append]
    omega

/-- C15, counterexample: the word "a\r\nb" with frequency 1 is written as a
quoted field and read back as "a\nb", not as the word written. -/
theorem read_changes_crlf_word :
    WriteResult [{ Word := [97, 13, 10, 98], Frequency := 1 }] =
      [34, 97, 13, 10, 98, 34, 44, 49, 10] ∧
    ReadResult (WriteResult [{ Word := [97, 13, 10, 98], Frequency := 1 }]) =
      readOutcome.ok [{ Word := [97, 10, 98], Frequency := 1 }] ∧
    ReadResult (WriteResult [{ Word := [97, 13, 10, 98], Frequency := 1 }]) ≠
      readOutcome.ok [{ Word := [97, 13, 10, 98], Frequency := 1 }] := by
  decide

/-- C15, amended: for every list of entries whose words hold no carriage
return directly followed by a line feed and whose frequencies are values of a
64-bit `int`, `ReadResult` on the text written by `WriteResult` succeeds and
returns the same list. -/
theorem read_undoes_write (es : List WordWithFrequency)
    (hcr : ∀ e ∈ es, noCRLF e.Word = true)
    (hrange : ∀ e ∈ es, -(2 : Int) ^ 63 ≤ e.Frequency ∧ e.Frequency < (2 : Int) ^ 63) :
    ReadResult (WriteResult es) = readOutcome.ok es := by
  have hlen := WriteResult_length es
  unfold ReadResult
  rw [readLoop_rows es hcr hrange _ 0 0 [] (by omega) (Or.inl rfl)]
  rfl

/-- Instance of C15: the five entries of the test and their text
"the,1603\nand,766\nto,706\na,614\nshe,517\n". -/
theorem read_undoes_write_witness :
    WriteResult [{ Word := [116, 104, 101], Frequency := 1603 },
        { Word := [97, 110, 100], Frequency := 766 }, { Word := [116, 111], Frequency := 706 },
        { Word := [97], Frequency := 614 }, { Word := [115, 104, 101], Frequency := 517 }] =
      [116, 104, 101, 44, 49, 54, 48, 51, 10, 97, 110, 100, 44, 55, 54, 54, 10,
        116, 111, 44, 55, 48, 54, 10, 97, 44, 54, 49, 52, 10, 115, 104, 101, 44, 53, 49, 55, 10] ∧
    ReadResult (WriteResult [{ Word := [116, 104, 101], Frequency := 1603 },
        { Word := [97, 110, 100], Frequency := 766 }, { Word := [116, 111], Frequency := 706 },
        { Word := [97], Frequency := 614 }, { Word := [115, 104, 101], Frequency := 517 }]) =
      readOutcome.ok [{ Word := [116, 104, 101], Frequency := 1603 },
        { Word := [97, 110, 100], Frequency := 766 }, { Word := [116, 111], Frequency := 706 },
        { Word := [97], Frequency := 614 }, { Word := [115, 104, 101], Frequency := 517 }] :=
  ⟨by decide,
    read_undoes_write [{ Word := [116, 104, 101], Frequency := 1603 },
        { Word := [97, 110, 100], Frequency := 766 }, { Word := [116, 111], Frequency := 706 },
        { Word := [97], Frequency := 614 }, { Word := [115, 104, 101], Frequency := 517 }]
      (by decide) (by decide)⟩

/-- C20, evaluated: on the text "a\n", and on "a" without line feed, the
reader returns a record of one field without error, and the access to `rec[1]`
in `ReadResult` is out of range. -/
theorem ReadResult_one_field_record :
    ReadResult [97, 10] = readOutcome.indexOutOfRange ∧
    ReadResult [97] = readOutcome.indexOutOfRange ∧
    readRecord { input := [97, 10], fieldsPerRecord := 0 } =
      csvRead.record [[97]] { input := [], fieldsPerRecord := 1 } := by
  decide

end Count
